import Mathlib

/-!
# LC-2K cache simulator: a shallow embedding of `cache.c`, `my_p1s_sim.c`
and the instruction encoding of `assembler.c`

The C program keeps one global `cacheStruct cache`, a backing store
(`state.mem` behind `mem_access`) and prints one line per data transfer
(`printAction`).  The embedding threads these three through a `Machine`
value.

Modelling conventions.

* A C `int` is a Lean `Int`.  `/` and `%` of C truncate toward zero, so they
  are `Int.tdiv` and `Int.tmod`.  Arithmetic inside `cache_access` is done on
  mathematical integers: signed overflow is undefined in C, and for a table of
  at most `MAX_CACHE_SIZE` blocks and a 16-bit address no address computation
  leaves the range of `int`, while a counter or label grows by at most one per
  call.  The one product computed on unvalidated input, `blocksPerSet * numSets`
  in `cache_init`, is reduced to the 32-bit two's-complement range (`wrap32`).
* A C array is a total function on `Int`; the embedding does not trap an
  index outside the declared bound.  `cache_access` keeps its indices inside
  the set of the address when the address is not negative, which is why the
  statements about calls take `0 ≤ addr`.  Where a statement is about the
  indices themselves, `block_indices`, `data_indices` and the field
  `memIndices` of `execResult` list the indices that a call evaluates.
* A `for (i = 0; i < n; i++)` loop is a left fold over `List.range n`; a loop
  that leaves with `break` at the first index satisfying a test is
  `List.find?` over `List.range n`.
* `x << k` on a non-negative `int` whose result fits is `x * 2 ^ k`; it is
  written `x <<< k`.
* `printed` is the list of `printAction` calls so far, oldest first.
  `memCalls` is a history variable: the list of `mem_access` calls so far,
  oldest first.  It is not a variable of the program.
-/

namespace CacheSim

/-! ## Constants and data types (`cache.c` lines 11-63) -/

/-- The constant `MAX_CACHE_SIZE` of `cache.c`. -/
def MAX_CACHE_SIZE : Int := 256

/-- The constant `MAX_BLOCK_SIZE` of `cache.c`. -/
def MAX_BLOCK_SIZE : Int := 256

/-- The constant `MEMORYSIZE` of `my_p1s_sim.c`. -/
def MEMORYSIZE : Int := 65536

/-- The enumeration `actionType` of `cache.c`. -/
inductive actionType where
  | cacheToProcessor
  | processorToCache
  | memoryToCache
  | cacheToMemory
  | cacheToNowhere
  deriving DecidableEq, Repr

/-- The struct `blockStruct` of `cache.c`. -/
structure blockStruct where
  data : Int → Int
  dirty : Int
  lruLabel : Int
  tag : Int
  valid : Int

/-- The struct `cacheStruct` of `cache.c`. -/
structure cacheStruct where
  blocks : Int → blockStruct
  blockSize : Int
  numSets : Int
  blocksPerSet : Int
  hits : Int
  misses : Int
  writebacks : Int

/-- The struct `stateType` of `my_p1s_sim.c`. -/
structure stateType where
  pc : Int
  mem : Int → Int
  reg : Int → Int
  numMemory : Int

/-- One call `printAction(address, size, type)`. -/
structure Action where
  address : Int
  size : Int
  type : actionType
  deriving DecidableEq, Repr

/-- One call `mem_access(addr, write_flag, write_data)`. -/
structure MemCall where
  addr : Int
  write_flag : Int
  write_data : Int
  deriving DecidableEq, Repr

/-- The whole program state: the global `cache`, the simulator's `state`,
the counter `num_mem_accesses`, the transfer lines printed so far and the
history of `mem_access` calls. -/
structure Machine where
  cache : cacheStruct
  state : stateType
  num_mem_accesses : Int
  printed : List Action
  memCalls : List MemCall

/-- One call `cache_access(addr, write_flag, write_data)`. -/
structure Access where
  addr : Int
  write_flag : Int
  write_data : Int
  deriving DecidableEq, Repr

/-- The value of a zero-initialised `blockStruct`. -/
def block_zero : blockStruct :=
  { data := fun _ => 0, dirty := 0, lruLabel := 0, tag := 0, valid := 0 }

/-- The global `cache` before `main` runs: C zero-initialises it. -/
def cache_global : cacheStruct :=
  { blocks := fun _ => block_zero, blockSize := 0, numSets := 0, blocksPerSet := 0,
    hits := 0, misses := 0, writebacks := 0 }

/-- Assignment `cache.blocks[i] = b`. -/
def cacheStruct.setBlock (c : cacheStruct) (i : Int) (b : blockStruct) : cacheStruct :=
  { c with blocks := fun j => if j = i then b else c.blocks j }

/-- Reduction of an integer to the range of a 32-bit two's-complement `int`. -/
def wrap32 (x : Int) : Int := (x + 2147483648) % 4294967296 - 2147483648

/-! ## Backing store (`my_p1s_sim.c` lines 49-66) -/

/-- The function `mem_access` of `my_p1s_sim.c`; the second component is the
state after the call. -/
def mem_access (m : Machine) (addr write_flag write_data : Int) : Int × Machine :=
  let m1 : Machine :=
    { m with num_mem_accesses := m.num_mem_accesses + 1,
             memCalls := m.memCalls ++ [{ addr := addr, write_flag := write_flag,
                                           write_data := write_data }] }
  let m2 : Machine :=
    if write_flag ≠ 0 then
      let st1 : stateType :=
        { m1.state with mem := fun a => if a = addr then write_data else m1.state.mem a }
      let st2 : stateType :=
        if st1.numMemory ≤ addr then { st1 with numMemory := addr + 1 } else st1
      { m1 with state := st2 }
    else m1
  (m2.state.mem addr, m2)

/-- The function `get_num_mem_accesses` of `my_p1s_sim.c`. -/
def get_num_mem_accesses (m : Machine) : Int := m.num_mem_accesses

/-! ## Addressing (`cache.c` lines 72-85) -/

/-- The function `get_tag` of `cache.c`. -/
def get_tag (c : cacheStruct) (addr : Int) : Int :=
  Int.tdiv addr (c.blockSize * c.numSets)

/-- The function `get_set_index` of `cache.c`. -/
def get_set_index (c : cacheStruct) (addr : Int) : Int :=
  Int.tmod (Int.tdiv addr c.blockSize) c.numSets

/-- The function `get_block_offset` of `cache.c`. -/
def get_block_offset (c : cacheStruct) (addr : Int) : Int :=
  Int.tmod addr c.blockSize

/-! ## Initialisation (`cache.c` lines 91-136) -/

/-- The three fatal messages of `cache_init` (each followed by `exit(1)`). -/
inductive initError where
  | notPositive
  | tooManyBlocks
  | blockTooLarge
  deriving DecidableEq, Repr

/-- The two warnings of `cache_init`. -/
inductive initWarning where
  | blockSizeNotPow2 (blockSize : Int)
  | numSetsNotPow2 (numSets : Int)
  deriving DecidableEq, Repr

/-- The macro `is_power_of_2(val)`, that is `(val && !(val & (val - 1)))`. -/
def is_power_of_2 (val : Int) : Bool :=
  decide (val ≠ 0) && !decide (Int.land val (val - 1) ≠ 0)

/-- The function `cache_init` of `cache.c`, run on the current value of the
global `cache`.  `Except.error` is a run that ends in `exit(1)`; a run that
returns yields the warnings it printed and the new value of `cache`. -/
def cache_init (cache : cacheStruct) (blockSize numSets blocksPerSet : Int) :
    Except initError (List initWarning × cacheStruct) :=
  if blockSize ≤ 0 ∨ numSets ≤ 0 ∨ blocksPerSet ≤ 0 then
    Except.error initError.notPositive
  else if wrap32 (blocksPerSet * numSets) > MAX_CACHE_SIZE then
    Except.error initError.tooManyBlocks
  else if blockSize > MAX_BLOCK_SIZE then
    Except.error initError.blockTooLarge
  else
    let w1 : List initWarning :=
      if is_power_of_2 blockSize then [] else [initWarning.blockSizeNotPow2 blockSize]
    let w2 : List initWarning :=
      if is_power_of_2 numSets then [] else [initWarning.numSetsNotPow2 numSets]
    let c1 : cacheStruct :=
      { cache with blockSize := blockSize, numSets := numSets, blocksPerSet := blocksPerSet,
                   hits := 0, misses := 0, writebacks := 0 }
    let c2 : cacheStruct :=
      (List.range (wrap32 (numSets * blocksPerSet)).toNat).foldl
        (fun (c : cacheStruct) (i : Nat) =>
          c.setBlock (i : Int)
            { c.blocks (i : Int) with valid := 0, dirty := 0, lruLabel := 0, tag := 0 })
        c1
    Except.ok (w1 ++ w2, c2)

/-- The machine when `main` has loaded the program into `st` and `cache_init`
has returned `c`: nothing printed by `printAction`, no `mem_access` yet. -/
def start (st : stateType) (c : cacheStruct) : Machine :=
  { cache := c, state := st, num_mem_accesses := 0, printed := [], memCalls := [] }

/-! ## Replacement (`cache.c` lines 139-169) -/

/-- The function `find_lru_block` of `cache.c`.  The loop state is the pair
`(highest_lru, lru_block)`; the loop variable runs over `1 .. blocksPerSet-1`. -/
def find_lru_block (c : cacheStruct) (set_index : Int) : Int :=
  let set_start := set_index * c.blocksPerSet
  ((List.range (c.blocksPerSet.toNat - 1)).foldl
    (fun (st : Int × Int) (k : Nat) =>
      let block := set_start + ((k + 1 : Nat) : Int)
      if (c.blocks block).valid ≠ 0 ∧ (c.blocks block).lruLabel > st.1 then
        ((c.blocks block).lruLabel, block)
      else st)
    ((c.blocks set_start).lruLabel, set_start)).2

/-- The function `update_lru` of `cache.c`. -/
def update_lru (c : cacheStruct) (set_index accessed_block : Int) : cacheStruct :=
  let set_start := set_index * c.blocksPerSet
  let c1 : cacheStruct :=
    (List.range c.blocksPerSet.toNat).foldl
      (fun (acc : cacheStruct) (i : Nat) =>
        let block := set_start + (i : Int)
        if block ≠ accessed_block ∧ (acc.blocks block).valid ≠ 0 then
          acc.setBlock block
            { acc.blocks block with lruLabel := (acc.blocks block).lruLabel + 1 }
        else acc)
      c
  c1.setBlock accessed_block { c1.blocks accessed_block with lruLabel := 0 }

/-! ## Access (`cache.c` lines 181-269, 308-336) -/

/-- The function `printAction` of `cache.c`: one more transfer line. -/
def printAction (m : Machine) (address size : Int) (type : actionType) : Machine :=
  { m with printed := m.printed ++ [{ address := address, size := size, type := type }] }

/-- Lines 190-199, the scan: the first way `i` of the set whose block is valid
and carries `tag`. -/
def lookup (c : cacheStruct) (set_start tag : Int) : Option Nat :=
  (List.range c.blocksPerSet.toNat).find?
    (fun (i : Nat) => decide ((c.blocks (set_start + (i : Int))).valid ≠ 0 ∧
                      (c.blocks (set_start + (i : Int))).tag = tag))

/-- Lines 208-215, the scan: the first way `i` of the set whose block is not
valid. -/
def find_empty (c : cacheStruct) (set_start : Int) : Option Nat :=
  (List.range c.blocksPerSet.toNat).find?
    (fun (i : Nat) => decide ((c.blocks (set_start + (i : Int))).valid = 0))

/-- Lines 206-220: the block that a miss will use. -/
def choose_victim (c : cacheStruct) (set_index set_start : Int) : Int :=
  let found_block : Int :=
    match find_empty c set_start with
    | some i => set_start + (i : Int)
    | none => -1
  if found_block = -1 then find_lru_block c set_index else found_block

/-- Lines 222-238: write a valid dirty victim back, or announce that a valid
clean one is dropped. -/
def evict (m : Machine) (set_index found_block : Int) : Machine :=
  if (m.cache.blocks found_block).valid ≠ 0 ∧ (m.cache.blocks found_block).dirty ≠ 0 then
    let old_addr :=
      ((m.cache.blocks found_block).tag * m.cache.numSets + set_index) * m.cache.blockSize
    let m1 : Machine := { m with cache := { m.cache with writebacks := m.cache.writebacks + 1 } }
    let m2 := printAction m1 old_addr m1.cache.blockSize actionType.cacheToMemory
    (List.range m2.cache.blockSize.toNat).foldl
      (fun (acc : Machine) (i : Nat) =>
        (mem_access acc (old_addr + (i : Int)) 1
          ((acc.cache.blocks found_block).data (i : Int))).2)
      m2
  else if (m.cache.blocks found_block).valid ≠ 0 then
    let old_addr :=
      ((m.cache.blocks found_block).tag * m.cache.numSets + set_index) * m.cache.blockSize
    printAction m old_addr m.cache.blockSize actionType.cacheToNowhere
  else m

/-- Lines 240-250: read the new block from memory and mark it. -/
def fill (m : Machine) (addr tag found_block : Int) : Machine :=
  let base_addr := (Int.tdiv addr m.cache.blockSize) * m.cache.blockSize
  let m1 := printAction m base_addr m.cache.blockSize actionType.memoryToCache
  let m2 : Machine :=
    (List.range m1.cache.blockSize.toNat).foldl
      (fun (acc : Machine) (i : Nat) =>
        let r := mem_access acc (base_addr + (i : Int)) 0 0
        let b := r.2.cache.blocks found_block
        { r.2 with cache := r.2.cache.setBlock found_block
                     { b with data := fun k => if k = (i : Int) then r.1 else b.data k } })
      m1
  let b := m2.cache.blocks found_block
  { m2 with cache := m2.cache.setBlock found_block
              { b with valid := 1, dirty := 0, tag := tag } }

/-- Lines 183-251: find the block that serves the access, filling it on a
miss.  The first component is `found_block` as it stands at line 253. -/
def resolve (m : Machine) (addr : Int) : Int × Machine :=
  let set_index := get_set_index m.cache addr
  let tag := get_tag m.cache addr
  let set_start := set_index * m.cache.blocksPerSet
  let found_block : Int :=
    match lookup m.cache set_start tag with
    | some i => set_start + (i : Int)
    | none => -1
  let m1 : Machine :=
    match lookup m.cache set_start tag with
    | some _ => { m with cache := { m.cache with hits := m.cache.hits + 1 } }
    | none => m
  if found_block = -1 then
    let m2 : Machine := { m1 with cache := { m1.cache with misses := m1.cache.misses + 1 } }
    let victim := choose_victim m2.cache set_index set_start
    let m3 := evict m2 set_index victim
    (victim, fill m3 addr tag victim)
  else (found_block, m1)

/-- The function `cache_access` of `cache.c`; the second component is the
state after the call. -/
def cache_access (m : Machine) (addr write_flag write_data : Int) : Int × Machine :=
  let set_index := get_set_index m.cache addr
  let block_offset := get_block_offset m.cache addr
  let r := resolve m addr
  let found_block := r.1
  let m1 : Machine := { r.2 with cache := update_lru r.2.cache set_index found_block }
  if write_flag ≠ 0 then
    let m2 := printAction m1 addr 1 actionType.processorToCache
    let b := m2.cache.blocks found_block
    (0, { m2 with cache := m2.cache.setBlock found_block
                    { b with data := fun k => if k = block_offset then write_data else b.data k,
                             dirty := 1 } })
  else
    let m2 := printAction m1 addr 1 actionType.cacheToProcessor
    ((m2.cache.blocks found_block).data block_offset, m2)

/-- Data of block `f` after `k` rounds of the fill loop (lines 243-246) started
in `m` with base address `base`: words `0 .. k-1` come from the backing store. -/
def filled (m : Machine) (base f : Int) (k : Nat) : Int → Int :=
  fun x => if 0 ≤ x ∧ x < (k : Int) then m.state.mem (base + x) else (m.cache.blocks f).data x

/-- The cache after `k` rounds of the loop of `update_lru` (lines 160-167) over
the set that starts at `set_start`, with `f` the accessed block: every valid
block among the first `k` ways other than `f` has its label raised by one. -/
def bumped (c : cacheStruct) (set_start f : Int) (k : Nat) : cacheStruct :=
  { c with blocks := fun j =>
      if (set_start ≤ j ∧ j < set_start + (k : Int)) ∧ j ≠ f ∧ (c.blocks j).valid ≠ 0 then
        { c.blocks j with lruLabel := (c.blocks j).lruLabel + 1 }
      else c.blocks j }

/-- The geometry is positive, as `cache_init` leaves it. -/
def GeomOk (c : cacheStruct) : Prop :=
  0 < c.blockSize ∧ 0 < c.numSets ∧ 0 < c.blocksPerSet

/-- Block index `j` belongs to set `s`. -/
def inSet (c : cacheStruct) (s j : Int) : Prop :=
  s * c.blocksPerSet ≤ j ∧ j < s * c.blocksPerSet + c.blocksPerSet

instance (c : cacheStruct) : Decidable (GeomOk c) := by
  unfold GeomOk; infer_instance

instance (c : cacheStruct) (s j : Int) : Decidable (inSet c s j) := by
  unfold inSet; infer_instance

/-- The access to `addr` hits in `m`: the scan of lines 190-199 finds a way. -/
def is_hit (m : Machine) (addr : Int) : Bool :=
  (lookup m.cache (get_set_index m.cache addr * m.cache.blocksPerSet)
    (get_tag m.cache addr)).isSome

/-- The block that a miss on `addr` in `m` uses (lines 206-220). -/
def victim (m : Machine) (addr : Int) : Int :=
  choose_victim m.cache (get_set_index m.cache addr)
    (get_set_index m.cache addr * m.cache.blocksPerSet)

/-- The transfer line of lines 257-268: one word between processor and cache. -/
def proc_action (addr write_flag : Int) : Action :=
  if write_flag ≠ 0 then { address := addr, size := 1, type := actionType.processorToCache }
  else { address := addr, size := 1, type := actionType.cacheToProcessor }

/-- The base address `old_addr` of block `f` of set `set_index` (lines 225, 236). -/
def old_addr (c : cacheStruct) (set_index f : Int) : Int :=
  ((c.blocks f).tag * c.numSets + set_index) * c.blockSize

/-- The base address `base_addr` of the block that holds `addr` (line 241). -/
def base_addr (c : cacheStruct) (addr : Int) : Int :=
  Int.tdiv addr c.blockSize * c.blockSize

/-- A sequence of `cache_access` calls, oldest first. -/
def run (m : Machine) : List Access → Machine
  | [] => m
  | a :: rest => run (cache_access m a.addr a.write_flag a.write_data).2 rest

/-- The states that the program can be in: `cache_init` has returned, and
then `cache_access` has been called any number of times, each time with a
non-negative address. -/
inductive Reachable : Machine → Prop where
  | init (st : stateType) (bs ns bps : Int) (ws : List initWarning) (c : cacheStruct)
      (h : cache_init cache_global bs ns bps = Except.ok (ws, c)) : Reachable (start st c)
  | step (m : Machine) (a wf wd : Int) (hm : Reachable m) (ha : 0 ≤ a) :
      Reachable (cache_access m a wf wd).2

/-- No set holds two distinct valid blocks with the same tag. -/
def NoDupTags (c : cacheStruct) : Prop :=
  ∀ s i j : Int, inSet c s i → inSet c s j → (c.blocks i).valid ≠ 0 → (c.blocks j).valid ≠ 0 →
    (c.blocks i).tag = (c.blocks j).tag → i = j

/-- Every dirty block is valid. -/
def DirtyValid (c : cacheStruct) : Prop :=
  ∀ j : Int, (c.blocks j).dirty ≠ 0 → (c.blocks j).valid ≠ 0

/-- No recency label is negative. -/
def LabelsNonneg (c : cacheStruct) : Prop :=
  ∀ j : Int, 0 ≤ (c.blocks j).lruLabel

/-- The block resolved by the most recent access to set `s` in the run of
`accs` from `m`; `r` is the answer before the run. -/
def last_resolved (s : Int) : Machine → List Access → Option Int → Option Int
  | _, [], r => r
  | m, a :: rest, r =>
    last_resolved s (cache_access m a.addr a.write_flag a.write_data).2 rest
      (if get_set_index m.cache a.addr = s then some (resolve m a.addr).1 else r)

/-- The number of calls in the run of `accs` from `m` that miss with a victim
that is valid and dirty. -/
def dirty_evictions : Machine → List Access → Nat
  | _, [] => 0
  | m, a :: rest =>
    (if is_hit m a.addr = false ∧ (m.cache.blocks (victim m a.addr)).valid ≠ 0 ∧
        (m.cache.blocks (victim m a.addr)).dirty ≠ 0 then 1 else 0)
      + dirty_evictions (cache_access m a.addr a.write_flag a.write_data).2 rest

/-- Position, in a history of `L` accesses to one set of `n` ways, of the
access whose block way `w` holds when all the accesses had distinct tags and
`L ≤ 2 * n`: the ways are filled in order and then replaced in order. -/
def slot_index (n L w : Nat) : Nat := if w + n < L then w + n else w

/-- Set `s` of `c` is as a history of accesses with tags `T`, all distinct and
at most twice the associativity, leaves it: way `w` is valid when `w < T.length`,
then holds the tag at `slot_index` and has as label the number of later
accesses. -/
def set_after (c : cacheStruct) (s : Int) (T : List Int) : Prop :=
  ∀ w : Nat, w < c.blocksPerSet.toNat →
    (T.length ≤ w → (c.blocks (s * c.blocksPerSet + (w : Int))).valid = 0) ∧
    (w < T.length →
      (c.blocks (s * c.blocksPerSet + (w : Int))).valid ≠ 0 ∧
      T[slot_index c.blocksPerSet.toNat T.length w]?
        = some (c.blocks (s * c.blocksPerSet + (w : Int))).tag ∧
      (c.blocks (s * c.blocksPerSet + (w : Int))).lruLabel
        = (T.length : Int) - 1 - (slot_index c.blocksPerSet.toNat T.length w : Int))

/-- The tags of the accesses of `xs` that map to set `s`, in order. -/
def set_tags (c : cacheStruct) (s : Int) (xs : List Access) : List Int :=
  (xs.filter (fun x => decide (get_set_index c x.addr = s))).map (fun x => get_tag c x.addr)

/-- A geometry for examples: blocks of 4 words, 2 sets. -/
def example_geometry : cacheStruct :=
  { cache_global with blockSize := 4, numSets := 2, blocksPerSet := 1 }

/-- What `cache_init(blockSize, numSets, blocksPerSet)` returns when run on
the zero-initialised global; the unchanged global if it exits. -/
def init_result (blockSize numSets blocksPerSet : Int) : List initWarning × cacheStruct :=
  match cache_init cache_global blockSize numSets blocksPerSet with
  | Except.ok r => r
  | Except.error _ => ([], cache_global)

/-- A backing store for examples: word `a` holds `100 + a`. -/
def example_store : stateType :=
  { pc := 0, mem := fun a => 100 + a, reg := fun _ => 0, numMemory := 0 }

/-- Two caches agree on everything but the data words of their blocks. -/
def SameControl (c1 c2 : cacheStruct) : Prop :=
  (∀ j : Int, (c1.blocks j).valid = (c2.blocks j).valid ∧ (c1.blocks j).tag = (c2.blocks j).tag ∧
    (c1.blocks j).dirty = (c2.blocks j).dirty ∧
    (c1.blocks j).lruLabel = (c2.blocks j).lruLabel) ∧
  c1.blockSize = c2.blockSize ∧ c1.numSets = c2.numSets ∧ c1.blocksPerSet = c2.blocksPerSet ∧
  c1.hits = c2.hits ∧ c1.misses = c2.misses ∧ c1.writebacks = c2.writebacks

/-! ## Index tracing of `cache_access` -/

/-- Every index `k` of an expression `cache.blocks[k]` that the call
`cache_access(addr, _, _)` evaluates in `m`, in program order: the lookup scan
up to the way where it stops, on a miss the free-slot scan up to where it
stops, the scan of `find_lru_block` when no slot is free and the victim
(lines 223-250), then the scan of `update_lru` (which reads a block only when
it is not the accessed one) and the accessed block, then the block of the
processor transfer. -/
def block_indices (m : Machine) (addr : Int) : List Int :=
  let set_index := get_set_index m.cache addr
  let tag := get_tag m.cache addr
  let set_start := set_index * m.cache.blocksPerSet
  let n := m.cache.blocksPerSet.toNat
  let scan1 : List Int :=
    match lookup m.cache set_start tag with
    | some i => (List.range (i + 1)).map (fun (w : Nat) => set_start + (w : Int))
    | none => (List.range n).map (fun (w : Nat) => set_start + (w : Int))
  let found1 : Int :=
    match lookup m.cache set_start tag with
    | some i => set_start + (i : Int)
    | none => -1
  let on_miss : List Int :=
    if found1 = -1 then
      let scan2 : List Int :=
        match find_empty m.cache set_start with
        | some i => (List.range (i + 1)).map (fun (w : Nat) => set_start + (w : Int))
        | none => (List.range n).map (fun (w : Nat) => set_start + (w : Int))
      let found2 : Int :=
        match find_empty m.cache set_start with
        | some i => set_start + (i : Int)
        | none => -1
      let scan3 : List Int :=
        if found2 = -1 then
          set_start :: (List.range (n - 1)).map (fun (k : Nat) => set_start + ((k + 1 : Nat) : Int))
        else []
      scan2 ++ scan3 ++ [choose_victim m.cache set_index set_start]
    else []
  let lru : List Int :=
    ((List.range n).map (fun (w : Nat) => set_start + (w : Int))).filter
        (fun k => decide (k ≠ (resolve m addr).1))
      ++ [(resolve m addr).1]
  scan1 ++ on_miss ++ lru ++ [(resolve m addr).1]

/-- Every index `i` of an expression `.data[i]` that the call
`cache_access(addr, _, _)` evaluates in `m`, in program order: on a miss the
write-back loop (valid dirty victim) and the fill loop, then `block_offset`. -/
def data_indices (m : Machine) (addr : Int) : List Int :=
  let set_index := get_set_index m.cache addr
  let tag := get_tag m.cache addr
  let set_start := set_index * m.cache.blocksPerSet
  let found1 : Int :=
    match lookup m.cache set_start tag with
    | some i => set_start + (i : Int)
    | none => -1
  let on_miss : List Int :=
    if found1 = -1 then
      let victim := choose_victim m.cache set_index set_start
      (if (m.cache.blocks victim).valid ≠ 0 ∧ (m.cache.blocks victim).dirty ≠ 0 then
        (List.range m.cache.blockSize.toNat).map (fun (i : Nat) => (i : Int))
       else [])
      ++ (List.range m.cache.blockSize.toNat).map (fun (i : Nat) => (i : Int))
    else []
  on_miss ++ [get_block_offset m.cache addr]

/-! ## The instruction simulator (`my_p1s_sim.c` lines 137-300) -/

/-- The function `convertNum` of `my_p1s_sim.c`. -/
def convertNum (num : Int) : Int :=
  num - (if Int.land num 32768 ≠ 0 then 65536 else 0)

/-- The function `getOpcode` of `my_p1s_sim.c`. -/
def getOpcode (instruction : Int) : Int := Int.land (Int.shiftRight instruction 22) 7

/-- The function `getRegA` of `my_p1s_sim.c`. -/
def getRegA (instruction : Int) : Int := Int.land (Int.shiftRight instruction 19) 7

/-- The function `getRegB` of `my_p1s_sim.c`. -/
def getRegB (instruction : Int) : Int := Int.land (Int.shiftRight instruction 16) 7

/-- The function `getDestReg` of `my_p1s_sim.c`. -/
def getDestReg (instruction : Int) : Int := Int.land instruction 7

/-- The function `getOffset` of `my_p1s_sim.c`. -/
def getOffset (instruction : Int) : Int := convertNum (Int.land instruction 65535)

/-- The two messages that `executeInstruction` writes to `stderr`. -/
inductive simError where
  | memOutOfBounds (pc effectiveAddress : Int)
  | unknownOpcode (opcode pc : Int)
  deriving DecidableEq, Repr

/-- What one call of `executeInstruction` leaves: the machine state, the flag
`*halt`, the messages written to `stderr`, and the indices `k` of the
expressions `state->mem[k]` it evaluated, in order. -/
structure execResult where
  state : stateType
  halt : Bool
  errors : List simError
  memIndices : List Int

/-- The function `executeInstruction` of `my_p1s_sim.c`.  Sums of register and
program-counter values are reduced to the 32-bit range. -/
def executeInstruction (state : stateType) (instruction : Int) (halt : Bool) : execResult :=
  let opcode := getOpcode instruction
  let regA := getRegA instruction
  let regB := getRegB instruction
  let r : execResult :=
    if opcode = 0 then
      let destReg := getDestReg instruction
      { state := { state with
                   reg := fun i => if i = destReg then wrap32 (state.reg regA + state.reg regB)
                                   else state.reg i,
                   pc := wrap32 (state.pc + 1) },
        halt := halt, errors := [], memIndices := [] }
    else if opcode = 1 then
      let destReg := getDestReg instruction
      { state := { state with
                   reg := fun i => if i = destReg
                                   then Int.lnot (Int.lor (state.reg regA) (state.reg regB))
                                   else state.reg i,
                   pc := wrap32 (state.pc + 1) },
        halt := halt, errors := [], memIndices := [] }
    else if opcode = 2 then
      let offset := getOffset instruction
      let effectiveAddress := wrap32 (state.reg regA + offset)
      { state := { state with
                   reg := fun i => if i = regB then state.mem effectiveAddress else state.reg i,
                   pc := wrap32 (state.pc + 1) },
        halt := halt,
        errors := if effectiveAddress < 0 ∨ effectiveAddress ≥ MEMORYSIZE
                  then [simError.memOutOfBounds state.pc effectiveAddress] else [],
        memIndices := [effectiveAddress] }
    else if opcode = 3 then
      let offset := getOffset instruction
      let effectiveAddress := wrap32 (state.reg regA + offset)
      { state := { state with
                   mem := fun x => if x = effectiveAddress then state.reg regB else state.mem x,
                   pc := wrap32 (state.pc + 1) },
        halt := halt,
        errors := if effectiveAddress < 0 ∨ effectiveAddress ≥ MEMORYSIZE
                  then [simError.memOutOfBounds state.pc effectiveAddress] else [],
        memIndices := [effectiveAddress] }
    else if opcode = 4 then
      let offset := getOffset instruction
      { state := { state with
                   pc := if state.reg regA = state.reg regB then wrap32 (state.pc + 1 + offset)
                         else wrap32 (state.pc + 1) },
        halt := halt, errors := [], memIndices := [] }
    else if opcode = 5 then
      let reg1 : Int → Int := fun i => if i = regB then wrap32 (state.pc + 1) else state.reg i
      { state := { state with reg := reg1, pc := reg1 regA },
        halt := halt, errors := [], memIndices := [] }
    else if opcode = 6 then
      { state := { state with pc := wrap32 (state.pc + 1) },
        halt := true, errors := [], memIndices := [] }
    else if opcode = 7 then
      { state := { state with pc := wrap32 (state.pc + 1) },
        halt := halt, errors := [], memIndices := [] }
    else
      { state := state, halt := halt, errors := [simError.unknownOpcode opcode state.pc],
        memIndices := [] }
  { r with state := { r.state with reg := fun i => if i = 0 then 0 else r.state.reg i } }

/-! ## The memory seen through the cache -/

/-- The logical memory of a machine: the word at address `a` is the word
`data[a % blockSize]` of the valid block of set `get_set_index a` that carries
tag `get_tag a` when there is one, and the word `mem[a]` of the backing store
otherwise. -/
def logical (m : Machine) (a : Int) : Int :=
  match lookup m.cache (get_set_index m.cache a * m.cache.blocksPerSet)
      (get_tag m.cache a) with
  | some i =>
    (m.cache.blocks (get_set_index m.cache a * m.cache.blocksPerSet + (i : Int))).data
      (get_block_offset m.cache a)
  | none => m.state.mem a

/-- Block `j` holds the block of address `a`: it lies in the set of `a`, is
valid and carries the tag of `a`. -/
def Resident (c : cacheStruct) (a j : Int) : Prop :=
  inSet c (get_set_index c a) j ∧ (c.blocks j).valid ≠ 0 ∧ (c.blocks j).tag = get_tag c a

/-- The value that the last write to `addr` in `accs` (oldest first) wrote. -/
def last_written (addr : Int) : List Access → Option Int
  | [] => none
  | x :: rest =>
    match last_written addr rest with
    | some v => some v
    | none => if x.write_flag ≠ 0 ∧ x.addr = addr then some x.write_data else none

/-- Every valid clean block of a set of the table holds the words that the
backing store holds at the block's addresses. -/
def Coherent (m : Machine) : Prop :=
  ∀ s j i : Int, 0 ≤ s → s < m.cache.numSets → inSet m.cache s j →
    (m.cache.blocks j).valid ≠ 0 → (m.cache.blocks j).dirty = 0 →
    0 ≤ i → i < m.cache.blockSize →
    (m.cache.blocks j).data i
      = m.state.mem (((m.cache.blocks j).tag * m.cache.numSets + s) * m.cache.blockSize + i)

/-- The machine after `cache_init(1, 1073741824, 4)` on `example_store`: the
product of sets and ways is `2 ^ 32`. -/
def example_overflow : Machine := start example_store (init_result 1 1073741824 4).2

/-- A simulator state for examples: all registers and the program counter 0. -/
def example_state : stateType :=
  { pc := 0, mem := fun a => a, reg := fun _ => 0, numMemory := 4 }

/-- The machine after `cache_init(4, 2, 1)` on `example_store`: direct mapped. -/
def example_direct : Machine := start example_store (init_result 4 2 1).2

/-- The machine after `cache_init(2, 1, 2)` on `example_store`: one set, two ways. -/
def example_assoc : Machine := start example_store (init_result 2 1 2).2

/-- What `cache_init(blockSize, numSets, blocksPerSet)` returns when run on
the value `cache` of the global; the unchanged value if it exits. -/
def init_result_on (cache : cacheStruct) (blockSize numSets blocksPerSet : Int) :
    List initWarning × cacheStruct :=
  match cache_init cache blockSize numSets blocksPerSet with
  | Except.ok r => r
  | Except.error _ => ([], cache)

/-- A cache that has been used: `cache_init(2, 1, 2)` and then a write of 7
to address 0, which leaves block 0 valid and dirty and `misses = 1`. -/
def example_used : cacheStruct := (cache_access example_assoc 0 1 7).2.cache

/-! ## Statistics (`cache.c` lines 278-293) -/

/-- The counter `dirtyBlocks` of `printStats` when its loop has ended.  The
loop bound `cache.numSets * cache.blocksPerSet` is an `int` product, reduced
to the 32-bit range as the product in `cache_init` is. -/
def dirtyBlocks (c : cacheStruct) : Int :=
  (List.range (wrap32 (c.numSets * c.blocksPerSet)).toNat).foldl
    (fun (acc : Int) (i : Nat) =>
      if (c.blocks (i : Int)).valid ≠ 0 ∧ (c.blocks (i : Int)).dirty ≠ 0 then acc + 1 else acc)
    0

/-- The number of blocks with index in `L` that are valid and dirty. -/
def dirty_among (c : cacheStruct) (L : List Int) : Nat :=
  L.countP (fun j => decide ((c.blocks j).valid ≠ 0 ∧ (c.blocks j).dirty ≠ 0))

/-- The number of calls in `accs` with `write_flag != 0`. -/
def write_calls (accs : List Access) : Nat :=
  accs.countP (fun x => decide (x.write_flag ≠ 0))

/-- The number of valid blocks among the ways of set `s`. -/
def valid_count (c : cacheStruct) (s : Int) : Nat :=
  (List.range c.blocksPerSet.toNat).countP
    (fun (i : Nat) => decide ((c.blocks (s * c.blocksPerSet + (i : Int))).valid ≠ 0))

/-- The valid ways of every set are the first ways of the set. -/
def ValidFirst (c : cacheStruct) : Prop :=
  ∀ s : Int, ∃ cnt : Nat, cnt ≤ c.blocksPerSet.toNat ∧
    ∀ i : Nat, i < c.blocksPerSet.toNat →
      ((c.blocks (s * c.blocksPerSet + (i : Int))).valid ≠ 0 ↔ i < cnt)

/-- Position, in the sequence of calls, of the most recent call of the run of
`accs` from `m` that resolved to block `j`; `k` is the position of the first
call of `accs` and `r` the answer before the run. -/
def last_use (j : Int) : Machine → List Access → Nat → Option Nat → Option Nat
  | _, [], _, r => r
  | m, a :: rest, k, r =>
    last_use j (cache_access m a.addr a.write_flag a.write_data).2 rest (k + 1)
      (if (resolve m a.addr).1 = j then some k else r)

/-- The labels of the valid blocks rank them by their last use: `T j` is the
position of the last call that resolved to block `j`, among `k` calls so far.
Every valid block has been resolved to; inside a set, a smaller label goes
with a later last use, and no two valid blocks share a label. -/
def Ranked (c : cacheStruct) (k : Nat) (T : Int → Option Nat) : Prop :=
  (∀ j : Int, (c.blocks j).valid ≠ 0 → ∃ t : Nat, T j = some t ∧ t < k) ∧
  (∀ s x y : Int, inSet c s x → inSet c s y → (c.blocks x).valid ≠ 0 → (c.blocks y).valid ≠ 0 →
    ∀ tx ty : Nat, T x = some tx → T y = some ty →
      ((c.blocks x).lruLabel < (c.blocks y).lruLabel ↔ ty < tx)) ∧
  (∀ s x y : Int, inSet c s x → inSet c s y → (c.blocks x).valid ≠ 0 → (c.blocks y).valid ≠ 0 →
    (c.blocks x).lruLabel = (c.blocks y).lruLabel → x = y)

/-! ## The assembler's encoding (`assembler.c` lines 183-300) -/

/-- The word `machineCode` that `secondPass` builds for `add` (opcode 0) and
`nor` (opcode 1), lines 183 and 193: the three register numbers are the
values of `atoi(arg0)`, `atoi(arg1)` and `atoi(arg2)`. -/
def machineCode_reg (opcode arg0 arg1 arg2 : Int) : Int :=
  Int.lor (Int.lor (Int.lor (opcode <<< (22 : Int)) (arg0 <<< (19 : Int)))
    (arg1 <<< (16 : Int))) arg2

/-- The word `machineCode` that `secondPass` builds for `lw`, `sw` and `beq`,
lines 258 and 300. -/
def machineCode_offset (opcodeBits arg0 arg1 offset : Int) : Int :=
  Int.lor (Int.lor (Int.lor (opcodeBits <<< (22 : Int)) (arg0 <<< (19 : Int)))
    (arg1 <<< (16 : Int))) (Int.land offset 65535)

/-! ## Addressing lemmas -/

theorem get_set_index_eq (c : cacheStruct) (a : Int) (ha : 0 ≤ a) (hb : 0 < c.blockSize)
    (hn : 0 < c.numSets) : get_set_index c a = (a / c.blockSize) % c.numSets := by
  unfold get_set_index
  rw [Int.tdiv_eq_ediv ha (le_of_lt hb),
    Int.tmod_eq_emod (Int.ediv_nonneg ha (le_of_lt hb)) (le_of_lt hn)]

theorem get_tag_eq (c : cacheStruct) (a : Int) (ha : 0 ≤ a) (hb : 0 < c.blockSize)
    (hn : 0 < c.numSets) : get_tag c a = a / (c.blockSize * c.numSets) := by
  unfold get_tag
  rw [Int.tdiv_eq_ediv ha (le_of_lt (Int.mul_pos hb hn))]

theorem get_block_offset_eq (c : cacheStruct) (a : Int) (ha : 0 ≤ a) (hb : 0 < c.blockSize) :
    get_block_offset c a = a % c.blockSize := by
  unfold get_block_offset
  rw [Int.tmod_eq_emod ha (le_of_lt hb)]

theorem get_set_index_range (c : cacheStruct) (a : Int) (ha : 0 ≤ a) (hb : 0 < c.blockSize)
    (hn : 0 < c.numSets) : 0 ≤ get_set_index c a ∧ get_set_index c a < c.numSets := by
  rw [get_set_index_eq c a ha hb hn]
  exact ⟨Int.emod_nonneg _ (ne_of_gt hn), Int.emod_lt_of_pos _ hn⟩



theorem ediv_mul_eq (a bs ns : Int) (ha : 0 ≤ a) (hb : 0 < bs) (hn : 0 < ns) :
    a / (bs * ns) = a / bs / ns := by
  obtain ⟨x, rfl⟩ := Int.eq_ofNat_of_zero_le ha
  obtain ⟨y, rfl⟩ := Int.eq_ofNat_of_zero_le (le_of_lt hb)
  obtain ⟨z, rfl⟩ := Int.eq_ofNat_of_zero_le (le_of_lt hn)
  norm_cast
  rw [Nat.div_div_eq_div_mul]

theorem base_of_parts (a bs ns : Int) (ha : 0 ≤ a) (hb : 0 < bs) (hn : 0 < ns) :
    (a / (bs * ns) * ns + (a / bs) % ns) * bs = a / bs * bs := by
  rw [ediv_mul_eq a bs ns ha hb hn]
  have h2 := Int.ediv_add_emod (a / bs) ns
  have h3 : a / bs / ns * ns + a / bs % ns = a / bs := by
    rw [mul_comm]; exact h2
  rw [h3]

theorem roundtrip_core (a bs ns : Int) (ha : 0 ≤ a) (hb : 0 < bs) (hn : 0 < ns) :
    (a / (bs * ns) * ns + (a / bs) % ns) * bs + a % bs = a := by
  rw [base_of_parts a bs ns ha hb hn, mul_comm]
  exact Int.ediv_add_emod a bs



/-! ## Extensionality -/

theorem blockStruct_ext {a b : blockStruct} (h1 : ∀ x, a.data x = b.data x)
    (h2 : a.dirty = b.dirty) (h3 : a.lruLabel = b.lruLabel) (h4 : a.tag = b.tag)
    (h5 : a.valid = b.valid) : a = b := by
  cases a; cases b
  simp only [blockStruct.mk.injEq]
  exact ⟨funext h1, h2, h3, h4, h5⟩

theorem cacheStruct_ext {a b : cacheStruct} (h1 : ∀ j, a.blocks j = b.blocks j)
    (h2 : a.blockSize = b.blockSize) (h3 : a.numSets = b.numSets)
    (h4 : a.blocksPerSet = b.blocksPerSet) (h5 : a.hits = b.hits) (h6 : a.misses = b.misses)
    (h7 : a.writebacks = b.writebacks) : a = b := by
  cases a; cases b
  simp only [cacheStruct.mk.injEq]
  exact ⟨funext h1, h2, h3, h4, h5, h6, h7⟩

/-! ## `setBlock`, `printAction`, `mem_access` -/

@[simp] theorem setBlock_blocks (c : cacheStruct) (i j : Int) (b : blockStruct) :
    (c.setBlock i b).blocks j = if j = i then b else c.blocks j := rfl
@[simp] theorem setBlock_blockSize (c : cacheStruct) (i : Int) (b : blockStruct) :
    (c.setBlock i b).blockSize = c.blockSize := rfl
@[simp] theorem setBlock_numSets (c : cacheStruct) (i : Int) (b : blockStruct) :
    (c.setBlock i b).numSets = c.numSets := rfl
@[simp] theorem setBlock_blocksPerSet (c : cacheStruct) (i : Int) (b : blockStruct) :
    (c.setBlock i b).blocksPerSet = c.blocksPerSet := rfl
@[simp] theorem setBlock_hits (c : cacheStruct) (i : Int) (b : blockStruct) :
    (c.setBlock i b).hits = c.hits := rfl
@[simp] theorem setBlock_misses (c : cacheStruct) (i : Int) (b : blockStruct) :
    (c.setBlock i b).misses = c.misses := rfl
@[simp] theorem setBlock_writebacks (c : cacheStruct) (i : Int) (b : blockStruct) :
    (c.setBlock i b).writebacks = c.writebacks := rfl

@[simp] theorem printAction_cache (m : Machine) (a s : Int) (t : actionType) :
    (printAction m a s t).cache = m.cache := rfl
@[simp] theorem printAction_state (m : Machine) (a s : Int) (t : actionType) :
    (printAction m a s t).state = m.state := rfl
@[simp] theorem printAction_memCalls (m : Machine) (a s : Int) (t : actionType) :
    (printAction m a s t).memCalls = m.memCalls := rfl
@[simp] theorem printAction_num (m : Machine) (a s : Int) (t : actionType) :
    (printAction m a s t).num_mem_accesses = m.num_mem_accesses := rfl
@[simp] theorem printAction_printed (m : Machine) (a s : Int) (t : actionType) :
    (printAction m a s t).printed = m.printed ++ [{ address := a, size := s, type := t }] := rfl

@[simp] theorem mem_access_cache (m : Machine) (a wf wd : Int) :
    (mem_access m a wf wd).2.cache = m.cache := by
  unfold mem_access; split_ifs <;> rfl
@[simp] theorem mem_access_printed (m : Machine) (a wf wd : Int) :
    (mem_access m a wf wd).2.printed = m.printed := by
  unfold mem_access; split_ifs <;> rfl
@[simp] theorem mem_access_memCalls (m : Machine) (a wf wd : Int) :
    (mem_access m a wf wd).2.memCalls
      = m.memCalls ++ [{ addr := a, write_flag := wf, write_data := wd }] := by
  unfold mem_access; split_ifs <;> rfl
@[simp] theorem mem_access_num (m : Machine) (a wf wd : Int) :
    (mem_access m a wf wd).2.num_mem_accesses = m.num_mem_accesses + 1 := by
  unfold mem_access; split_ifs <;> rfl
@[simp] theorem mem_access_read_state (m : Machine) (a wd : Int) :
    (mem_access m a 0 wd).2.state = m.state := by
  simp [mem_access]
@[simp] theorem mem_access_read_val (m : Machine) (a wd : Int) :
    (mem_access m a 0 wd).1 = m.state.mem a := by
  simp [mem_access]

/-! ## The write-back loop and the fill loop -/

/-- Body of the loop at lines 228-231. -/
theorem wb_loop (f old : Int) (k : Nat) (m : Machine) :
    ((List.range k).foldl (fun (acc : Machine) (i : Nat) =>
        (mem_access acc (old + (i : Int)) 1 ((acc.cache.blocks f).data (i : Int))).2) m).cache
      = m.cache ∧
    ((List.range k).foldl (fun (acc : Machine) (i : Nat) =>
        (mem_access acc (old + (i : Int)) 1 ((acc.cache.blocks f).data (i : Int))).2) m).printed
      = m.printed ∧
    ((List.range k).foldl (fun (acc : Machine) (i : Nat) =>
        (mem_access acc (old + (i : Int)) 1 ((acc.cache.blocks f).data (i : Int))).2) m).memCalls
      = m.memCalls ++ (List.range k).map (fun (i : Nat) =>
          { addr := old + (i : Int), write_flag := 1,
            write_data := (m.cache.blocks f).data (i : Int) }) := by
  induction k with
  | zero => simp
  | succ k ih =>
    obtain ⟨h1, h2, h3⟩ := ih
    rw [List.range_succ, List.foldl_append, List.map_append]
    simp only [List.foldl_cons, List.foldl_nil, mem_access_cache, mem_access_printed,
      mem_access_memCalls, List.map_cons, List.map_nil]
    refine ⟨h1, h2, ?_⟩
    rw [h3, h1, List.append_assoc]


theorem fill_loop (f base : Int) (k : Nat) (m : Machine) :
    (List.range k).foldl (fun (acc : Machine) (i : Nat) =>
        { (mem_access acc (base + (i : Int)) 0 0).2 with
          cache := (mem_access acc (base + (i : Int)) 0 0).2.cache.setBlock f
            { (mem_access acc (base + (i : Int)) 0 0).2.cache.blocks f with
              data := fun x => if x = (i : Int) then (mem_access acc (base + (i : Int)) 0 0).1
                else ((mem_access acc (base + (i : Int)) 0 0).2.cache.blocks f).data x } }) m
      = { cache := m.cache.setBlock f { m.cache.blocks f with data := filled m base f k },
          state := m.state,
          num_mem_accesses := m.num_mem_accesses + (k : Int),
          printed := m.printed,
          memCalls := m.memCalls ++ (List.range k).map (fun (i : Nat) =>
            { addr := base + (i : Int), write_flag := 0, write_data := 0 }) } := by
  induction k with
  | zero =>
    simp only [List.range_zero, List.foldl_nil, List.map_nil, List.append_nil, Nat.cast_zero,
      add_zero]
    cases m with
    | mk c s n p mc =>
      simp only [Machine.mk.injEq, and_true, true_and]
      apply cacheStruct_ext <;> try rfl
      intro j
      simp only [setBlock_blocks]
      split_ifs with h
      · subst h
        apply blockStruct_ext <;> try rfl
        intro x
        simp only [filled, Nat.cast_zero]
        rw [if_neg (by omega)]
      · rfl
  | succ k ih =>
    rw [List.range_succ, List.foldl_append, ih]
    simp only [List.foldl_cons, List.foldl_nil, mem_access_cache, mem_access_printed,
      mem_access_memCalls, mem_access_num, mem_access_read_state, mem_access_read_val,
      List.map_append, List.map_cons, List.map_nil, Machine.mk.injEq, List.append_assoc,
      and_true, true_and]
    refine ⟨?_, by push_cast; ring⟩
    apply cacheStruct_ext <;> try rfl
    intro j
    simp only [setBlock_blocks]
    split_ifs with h
    · apply blockStruct_ext <;> try rfl
      intro x
      simp only [filled, if_true]
      push_cast
      split_ifs <;> first | rfl | omega | (subst_vars; rfl)
    · rfl

/-! ## `evict` and `fill` in closed form -/

theorem evict_cache (m : Machine) (s f : Int) :
    (evict m s f).cache
      = if (m.cache.blocks f).valid ≠ 0 ∧ (m.cache.blocks f).dirty ≠ 0 then
          { m.cache with writebacks := m.cache.writebacks + 1 }
        else m.cache := by
  unfold evict
  split_ifs with h1 h2
  · exact (wb_loop f _ _ _).1
  · rfl
  · rfl

theorem evict_printed (m : Machine) (s f : Int) :
    (evict m s f).printed
      = m.printed ++
        (if (m.cache.blocks f).valid ≠ 0 ∧ (m.cache.blocks f).dirty ≠ 0 then
          [{ address := ((m.cache.blocks f).tag * m.cache.numSets + s) * m.cache.blockSize,
             size := m.cache.blockSize, type := actionType.cacheToMemory }]
        else if (m.cache.blocks f).valid ≠ 0 then
          [{ address := ((m.cache.blocks f).tag * m.cache.numSets + s) * m.cache.blockSize,
             size := m.cache.blockSize, type := actionType.cacheToNowhere }]
        else []) := by
  unfold evict
  split_ifs with h1 h2
  · exact (wb_loop f _ _ _).2.1
  · rfl
  · simp

theorem evict_memCalls (m : Machine) (s f : Int) :
    (evict m s f).memCalls
      = m.memCalls ++
        (if (m.cache.blocks f).valid ≠ 0 ∧ (m.cache.blocks f).dirty ≠ 0 then
          (List.range m.cache.blockSize.toNat).map (fun (i : Nat) =>
            { addr := ((m.cache.blocks f).tag * m.cache.numSets + s) * m.cache.blockSize
                        + (i : Int),
              write_flag := 1, write_data := (m.cache.blocks f).data (i : Int) })
        else []) := by
  unfold evict
  split_ifs with h1 h2
  · exact (wb_loop f _ _ _).2.2
  · simp
  · simp

theorem fill_eq (m : Machine) (addr tag f : Int) :
    fill m addr tag f
      = { cache := m.cache.setBlock f
            { data := filled m (Int.tdiv addr m.cache.blockSize * m.cache.blockSize) f
                        m.cache.blockSize.toNat,
              dirty := 0, lruLabel := (m.cache.blocks f).lruLabel, tag := tag, valid := 1 },
          state := m.state,
          num_mem_accesses := m.num_mem_accesses + (m.cache.blockSize.toNat : Int),
          printed := m.printed ++
            [{ address := Int.tdiv addr m.cache.blockSize * m.cache.blockSize,
               size := m.cache.blockSize, type := actionType.memoryToCache }],
          memCalls := m.memCalls ++ (List.range m.cache.blockSize.toNat).map (fun (i : Nat) =>
            { addr := Int.tdiv addr m.cache.blockSize * m.cache.blockSize + (i : Int),
              write_flag := 0, write_data := 0 }) } := by
  unfold fill
  simp only [printAction_cache]
  rw [fill_loop]
  simp only [printAction_cache, printAction_state, printAction_num, printAction_printed,
    printAction_memCalls, Machine.mk.injEq, and_true, true_and]
  apply cacheStruct_ext <;> try rfl
  intro j
  simp only [setBlock_blocks]
  split_ifs with h
  · rfl
  · rfl

/-! ## `update_lru` in closed form -/

theorem bumped_blocks (c : cacheStruct) (start f j : Int) (k : Nat) :
    (bumped c start f k).blocks j
      = if (start ≤ j ∧ j < start + (k : Int)) ∧ j ≠ f ∧ (c.blocks j).valid ≠ 0 then
          { c.blocks j with lruLabel := (c.blocks j).lruLabel + 1 }
        else c.blocks j := rfl

theorem bumped_blocks_next (c : cacheStruct) (start f : Int) (k : Nat) :
    (bumped c start f k).blocks (start + (k : Int)) = c.blocks (start + (k : Int)) := by
  rw [bumped_blocks, if_neg (by omega)]

theorem update_lru_loop (start f : Int) (k : Nat) (c : cacheStruct) :
    (List.range k).foldl
      (fun (acc : cacheStruct) (i : Nat) =>
        if start + (i : Int) ≠ f ∧ (acc.blocks (start + (i : Int))).valid ≠ 0 then
          acc.setBlock (start + (i : Int))
            { acc.blocks (start + (i : Int)) with
              lruLabel := (acc.blocks (start + (i : Int))).lruLabel + 1 }
        else acc) c
      = bumped c start f k := by
  induction k with
  | zero =>
    simp only [List.range_zero, List.foldl_nil]
    apply cacheStruct_ext <;> try rfl
    intro j
    rw [bumped_blocks, if_neg (by omega)]
  | succ k ih =>
    rw [List.range_succ, List.foldl_append, ih]
    simp only [List.foldl_cons, List.foldl_nil, bumped_blocks_next]
    by_cases hc : start + (k : Int) ≠ f ∧ (c.blocks (start + (k : Int))).valid ≠ 0
    · rw [if_pos hc]
      apply cacheStruct_ext <;> try rfl
      intro j
      rw [setBlock_blocks, bumped_blocks, bumped_blocks]
      by_cases hj : j = start + (k : Int)
      · subst hj
        rw [if_pos rfl, if_pos ⟨⟨by omega, by push_cast; omega⟩, hc⟩]
      · rw [if_neg hj]
        apply if_congr _ rfl rfl
        constructor
        · rintro ⟨⟨a, b⟩, c⟩; exact ⟨⟨a, by push_cast; omega⟩, c⟩
        · rintro ⟨⟨a, b⟩, c⟩; exact ⟨⟨a, by push_cast at b; omega⟩, c⟩
    · rw [if_neg hc]
      apply cacheStruct_ext <;> try rfl
      intro j
      rw [bumped_blocks, bumped_blocks]
      apply if_congr _ rfl rfl
      constructor
      · rintro ⟨⟨a, b⟩, c⟩; exact ⟨⟨a, by push_cast; omega⟩, c⟩
      · rintro ⟨⟨a, b⟩, c1, c2⟩
        refine ⟨⟨a, ?_⟩, c1, c2⟩
        by_contra hlt
        have hj : j = start + (k : Int) := by push_cast at b; omega
        subst hj
        exact hc ⟨c1, c2⟩

theorem update_lru_blocks (c : cacheStruct) (s f j : Int) :
    (update_lru c s f).blocks j
      = if j = f then { c.blocks f with lruLabel := 0 }
        else if (s * c.blocksPerSet ≤ j ∧ j < s * c.blocksPerSet + (c.blocksPerSet.toNat : Int))
            ∧ (c.blocks j).valid ≠ 0 then
          { c.blocks j with lruLabel := (c.blocks j).lruLabel + 1 }
        else c.blocks j := by
  unfold update_lru
  simp only [update_lru_loop, setBlock_blocks, bumped_blocks]
  by_cases h : j = f
  · subst h
    simp
  · simp only [if_neg h]
    apply if_congr _ rfl rfl
    constructor
    · rintro ⟨a, _, c⟩; exact ⟨a, c⟩
    · rintro ⟨a, c⟩; exact ⟨a, h, c⟩

@[simp] theorem update_lru_blockSize (c : cacheStruct) (s f : Int) :
    (update_lru c s f).blockSize = c.blockSize := by
  unfold update_lru; simp only [update_lru_loop, bumped, setBlock_blockSize]
@[simp] theorem update_lru_numSets (c : cacheStruct) (s f : Int) :
    (update_lru c s f).numSets = c.numSets := by
  unfold update_lru; simp only [update_lru_loop, bumped, setBlock_numSets]
@[simp] theorem update_lru_blocksPerSet (c : cacheStruct) (s f : Int) :
    (update_lru c s f).blocksPerSet = c.blocksPerSet := by
  unfold update_lru; simp only [update_lru_loop, bumped, setBlock_blocksPerSet]
@[simp] theorem update_lru_hits (c : cacheStruct) (s f : Int) :
    (update_lru c s f).hits = c.hits := by
  unfold update_lru; simp only [update_lru_loop, bumped, setBlock_hits]
@[simp] theorem update_lru_misses (c : cacheStruct) (s f : Int) :
    (update_lru c s f).misses = c.misses := by
  unfold update_lru; simp only [update_lru_loop, bumped, setBlock_misses]
@[simp] theorem update_lru_writebacks (c : cacheStruct) (s f : Int) :
    (update_lru c s f).writebacks = c.writebacks := by
  unfold update_lru; simp only [update_lru_loop, bumped, setBlock_writebacks]

/-! ## The two scans -/

theorem lookup_some {c : cacheStruct} {start t : Int} {i : Nat}
    (h : lookup c start t = some i) :
    i < c.blocksPerSet.toNat ∧ (c.blocks (start + (i : Int))).valid ≠ 0 ∧
      (c.blocks (start + (i : Int))).tag = t ∧
      ∀ j : Nat, j < i → ¬ ((c.blocks (start + (j : Int))).valid ≠ 0 ∧
        (c.blocks (start + (j : Int))).tag = t) := by
  unfold lookup at h
  rw [List.find?_range_eq_some] at h
  obtain ⟨h1, h2, h3⟩ := h
  have h1 := of_decide_eq_true h1
  refine ⟨List.mem_range.mp h2, h1.1, h1.2, ?_⟩
  intro j hj
  have := h3 j hj
  simp only [Bool.not_eq_true', decide_eq_false_iff_not] at this
  exact this

theorem lookup_none {c : cacheStruct} {start t : Int} (h : lookup c start t = none) :
    ∀ j : Nat, j < c.blocksPerSet.toNat → ¬ ((c.blocks (start + (j : Int))).valid ≠ 0 ∧
        (c.blocks (start + (j : Int))).tag = t) := by
  unfold lookup at h
  rw [List.find?_eq_none] at h
  intro j hj
  have := h j (List.mem_range.mpr hj)
  simpa using this

theorem lookup_none_of {c : cacheStruct} {start t : Int}
    (h : ∀ j : Nat, j < c.blocksPerSet.toNat → ¬ ((c.blocks (start + (j : Int))).valid ≠ 0 ∧
        (c.blocks (start + (j : Int))).tag = t)) : lookup c start t = none := by
  unfold lookup
  rw [List.find?_eq_none]
  intro j hj
  have := h j (List.mem_range.mp hj)
  simpa using this

theorem lookup_some_of {c : cacheStruct} {start t : Int} {i : Nat}
    (hi : i < c.blocksPerSet.toNat) (hv : (c.blocks (start + (i : Int))).valid ≠ 0)
    (ht : (c.blocks (start + (i : Int))).tag = t)
    (hmin : ∀ j : Nat, j < i → ¬ ((c.blocks (start + (j : Int))).valid ≠ 0 ∧
        (c.blocks (start + (j : Int))).tag = t)) : lookup c start t = some i := by
  unfold lookup
  rw [List.find?_range_eq_some]
  refine ⟨decide_eq_true ⟨hv, ht⟩, List.mem_range.mpr hi, ?_⟩
  intro j hj
  have := hmin j hj
  simp only [Bool.not_eq_true', decide_eq_false_iff_not]
  exact this

theorem find_empty_some {c : cacheStruct} {start : Int} {i : Nat}
    (h : find_empty c start = some i) :
    i < c.blocksPerSet.toNat ∧ (c.blocks (start + (i : Int))).valid = 0 ∧
      ∀ j : Nat, j < i → (c.blocks (start + (j : Int))).valid ≠ 0 := by
  unfold find_empty at h
  rw [List.find?_range_eq_some] at h
  obtain ⟨h1, h2, h3⟩ := h
  refine ⟨List.mem_range.mp h2, of_decide_eq_true h1, ?_⟩
  intro j hj
  have := h3 j hj
  simpa using this

theorem find_empty_none {c : cacheStruct} {start : Int} (h : find_empty c start = none) :
    ∀ j : Nat, j < c.blocksPerSet.toNat → (c.blocks (start + (j : Int))).valid ≠ 0 := by
  unfold find_empty at h
  rw [List.find?_eq_none] at h
  intro j hj
  have := h j (List.mem_range.mpr hj)
  simpa using this

theorem find_empty_some_of {c : cacheStruct} {start : Int} {i : Nat}
    (hi : i < c.blocksPerSet.toNat) (hv : (c.blocks (start + (i : Int))).valid = 0)
    (hmin : ∀ j : Nat, j < i → (c.blocks (start + (j : Int))).valid ≠ 0) :
    find_empty c start = some i := by
  unfold find_empty
  rw [List.find?_range_eq_some]
  refine ⟨decide_eq_true hv, List.mem_range.mpr hi, ?_⟩
  intro j hj
  have := hmin j hj
  simpa using this

theorem find_empty_none_of {c : cacheStruct} {start : Int}
    (h : ∀ j : Nat, j < c.blocksPerSet.toNat → (c.blocks (start + (j : Int))).valid ≠ 0) :
    find_empty c start = none := by
  unfold find_empty
  rw [List.find?_eq_none]
  intro j hj
  have := h j (List.mem_range.mp hj)
  simpa using this

/-! ## `find_lru_block` -/

theorem find_lru_loop (c : cacheStruct) (start : Int) (k : Nat) :
    ∃ w : Nat, w ≤ k ∧
      (List.range k).foldl
        (fun (st : Int × Int) (i : Nat) =>
          if (c.blocks (start + ((i + 1 : Nat) : Int))).valid ≠ 0 ∧
              (c.blocks (start + ((i + 1 : Nat) : Int))).lruLabel > st.1 then
            ((c.blocks (start + ((i + 1 : Nat) : Int))).lruLabel, start + ((i + 1 : Nat) : Int))
          else st)
        ((c.blocks start).lruLabel, start)
        = ((c.blocks (start + (w : Int))).lruLabel, start + (w : Int)) ∧
      (w = 0 ∨ (c.blocks (start + (w : Int))).valid ≠ 0) ∧
      (∀ i : Nat, i ≤ k → (i = 0 ∨ (c.blocks (start + (i : Int))).valid ≠ 0) →
        (c.blocks (start + (i : Int))).lruLabel ≤ (c.blocks (start + (w : Int))).lruLabel) ∧
      (∀ i : Nat, i < w → (i = 0 ∨ (c.blocks (start + (i : Int))).valid ≠ 0) →
        (c.blocks (start + (i : Int))).lruLabel < (c.blocks (start + (w : Int))).lruLabel) := by
  induction k with
  | zero =>
    refine ⟨0, le_refl _, by simp, Or.inl rfl, ?_, ?_⟩
    · intro i hi _
      have : i = 0 := by omega
      subst this
      exact le_refl _
    · intro i hi; omega
  | succ k ih =>
    obtain ⟨w, hw, hfold, hcand, hmax, hfirst⟩ := ih
    rw [List.range_succ, List.foldl_append, hfold]
    simp only [List.foldl_cons, List.foldl_nil]
    by_cases hc : (c.blocks (start + ((k + 1 : Nat) : Int))).valid ≠ 0 ∧
        (c.blocks (start + ((k + 1 : Nat) : Int))).lruLabel >
          (c.blocks (start + (w : Int))).lruLabel
    · refine ⟨k + 1, le_refl _, by rw [if_pos hc], Or.inr hc.1, ?_, ?_⟩
      · intro i hi hci
        by_cases hik : i = k + 1
        · subst hik; exact le_refl _
        · have := hmax i (by omega) hci
          have := hc.2
          omega
      · intro i hi hci
        have := hmax i (by omega) hci
        have := hc.2
        omega
    · refine ⟨w, by omega, by rw [if_neg hc], hcand, ?_, hfirst⟩
      intro i hi hci
      by_cases hik : i = k + 1
      · subst hik
        rcases hci with h0 | hv
        · omega
        · by_contra hlt
          exact hc ⟨hv, by omega⟩
      · exact hmax i (by omega) hci

theorem find_lru_block_spec (c : cacheStruct) (s : Int) (hpos : 0 < c.blocksPerSet) :
    ∃ w : Nat, w < c.blocksPerSet.toNat ∧
      find_lru_block c s = s * c.blocksPerSet + (w : Int) ∧
      (w = 0 ∨ (c.blocks (s * c.blocksPerSet + (w : Int))).valid ≠ 0) ∧
      (∀ i : Nat, i < c.blocksPerSet.toNat →
        (i = 0 ∨ (c.blocks (s * c.blocksPerSet + (i : Int))).valid ≠ 0) →
        (c.blocks (s * c.blocksPerSet + (i : Int))).lruLabel
          ≤ (c.blocks (s * c.blocksPerSet + (w : Int))).lruLabel) ∧
      (∀ i : Nat, i < w →
        (i = 0 ∨ (c.blocks (s * c.blocksPerSet + (i : Int))).valid ≠ 0) →
        (c.blocks (s * c.blocksPerSet + (i : Int))).lruLabel
          < (c.blocks (s * c.blocksPerSet + (w : Int))).lruLabel) := by
  obtain ⟨w, hw, hfold, hcand, hmax, hfirst⟩ :=
    find_lru_loop c (s * c.blocksPerSet) (c.blocksPerSet.toNat - 1)
  have hn : 0 < c.blocksPerSet.toNat := by omega
  refine ⟨w, by omega, ?_, hcand, ?_, hfirst⟩
  · unfold find_lru_block
    simp only
    rw [hfold]
  · intro i hi hci
    exact hmax i (by omega) hci

/-! ## Victim selection -/

theorem choose_victim_empty {c : cacheStruct} {s : Int} {i : Nat}
    (h : find_empty c (s * c.blocksPerSet) = some i) (hs : 0 ≤ s * c.blocksPerSet) :
    choose_victim c s (s * c.blocksPerSet) = s * c.blocksPerSet + (i : Int) := by
  unfold choose_victim
  simp only [h]
  rw [if_neg (by omega)]

theorem choose_victim_full {c : cacheStruct} {s : Int}
    (h : find_empty c (s * c.blocksPerSet) = none) :
    choose_victim c s (s * c.blocksPerSet) = find_lru_block c s := by
  unfold choose_victim
  simp only [h, if_true]

theorem choose_victim_way (c : cacheStruct) (s : Int) (hpos : 0 < c.blocksPerSet)
    (hs : 0 ≤ s * c.blocksPerSet) :
    ∃ w : Nat, w < c.blocksPerSet.toNat ∧
      choose_victim c s (s * c.blocksPerSet) = s * c.blocksPerSet + (w : Int) := by
  cases h : find_empty c (s * c.blocksPerSet) with
  | some i => exact ⟨i, (find_empty_some h).1, choose_victim_empty h hs⟩
  | none =>
    obtain ⟨w, hw, hf, _⟩ := find_lru_block_spec c s hpos
    exact ⟨w, hw, by rw [choose_victim_full h, hf]⟩

theorem set_start_nonneg (c : cacheStruct) (a : Int) (ha : 0 ≤ a) (hg : GeomOk c) :
    0 ≤ get_set_index c a * c.blocksPerSet :=
  Int.mul_nonneg (get_set_index_range c a ha hg.1 hg.2.1).1 (le_of_lt hg.2.2)

theorem inSet_way (c : cacheStruct) (s : Int) (w : Nat) (hw : w < c.blocksPerSet.toNat) :
    inSet c s (s * c.blocksPerSet + (w : Int)) := by
  unfold inSet; omega

theorem inSet_iff_way (c : cacheStruct) (s j : Int) :
    inSet c s j ↔ ∃ w : Nat, w < c.blocksPerSet.toNat ∧ j = s * c.blocksPerSet + (w : Int) := by
  constructor
  · rintro ⟨h1, h2⟩
    refine ⟨(j - s * c.blocksPerSet).toNat, by omega, by omega⟩
  · rintro ⟨w, hw, rfl⟩
    exact inSet_way c s w hw

theorem inSet_iff_toNat (c : cacheStruct) (s j : Int) (hpos : 0 < c.blocksPerSet) :
    (s * c.blocksPerSet ≤ j ∧ j < s * c.blocksPerSet + (c.blocksPerSet.toNat : Int))
      ↔ inSet c s j := by
  unfold inSet
  rw [Int.toNat_of_nonneg (le_of_lt hpos)]

/-- Two distinct sets share no block. -/
theorem inSet_disjoint (c : cacheStruct) (s1 s2 j : Int) (hpos : 0 < c.blocksPerSet)
    (h1 : inSet c s1 j) (h2 : inSet c s2 j) : s1 = s2 := by
  unfold inSet at h1 h2
  by_contra hne
  rcases lt_or_gt_of_ne hne with h | h
  · have : (s1 + 1) * c.blocksPerSet ≤ s2 * c.blocksPerSet :=
      Int.mul_le_mul_of_nonneg_right (by omega) (le_of_lt hpos)
    have e : (s1 + 1) * c.blocksPerSet = s1 * c.blocksPerSet + c.blocksPerSet := by ring
    omega
  · have : (s2 + 1) * c.blocksPerSet ≤ s1 * c.blocksPerSet :=
      Int.mul_le_mul_of_nonneg_right (by omega) (le_of_lt hpos)
    have e : (s2 + 1) * c.blocksPerSet = s2 * c.blocksPerSet + c.blocksPerSet := by ring
    omega

theorem victim_inSet (m : Machine) (a : Int) (ha : 0 ≤ a) (hg : GeomOk m.cache) :
    inSet m.cache (get_set_index m.cache a) (victim m a) := by
  obtain ⟨w, hw, hv⟩ := choose_victim_way m.cache (get_set_index m.cache a) hg.2.2
    (set_start_nonneg m.cache a ha hg)
  unfold victim
  rw [hv]
  exact inSet_way _ _ w hw

/-! ## `resolve` -/

theorem resolve_hit (m : Machine) (a : Int) {i : Nat}
    (h : lookup m.cache (get_set_index m.cache a * m.cache.blocksPerSet) (get_tag m.cache a)
      = some i)
    (hs : 0 ≤ get_set_index m.cache a * m.cache.blocksPerSet) :
    resolve m a = (get_set_index m.cache a * m.cache.blocksPerSet + (i : Int),
      { m with cache := { m.cache with hits := m.cache.hits + 1 } }) := by
  unfold resolve
  simp only [h]
  rw [if_neg (by omega)]

theorem resolve_miss (m : Machine) (a : Int)
    (h : lookup m.cache (get_set_index m.cache a * m.cache.blocksPerSet) (get_tag m.cache a)
      = none) :
    resolve m a = (victim m a,
      fill (evict { m with cache := { m.cache with misses := m.cache.misses + 1 } }
        (get_set_index m.cache a) (victim m a)) a (get_tag m.cache a) (victim m a)) := by
  unfold resolve
  simp only [h, if_true]
  rfl

theorem is_hit_true {m : Machine} {a : Int} (h : is_hit m a = true) :
    ∃ i : Nat, lookup m.cache (get_set_index m.cache a * m.cache.blocksPerSet)
      (get_tag m.cache a) = some i := by
  unfold is_hit at h
  exact Option.isSome_iff_exists.mp h

theorem is_hit_false {m : Machine} {a : Int} (h : is_hit m a = false) :
    lookup m.cache (get_set_index m.cache a * m.cache.blocksPerSet) (get_tag m.cache a)
      = none := by
  unfold is_hit at h
  cases h2 : lookup m.cache (get_set_index m.cache a * m.cache.blocksPerSet) (get_tag m.cache a)
  · rfl
  · rw [h2] at h; simp at h

/-- On a hit the resolved block lies in the set, is valid and carries the tag. -/
theorem resolve_hit_facts (m : Machine) (a : Int) (ha : 0 ≤ a) (hg : GeomOk m.cache)
    (h : is_hit m a = true) :
    inSet m.cache (get_set_index m.cache a) (resolve m a).1 ∧
      (m.cache.blocks (resolve m a).1).valid ≠ 0 ∧
      (m.cache.blocks (resolve m a).1).tag = get_tag m.cache a ∧
      (resolve m a).2 = { m with cache := { m.cache with hits := m.cache.hits + 1 } } := by
  obtain ⟨i, hi⟩ := is_hit_true h
  rw [resolve_hit m a hi (set_start_nonneg m.cache a ha hg)]
  obtain ⟨h1, h2, h3, _⟩ := lookup_some hi
  exact ⟨inSet_way _ _ i h1, h2, h3, rfl⟩

/-- On a miss no valid block of the set carries the tag, and the resolved
block is the victim. -/
theorem resolve_miss_facts (m : Machine) (a : Int) (h : is_hit m a = false) :
    (∀ j, inSet m.cache (get_set_index m.cache a) j → (m.cache.blocks j).valid ≠ 0 →
        (m.cache.blocks j).tag ≠ get_tag m.cache a) ∧
      (resolve m a).1 = victim m a ∧
      (resolve m a).2 =
        fill (evict { m with cache := { m.cache with misses := m.cache.misses + 1 } }
          (get_set_index m.cache a) (victim m a)) a (get_tag m.cache a) (victim m a) := by
  have hn := is_hit_false h
  rw [resolve_miss m a hn]
  refine ⟨?_, rfl, rfl⟩
  intro j hj hv ht
  obtain ⟨w, hw, rfl⟩ := (inSet_iff_way _ _ _).mp hj
  exact lookup_none hn w hw ⟨hv, ht⟩

/-! ## One `cache_access` call: the state after it -/

/-- The block table after the call, in terms of the table that `resolve`
leaves. -/
theorem access_blocks (m : Machine) (a wf wd j : Int) :
    (cache_access m a wf wd).2.cache.blocks j
      = if j = (resolve m a).1 then
          (if wf ≠ 0 then
            { data := fun k => if k = get_block_offset m.cache a then wd
                        else ((resolve m a).2.cache.blocks (resolve m a).1).data k,
              dirty := 1, lruLabel := 0,
              tag := ((resolve m a).2.cache.blocks (resolve m a).1).tag,
              valid := ((resolve m a).2.cache.blocks (resolve m a).1).valid }
          else { (resolve m a).2.cache.blocks (resolve m a).1 with lruLabel := 0 })
        else if (get_set_index m.cache a * (resolve m a).2.cache.blocksPerSet ≤ j ∧
              j < get_set_index m.cache a * (resolve m a).2.cache.blocksPerSet
                    + ((resolve m a).2.cache.blocksPerSet.toNat : Int)) ∧
            ((resolve m a).2.cache.blocks j).valid ≠ 0 then
          { (resolve m a).2.cache.blocks j with
            lruLabel := ((resolve m a).2.cache.blocks j).lruLabel + 1 }
        else (resolve m a).2.cache.blocks j := by
  unfold cache_access
  by_cases hw : wf ≠ 0
  · simp only [if_pos hw, printAction_cache, setBlock_blocks, update_lru_blocks]
    by_cases hj : j = (resolve m a).1
    · simp only [if_pos hj, if_true]
    · simp only [if_neg hj]
  · simp only [if_neg hw, printAction_cache, update_lru_blocks]

theorem resolve_geom (m : Machine) (a : Int) :
    (resolve m a).2.cache.blockSize = m.cache.blockSize ∧
      (resolve m a).2.cache.numSets = m.cache.numSets ∧
      (resolve m a).2.cache.blocksPerSet = m.cache.blocksPerSet := by
  cases h : lookup m.cache (get_set_index m.cache a * m.cache.blocksPerSet)
    (get_tag m.cache a) with
  | none =>
    rw [resolve_miss m a h]
    simp only [fill_eq, evict_cache, setBlock_blockSize, setBlock_numSets,
      setBlock_blocksPerSet]
    split_ifs <;> exact ⟨rfl, rfl, rfl⟩
  | some i =>
    unfold resolve
    simp only [h]
    split_ifs
    · simp only [fill_eq, evict_cache, setBlock_blockSize, setBlock_numSets,
        setBlock_blocksPerSet]
      split_ifs <;> exact ⟨rfl, rfl, rfl⟩
    · exact ⟨rfl, rfl, rfl⟩

/-- The geometry never changes. -/
theorem access_geom (m : Machine) (a wf wd : Int) :
    (cache_access m a wf wd).2.cache.blockSize = m.cache.blockSize ∧
      (cache_access m a wf wd).2.cache.numSets = m.cache.numSets ∧
      (cache_access m a wf wd).2.cache.blocksPerSet = m.cache.blocksPerSet := by
  have h := resolve_geom m a
  unfold cache_access
  by_cases hw : wf ≠ 0
  · simp only [if_pos hw, printAction_cache, setBlock_blockSize, setBlock_numSets,
      setBlock_blocksPerSet, update_lru_blockSize, update_lru_numSets, update_lru_blocksPerSet]
    exact h
  · simp only [if_neg hw, printAction_cache, update_lru_blockSize, update_lru_numSets,
      update_lru_blocksPerSet]
    exact h

theorem access_GeomOk (m : Machine) (a wf wd : Int) (hg : GeomOk m.cache) :
    GeomOk (cache_access m a wf wd).2.cache := by
  obtain ⟨h1, h2, h3⟩ := access_geom m a wf wd
  unfold GeomOk
  rw [h1, h2, h3]
  exact hg

/-- The table that `resolve` leaves on a miss. -/
theorem resolve_miss_blocks (m : Machine) (a j : Int) (h : is_hit m a = false) :
    (resolve m a).2.cache.blocks j
      = if j = victim m a then
          { data := filled
              (evict { m with cache := { m.cache with misses := m.cache.misses + 1 } }
                (get_set_index m.cache a) (victim m a))
              (Int.tdiv a m.cache.blockSize * m.cache.blockSize) (victim m a)
              m.cache.blockSize.toNat,
            dirty := 0, lruLabel := (m.cache.blocks (victim m a)).lruLabel,
            tag := get_tag m.cache a, valid := 1 }
        else m.cache.blocks j := by
  rw [(resolve_miss_facts m a h).2.2, fill_eq]
  simp only [setBlock_blocks, evict_cache]
  split_ifs <;> rfl

/-- A block other than the resolved one keeps all its fields, except that a
valid block of the accessed set has its label raised by one. -/
theorem access_blocks_other (m : Machine) (a wf wd j : Int) (ha : 0 ≤ a) (hg : GeomOk m.cache)
    (hj : j ≠ (resolve m a).1) :
    (cache_access m a wf wd).2.cache.blocks j
      = if inSet m.cache (get_set_index m.cache a) j ∧ (m.cache.blocks j).valid ≠ 0 then
          { m.cache.blocks j with lruLabel := (m.cache.blocks j).lruLabel + 1 }
        else m.cache.blocks j := by
  have hb : (resolve m a).2.cache.blocks j = m.cache.blocks j := by
    cases h : is_hit m a with
    | true => rw [(resolve_hit_facts m a ha hg h).2.2.2]
    | false =>
      rw [resolve_miss_blocks m a _ h,
        if_neg (by rw [← (resolve_miss_facts m a h).2.1]; exact hj)]
  rw [access_blocks, if_neg hj, (resolve_geom m a).2.2, hb]
  exact if_congr (and_congr (inSet_iff_toNat _ _ _ hg.2.2) Iff.rfl) rfl rfl

/-- The resolved block after the call: valid, tagged with the tag of the
address, label 0. -/
theorem access_blocks_self (m : Machine) (a wf wd : Int) (ha : 0 ≤ a) (hg : GeomOk m.cache) :
    ((cache_access m a wf wd).2.cache.blocks (resolve m a).1).valid ≠ 0 ∧
      ((cache_access m a wf wd).2.cache.blocks (resolve m a).1).tag = get_tag m.cache a ∧
      ((cache_access m a wf wd).2.cache.blocks (resolve m a).1).lruLabel = 0 ∧
      ((cache_access m a wf wd).2.cache.blocks (resolve m a).1).dirty
        = (if wf ≠ 0 then 1
           else if is_hit m a = true then (m.cache.blocks (resolve m a).1).dirty else 0) := by
  rw [access_blocks, if_pos rfl]
  cases h : is_hit m a with
  | true =>
    obtain ⟨_, h2, h3, h4⟩ := resolve_hit_facts m a ha hg h
    rw [h4]
    by_cases hw : wf ≠ 0
    · rw [if_pos hw, if_pos hw]
      exact ⟨h2, h3, rfl, rfl⟩
    · rw [if_neg hw, if_neg hw, if_pos rfl]
      exact ⟨h2, h3, rfl, rfl⟩
  | false =>
    have h1 := (resolve_miss_facts m a h).2.1
    rw [resolve_miss_blocks m a _ h, if_pos h1]
    by_cases hw : wf ≠ 0
    · rw [if_pos hw, if_pos hw]
      exact ⟨by show (1 : Int) ≠ 0; decide, rfl, rfl, rfl⟩
    · rw [if_neg hw, if_neg hw, if_neg (by decide)]
      exact ⟨by show (1 : Int) ≠ 0; decide, rfl, rfl, rfl⟩

/-- Which blocks are valid after the call. -/
theorem access_valid (m : Machine) (a wf wd j : Int) (ha : 0 ≤ a) (hg : GeomOk m.cache) :
    ((cache_access m a wf wd).2.cache.blocks j).valid ≠ 0
      ↔ (j = (resolve m a).1 ∨ (m.cache.blocks j).valid ≠ 0) := by
  by_cases hj : j = (resolve m a).1
  · subst hj
    exact ⟨fun _ => Or.inl rfl, fun _ => (access_blocks_self m a wf wd ha hg).1⟩
  · rw [access_blocks_other m a wf wd j ha hg hj]
    constructor
    · intro h
      right
      split_ifs at h <;> exact h
    · rintro (h | h)
      · exact absurd h hj
      · split_ifs <;> exact h

/-- The tags after the call. -/
theorem access_tag (m : Machine) (a wf wd j : Int) (ha : 0 ≤ a) (hg : GeomOk m.cache) :
    ((cache_access m a wf wd).2.cache.blocks j).tag
      = if j = (resolve m a).1 then get_tag m.cache a else (m.cache.blocks j).tag := by
  by_cases hj : j = (resolve m a).1
  · subst hj
    rw [if_pos rfl]
    exact (access_blocks_self m a wf wd ha hg).2.1
  · rw [access_blocks_other m a wf wd j ha hg hj, if_neg hj]
    split_ifs <;> rfl

/-- The recency labels after the call. -/
theorem access_label (m : Machine) (a wf wd j : Int) (ha : 0 ≤ a) (hg : GeomOk m.cache) :
    ((cache_access m a wf wd).2.cache.blocks j).lruLabel
      = if j = (resolve m a).1 then 0
        else if inSet m.cache (get_set_index m.cache a) j ∧ (m.cache.blocks j).valid ≠ 0 then
          (m.cache.blocks j).lruLabel + 1
        else (m.cache.blocks j).lruLabel := by
  by_cases hj : j = (resolve m a).1
  · subst hj
    rw [if_pos rfl]
    exact (access_blocks_self m a wf wd ha hg).2.2.1
  · rw [access_blocks_other m a wf wd j ha hg hj, if_neg hj]
    split_ifs <;> rfl

/-- The dirty flags after the call. -/
theorem access_dirty (m : Machine) (a wf wd j : Int) (ha : 0 ≤ a) (hg : GeomOk m.cache) :
    ((cache_access m a wf wd).2.cache.blocks j).dirty
      = if j = (resolve m a).1 then
          (if wf ≠ 0 then 1 else if is_hit m a = true then (m.cache.blocks j).dirty else 0)
        else (m.cache.blocks j).dirty := by
  by_cases hj : j = (resolve m a).1
  · subst hj
    rw [if_pos rfl]
    exact (access_blocks_self m a wf wd ha hg).2.2.2
  · rw [access_blocks_other m a wf wd j ha hg hj, if_neg hj]
    split_ifs <;> rfl

/-- The block that serves the access lies in the set of the address. -/
theorem resolved_inSet (m : Machine) (a : Int) (ha : 0 ≤ a) (hg : GeomOk m.cache) :
    inSet m.cache (get_set_index m.cache a) (resolve m a).1 := by
  cases h : is_hit m a with
  | true => exact (resolve_hit_facts m a ha hg h).1
  | false =>
    rw [(resolve_miss_facts m a h).2.1]
    exact victim_inSet m a ha hg

/-! ## One `cache_access` call: counters, printed lines, memory calls -/

theorem access_outer (m : Machine) (a wf wd : Int) :
    (cache_access m a wf wd).2.printed = (resolve m a).2.printed ++ [proc_action a wf] ∧
      (cache_access m a wf wd).2.memCalls = (resolve m a).2.memCalls ∧
      (cache_access m a wf wd).2.state = (resolve m a).2.state ∧
      (cache_access m a wf wd).2.num_mem_accesses = (resolve m a).2.num_mem_accesses ∧
      (cache_access m a wf wd).2.cache.hits = (resolve m a).2.cache.hits ∧
      (cache_access m a wf wd).2.cache.misses = (resolve m a).2.cache.misses ∧
      (cache_access m a wf wd).2.cache.writebacks = (resolve m a).2.cache.writebacks := by
  unfold cache_access proc_action
  by_cases hw : wf ≠ 0
  · simp only [if_pos hw, printAction_printed, printAction_cache, printAction_memCalls,
      printAction_state, printAction_num, setBlock_hits, setBlock_misses, setBlock_writebacks,
      update_lru_hits, update_lru_misses, update_lru_writebacks, and_self]
  · simp only [if_neg hw, printAction_printed, printAction_cache, printAction_memCalls,
      printAction_state, printAction_num, update_lru_hits, update_lru_misses,
      update_lru_writebacks, and_self]

/-- A hit: one more hit, one printed line, nothing else. -/
theorem access_hit (m : Machine) (a wf wd : Int) (ha : 0 ≤ a) (hg : GeomOk m.cache)
    (h : is_hit m a = true) :
    (cache_access m a wf wd).2.cache.hits = m.cache.hits + 1 ∧
      (cache_access m a wf wd).2.cache.misses = m.cache.misses ∧
      (cache_access m a wf wd).2.cache.writebacks = m.cache.writebacks ∧
      (cache_access m a wf wd).2.printed = m.printed ++ [proc_action a wf] ∧
      (cache_access m a wf wd).2.memCalls = m.memCalls ∧
      (cache_access m a wf wd).2.state = m.state ∧
      (cache_access m a wf wd).2.num_mem_accesses = m.num_mem_accesses := by
  obtain ⟨p1, p2, p3, p4, p5, p6, p7⟩ := access_outer m a wf wd
  rw [p1, p2, p3, p4, p5, p6, p7, (resolve_hit_facts m a ha hg h).2.2.2]
  exact ⟨rfl, rfl, rfl, rfl, rfl, rfl, rfl⟩

/-- A miss: one more miss; the lines printed and the memory calls made are
those of the eviction, then those of the fill, then the processor line. -/
theorem access_miss (m : Machine) (a wf wd : Int) (h : is_hit m a = false) :
    (cache_access m a wf wd).2.cache.hits = m.cache.hits ∧
      (cache_access m a wf wd).2.cache.misses = m.cache.misses + 1 ∧
      (cache_access m a wf wd).2.cache.writebacks
        = m.cache.writebacks +
          (if (m.cache.blocks (victim m a)).valid ≠ 0 ∧ (m.cache.blocks (victim m a)).dirty ≠ 0
           then 1 else 0) ∧
      (cache_access m a wf wd).2.printed
        = m.printed ++
          (if (m.cache.blocks (victim m a)).valid ≠ 0 ∧ (m.cache.blocks (victim m a)).dirty ≠ 0
           then [{ address := old_addr m.cache (get_set_index m.cache a) (victim m a),
                   size := m.cache.blockSize, type := actionType.cacheToMemory }]
           else if (m.cache.blocks (victim m a)).valid ≠ 0
           then [{ address := old_addr m.cache (get_set_index m.cache a) (victim m a),
                   size := m.cache.blockSize, type := actionType.cacheToNowhere }]
           else []) ++
          [{ address := base_addr m.cache a, size := m.cache.blockSize,
             type := actionType.memoryToCache }, proc_action a wf] ∧
      (cache_access m a wf wd).2.memCalls
        = m.memCalls ++
          (if (m.cache.blocks (victim m a)).valid ≠ 0 ∧ (m.cache.blocks (victim m a)).dirty ≠ 0
           then (List.range m.cache.blockSize.toNat).map (fun (i : Nat) =>
              { addr := old_addr m.cache (get_set_index m.cache a) (victim m a) + (i : Int),
                write_flag := 1,
                write_data := (m.cache.blocks (victim m a)).data (i : Int) })
           else []) ++
          (List.range m.cache.blockSize.toNat).map (fun (i : Nat) =>
              { addr := base_addr m.cache a + (i : Int), write_flag := 0, write_data := 0 }) := by
  obtain ⟨p1, p2, _, _, p5, p6, p7⟩ := access_outer m a wf wd
  rw [p1, p2, p5, p6, p7, (resolve_miss_facts m a h).2.2, fill_eq]
  simp only [evict_cache, evict_printed, evict_memCalls, old_addr, base_addr]
  refine ⟨?_, ?_, ?_, ?_, ?_⟩
  · split_ifs <;> rfl
  · split_ifs <;> rfl
  · split_ifs <;> simp
  · split_ifs <;> simp
  · split_ifs <;> simp

/-! ## `cache_init` -/

theorem init_loop (k : Nat) (c : cacheStruct) (hz : ∀ j, c.blocks j = block_zero) :
    (∀ j, ((List.range k).foldl
        (fun (c : cacheStruct) (i : Nat) =>
          c.setBlock (i : Int)
            { c.blocks (i : Int) with valid := 0, dirty := 0, lruLabel := 0, tag := 0 })
        c).blocks j = block_zero) ∧
    ((List.range k).foldl
        (fun (c : cacheStruct) (i : Nat) =>
          c.setBlock (i : Int)
            { c.blocks (i : Int) with valid := 0, dirty := 0, lruLabel := 0, tag := 0 })
        c).blockSize = c.blockSize ∧
    ((List.range k).foldl
        (fun (c : cacheStruct) (i : Nat) =>
          c.setBlock (i : Int)
            { c.blocks (i : Int) with valid := 0, dirty := 0, lruLabel := 0, tag := 0 })
        c).numSets = c.numSets ∧
    ((List.range k).foldl
        (fun (c : cacheStruct) (i : Nat) =>
          c.setBlock (i : Int)
            { c.blocks (i : Int) with valid := 0, dirty := 0, lruLabel := 0, tag := 0 })
        c).blocksPerSet = c.blocksPerSet ∧
    ((List.range k).foldl
        (fun (c : cacheStruct) (i : Nat) =>
          c.setBlock (i : Int)
            { c.blocks (i : Int) with valid := 0, dirty := 0, lruLabel := 0, tag := 0 })
        c).hits = c.hits ∧
    ((List.range k).foldl
        (fun (c : cacheStruct) (i : Nat) =>
          c.setBlock (i : Int)
            { c.blocks (i : Int) with valid := 0, dirty := 0, lruLabel := 0, tag := 0 })
        c).misses = c.misses ∧
    ((List.range k).foldl
        (fun (c : cacheStruct) (i : Nat) =>
          c.setBlock (i : Int)
            { c.blocks (i : Int) with valid := 0, dirty := 0, lruLabel := 0, tag := 0 })
        c).writebacks = c.writebacks := by
  induction k with
  | zero => exact ⟨hz, rfl, rfl, rfl, rfl, rfl, rfl⟩
  | succ k ih =>
    obtain ⟨h0, h1, h2, h3, h4, h5, h6⟩ := ih
    rw [List.range_succ, List.foldl_append]
    simp only [List.foldl_cons, List.foldl_nil, setBlock_blocks, setBlock_blockSize,
      setBlock_numSets, setBlock_blocksPerSet, setBlock_hits, setBlock_misses,
      setBlock_writebacks]
    refine ⟨?_, h1, h2, h3, h4, h5, h6⟩
    intro j
    split_ifs with hj
    · rw [h0]; rfl
    · exact h0 j

/-- What a successful `cache_init` leaves: the arguments as geometry, all of
them positive, zero counters, and every block zero. -/
theorem cache_init_ok {bs ns bps : Int} {ws : List initWarning} {c : cacheStruct}
    (h : cache_init cache_global bs ns bps = Except.ok (ws, c)) :
    (0 < bs ∧ 0 < ns ∧ 0 < bps ∧ wrap32 (bps * ns) ≤ MAX_CACHE_SIZE ∧ bs ≤ MAX_BLOCK_SIZE) ∧
      (c.blockSize = bs ∧ c.numSets = ns ∧ c.blocksPerSet = bps) ∧
      (c.hits = 0 ∧ c.misses = 0 ∧ c.writebacks = 0) ∧
      (∀ j, c.blocks j = block_zero) := by
  unfold cache_init at h
  by_cases h1 : bs ≤ 0 ∨ ns ≤ 0 ∨ bps ≤ 0
  · rw [if_pos h1] at h; cases h
  rw [if_neg h1] at h
  by_cases h2 : wrap32 (bps * ns) > MAX_CACHE_SIZE
  · rw [if_pos h2] at h; cases h
  rw [if_neg h2] at h
  by_cases h3 : bs > MAX_BLOCK_SIZE
  · rw [if_pos h3] at h; cases h
  rw [if_neg h3] at h
  simp only [Except.ok.injEq, Prod.mk.injEq] at h
  obtain ⟨_, hc⟩ := h
  subst hc
  obtain ⟨p0, p1, p2, p3, p4, p5, p6⟩ := init_loop (wrap32 (ns * bps)).toNat
    { cache_global with blockSize := bs, numSets := ns, blocksPerSet := bps,
                        hits := 0, misses := 0, writebacks := 0 } (fun _ => rfl)
  refine ⟨⟨by omega, by omega, by omega, by omega, by omega⟩, ⟨p1, p2, p3⟩, ⟨p4, p5, p6⟩, p0⟩

/-! ## Invariants of the reachable states -/

theorem start_invariants {bs ns bps : Int} {ws : List initWarning} {c : cacheStruct}
    (st : stateType) (h : cache_init cache_global bs ns bps = Except.ok (ws, c)) :
    GeomOk (start st c).cache ∧ NoDupTags (start st c).cache ∧
      DirtyValid (start st c).cache ∧ LabelsNonneg (start st c).cache := by
  obtain ⟨⟨g1, g2, g3, _, _⟩, ⟨e1, e2, e3⟩, _, hz⟩ := cache_init_ok h
  refine ⟨?_, ?_, ?_, ?_⟩
  · show 0 < c.blockSize ∧ 0 < c.numSets ∧ 0 < c.blocksPerSet
    rw [e1, e2, e3]; exact ⟨g1, g2, g3⟩
  · intro s i j _ _ hv
    exact absurd (by show (c.blocks i).valid = 0; rw [hz]; rfl) hv
  · intro j hd
    exact absurd (by show (c.blocks j).dirty = 0; rw [hz]; rfl) hd
  · intro j
    show 0 ≤ (c.blocks j).lruLabel
    rw [hz]; exact le_refl _

theorem access_NoDupTags (m : Machine) (a wf wd : Int) (ha : 0 ≤ a) (hg : GeomOk m.cache)
    (hn : NoDupTags m.cache) : NoDupTags (cache_access m a wf wd).2.cache := by
  intro s i j hi hj hvi hvj ht
  have hbps := (access_geom m a wf wd).2.2
  have hi0 : inSet m.cache s i := by unfold inSet at hi ⊢; rw [hbps] at hi; exact hi
  have hj0 : inSet m.cache s j := by unfold inSet at hj ⊢; rw [hbps] at hj; exact hj
  rw [access_valid m a wf wd _ ha hg] at hvi hvj
  rw [access_tag m a wf wd _ ha hg, access_tag m a wf wd _ ha hg] at ht
  have hf := resolved_inSet m a ha hg
  by_cases ei : i = (resolve m a).1
  · by_cases ej : j = (resolve m a).1
    · rw [ei, ej]
    · exfalso
      rw [if_pos ei, if_neg ej] at ht
      have hvj0 : (m.cache.blocks j).valid ≠ 0 := hvj.resolve_left ej
      have hs : s = get_set_index m.cache a :=
        inSet_disjoint m.cache _ _ _ hg.2.2 hi0 (ei ▸ hf)
      cases h : is_hit m a with
      | true =>
        obtain ⟨_, h2, h3, _⟩ := resolve_hit_facts m a ha hg h
        exact ej (hn s j _ hj0 (hs ▸ hf) hvj0 h2 (by rw [h3, ht]))
      | false =>
        exact (resolve_miss_facts m a h).1 j (hs ▸ hj0) hvj0 ht.symm
  · by_cases ej : j = (resolve m a).1
    · exfalso
      rw [if_neg ei, if_pos ej] at ht
      have hvi0 : (m.cache.blocks i).valid ≠ 0 := hvi.resolve_left ei
      have hs : s = get_set_index m.cache a :=
        inSet_disjoint m.cache _ _ _ hg.2.2 hj0 (ej ▸ hf)
      cases h : is_hit m a with
      | true =>
        obtain ⟨_, h2, h3, _⟩ := resolve_hit_facts m a ha hg h
        exact ei (hn s i _ hi0 (hs ▸ hf) hvi0 h2 (by rw [h3, ht]))
      | false =>
        exact (resolve_miss_facts m a h).1 i (hs ▸ hi0) hvi0 ht
    · rw [if_neg ei, if_neg ej] at ht
      exact hn s i j hi0 hj0 (hvi.resolve_left ei) (hvj.resolve_left ej) ht

theorem access_DirtyValid (m : Machine) (a wf wd : Int) (ha : 0 ≤ a) (hg : GeomOk m.cache)
    (hd : DirtyValid m.cache) : DirtyValid (cache_access m a wf wd).2.cache := by
  intro j hdj
  rw [access_valid m a wf wd _ ha hg]
  rw [access_dirty m a wf wd _ ha hg] at hdj
  by_cases ej : j = (resolve m a).1
  · exact Or.inl ej
  · rw [if_neg ej] at hdj
    exact Or.inr (hd j hdj)

theorem access_LabelsNonneg (m : Machine) (a wf wd : Int) (ha : 0 ≤ a) (hg : GeomOk m.cache)
    (hl : LabelsNonneg m.cache) : LabelsNonneg (cache_access m a wf wd).2.cache := by
  intro j
  rw [access_label m a wf wd _ ha hg]
  have := hl j
  split_ifs <;> omega

/-- The invariants hold in every reachable state. -/
theorem reachable_invariants {m : Machine} (h : Reachable m) :
    GeomOk m.cache ∧ NoDupTags m.cache ∧ DirtyValid m.cache ∧ LabelsNonneg m.cache := by
  induction h with
  | init st bs ns bps ws c h => exact start_invariants st h
  | step m a wf wd _ ha ih =>
    obtain ⟨hg, hn, hd, hl⟩ := ih
    exact ⟨access_GeomOk m a wf wd hg, access_NoDupTags m a wf wd ha hg hn,
      access_DirtyValid m a wf wd ha hg hd, access_LabelsNonneg m a wf wd ha hg hl⟩

/-- An access to one set changes no block of another set. -/
theorem other_set_untouched (m : Machine) (a wf wd s j : Int) (ha : 0 ≤ a)
    (hg : GeomOk m.cache) (hs : get_set_index m.cache a ≠ s) (hj : inSet m.cache s j) :
    (cache_access m a wf wd).2.cache.blocks j = m.cache.blocks j := by
  have hne : j ≠ (resolve m a).1 := by
    intro e
    have := resolved_inSet m a ha hg
    rw [← e] at this
    exact hs (inSet_disjoint m.cache _ _ _ hg.2.2 this hj)
  rw [access_blocks_other m a wf wd j ha hg hne, if_neg]
  rintro ⟨h1, _⟩
  exact hs (inSet_disjoint m.cache _ _ _ hg.2.2 h1 hj)

/-! ## Runs -/

theorem run_append (m : Machine) (xs ys : List Access) :
    run m (xs ++ ys) = run (run m xs) ys := by
  induction xs generalizing m with
  | nil => rfl
  | cons x xs ih => exact ih _

theorem run_reachable {m : Machine} (hm : Reachable m) (accs : List Access)
    (hnn : ∀ x ∈ accs, 0 ≤ x.addr) : Reachable (run m accs) := by
  induction accs generalizing m with
  | nil => exact hm
  | cons x xs ih =>
    exact ih (Reachable.step m x.addr x.write_flag x.write_data hm
      (hnn x (List.mem_cons_self _ _))) (fun y hy => hnn y (List.mem_cons_of_mem _ hy))

theorem get_set_index_congr {c1 c2 : cacheStruct} (a : Int) (h1 : c1.blockSize = c2.blockSize)
    (h2 : c1.numSets = c2.numSets) : get_set_index c1 a = get_set_index c2 a := by
  unfold get_set_index; rw [h1, h2]

theorem get_tag_congr {c1 c2 : cacheStruct} (a : Int) (h1 : c1.blockSize = c2.blockSize)
    (h2 : c1.numSets = c2.numSets) : get_tag c1 a = get_tag c2 a := by
  unfold get_tag; rw [h1, h2]

theorem get_block_offset_congr {c1 c2 : cacheStruct} (a : Int)
    (h1 : c1.blockSize = c2.blockSize) : get_block_offset c1 a = get_block_offset c2 a := by
  unfold get_block_offset; rw [h1]

/-! ## C1 -/

/-- C1. For a geometry with `blockSize ≥ 1` and `numSets ≥ 1` and an address
`a ≥ 0`, rebuilding the address from tag, set index and block offset gives `a`
back; the three parts are `a / (blockSize * numSets)`, `(a / blockSize) % numSets`
and `a % blockSize`. -/
theorem roundtrip_addressing (c : cacheStruct) (a : Int) (hb : 1 ≤ c.blockSize)
    (hn : 1 ≤ c.numSets) (ha : 0 ≤ a) :
    (get_tag c a * c.numSets + get_set_index c a) * c.blockSize + get_block_offset c a = a ∧
      get_tag c a = a / (c.blockSize * c.numSets) ∧
      get_set_index c a = (a / c.blockSize) % c.numSets ∧
      get_block_offset c a = a % c.blockSize := by
  have hb0 : 0 < c.blockSize := by omega
  have hn0 : 0 < c.numSets := by omega
  refine ⟨?_, get_tag_eq c a ha hb0 hn0, get_set_index_eq c a ha hb0 hn0,
    get_block_offset_eq c a ha hb0⟩
  rw [get_tag_eq c a ha hb0 hn0, get_set_index_eq c a ha hb0 hn0,
    get_block_offset_eq c a ha hb0]
  exact roundtrip_core a c.blockSize c.numSets ha hb0 hn0

theorem roundtrip_addressing_witness :
    (get_tag example_geometry 13 * example_geometry.numSets + get_set_index example_geometry 13)
        * example_geometry.blockSize + get_block_offset example_geometry 13 = 13 :=
  (roundtrip_addressing example_geometry 13 (by decide) (by decide) (by decide)).1

/-! ## C2 -/

theorem old_addr_of_resolved (m : Machine) (a s : Int) (ha : 0 ≤ a) (hg : GeomOk m.cache)
    (hs : s = get_set_index m.cache a) :
    (get_tag m.cache a * m.cache.numSets + s) * m.cache.blockSize
      = Int.tdiv a m.cache.blockSize * m.cache.blockSize := by
  rw [hs, get_tag_eq _ _ ha hg.1 hg.2.1, get_set_index_eq _ _ ha hg.1 hg.2.1,
    Int.tdiv_eq_ediv ha (le_of_lt hg.1)]
  exact base_of_parts a _ _ ha hg.1 hg.2.1

/-- C2. In a reachable state, an access to a non-negative address that misses
with a valid dirty victim prints exactly three lines: `cacheToMemory` for the
victim's block, `memoryToCache` for the block of the address, then the
one-word processor line; the backing store is called with the `blockSize`
writes of the victim's words, ascending, and then with the `blockSize` reads of
the fill.  In particular, after a write to `A`, an access to `B` that misses
and takes the block that served `A` prints the write-back of the block of `A`
before the fill for `B`. -/
theorem dirty_eviction_protocol (m : Machine) (hm : Reachable m) :
    (∀ a wf wd : Int, 0 ≤ a → is_hit m a = false →
      (m.cache.blocks (victim m a)).valid ≠ 0 → (m.cache.blocks (victim m a)).dirty ≠ 0 →
      (cache_access m a wf wd).2.printed
        = m.printed ++
          [{ address := ((m.cache.blocks (victim m a)).tag * m.cache.numSets
                          + get_set_index m.cache a) * m.cache.blockSize,
             size := m.cache.blockSize, type := actionType.cacheToMemory },
           { address := Int.tdiv a m.cache.blockSize * m.cache.blockSize,
             size := m.cache.blockSize, type := actionType.memoryToCache },
           { address := a, size := 1,
             type := if wf ≠ 0 then actionType.processorToCache
                     else actionType.cacheToProcessor }] ∧
      (cache_access m a wf wd).2.memCalls
        = m.memCalls ++
          (List.range m.cache.blockSize.toNat).map (fun (i : Nat) =>
            { addr := ((m.cache.blocks (victim m a)).tag * m.cache.numSets
                          + get_set_index m.cache a) * m.cache.blockSize + (i : Int),
              write_flag := 1, write_data := (m.cache.blocks (victim m a)).data (i : Int) }) ++
          (List.range m.cache.blockSize.toNat).map (fun (i : Nat) =>
            { addr := Int.tdiv a m.cache.blockSize * m.cache.blockSize + (i : Int),
              write_flag := 0, write_data := 0 })) ∧
    (∀ A d B wf wd : Int, 0 ≤ A → 0 ≤ B →
      is_hit (cache_access m A 1 d).2 B = false →
      victim (cache_access m A 1 d).2 B = (resolve m A).1 →
      (cache_access (cache_access m A 1 d).2 B wf wd).2.printed
        = (cache_access m A 1 d).2.printed ++
          [{ address := Int.tdiv A m.cache.blockSize * m.cache.blockSize,
             size := m.cache.blockSize, type := actionType.cacheToMemory },
           { address := Int.tdiv B m.cache.blockSize * m.cache.blockSize,
             size := m.cache.blockSize, type := actionType.memoryToCache },
           { address := B, size := 1,
             type := if wf ≠ 0 then actionType.processorToCache
                     else actionType.cacheToProcessor }]) := by
  have key : ∀ (m : Machine) (a wf wd : Int), is_hit m a = false →
      (m.cache.blocks (victim m a)).valid ≠ 0 → (m.cache.blocks (victim m a)).dirty ≠ 0 →
      (cache_access m a wf wd).2.printed
        = m.printed ++
          [{ address := ((m.cache.blocks (victim m a)).tag * m.cache.numSets
                          + get_set_index m.cache a) * m.cache.blockSize,
             size := m.cache.blockSize, type := actionType.cacheToMemory },
           { address := Int.tdiv a m.cache.blockSize * m.cache.blockSize,
             size := m.cache.blockSize, type := actionType.memoryToCache },
           { address := a, size := 1,
             type := if wf ≠ 0 then actionType.processorToCache
                     else actionType.cacheToProcessor }] := by
    intro m a wf wd hmiss hv hd
    obtain ⟨_, _, _, hp, _⟩ := access_miss m a wf wd hmiss
    rw [hp, if_pos ⟨hv, hd⟩]
    simp only [old_addr, base_addr, proc_action, List.append_assoc, List.singleton_append]
    split_ifs <;> rfl
  refine ⟨?_, ?_⟩
  · intro a wf wd _ hmiss hv hd
    refine ⟨key m a wf wd hmiss hv hd, ?_⟩
    obtain ⟨_, _, _, _, hc⟩ := access_miss m a wf wd hmiss
    rw [hc, if_pos ⟨hv, hd⟩]
    rfl
  · intro A d B wf wd hA hB hmiss hvic
    obtain ⟨hg, _, _, _⟩ := reachable_invariants hm
    obtain ⟨g1, g2, g3⟩ := access_geom m A 1 d
    have hg1 : GeomOk (cache_access m A 1 d).2.cache := access_GeomOk m A 1 d hg
    obtain ⟨sv, st, _, sd⟩ := access_blocks_self m A 1 d hA hg
    rw [if_pos (by decide)] at sd
    have hset : get_set_index (cache_access m A 1 d).2.cache B = get_set_index m.cache A := by
      have h1 := victim_inSet (cache_access m A 1 d).2 B hB hg1
      have h2 := resolved_inSet m A hA hg
      rw [hvic] at h1
      unfold inSet at h1 h2
      rw [g3] at h1
      exact inSet_disjoint m.cache _ _ _ hg.2.2 h1 h2
    rw [key _ B wf wd hmiss (by rw [hvic]; exact sv) (by rw [hvic, sd]; decide)]
    rw [hvic, st, hset, g1, g2, old_addr_of_resolved m A _ hA hg rfl]

theorem example_direct_reachable : Reachable example_direct :=
  Reachable.init example_store 4 2 1 (init_result 4 2 1).1 (init_result 4 2 1).2 rfl

theorem example_assoc_reachable : Reachable example_assoc :=
  Reachable.init example_store 2 1 2 (init_result 2 1 2).1 (init_result 2 1 2).2 rfl

theorem dirty_eviction_protocol_witness :
    (cache_access (cache_access example_direct 0 1 7).2 8 0 0).2.printed
      = (cache_access example_direct 0 1 7).2.printed ++
        [{ address := Int.tdiv 0 example_direct.cache.blockSize * example_direct.cache.blockSize,
           size := example_direct.cache.blockSize, type := actionType.cacheToMemory },
         { address := Int.tdiv 8 example_direct.cache.blockSize * example_direct.cache.blockSize,
           size := example_direct.cache.blockSize, type := actionType.memoryToCache },
         { address := 8, size := 1,
           type := if (0 : Int) ≠ 0 then actionType.processorToCache
                   else actionType.cacheToProcessor }] :=
  (dirty_eviction_protocol example_direct example_direct_reachable).2
    0 7 8 0 0 (by decide) (by decide) (by decide) (by decide)

/-! ## C3: least recently used order -/

theorem set_after_miss (m : Machine) (a s : Int) (T : List Int)
    (hs : get_set_index m.cache a = s) (hsh : set_after m.cache s T)
    (hnew : get_tag m.cache a ∉ T) : is_hit m a = false := by
  cases h : is_hit m a with
  | false => rfl
  | true =>
    exfalso
    obtain ⟨i, hi⟩ := is_hit_true h
    obtain ⟨h1, h2, h3, _⟩ := lookup_some hi
    rw [hs] at h2 h3
    obtain ⟨e1, e2⟩ := hsh i h1
    by_cases hL : i < T.length
    · obtain ⟨_, t2, _⟩ := e2 hL
      rw [h3] at t2
      exact hnew (List.getElem?_mem t2)
    · exact h2 (e1 (by omega))

theorem set_after_victim (m : Machine) (a s : Int) (T : List Int) (ha : 0 ≤ a)
    (hg : GeomOk m.cache) (hs : get_set_index m.cache a = s) (hsh : set_after m.cache s T)
    (hlen : T.length < 2 * m.cache.blocksPerSet.toNat) :
    victim m a = s * m.cache.blocksPerSet +
      ((if T.length < m.cache.blocksPerSet.toNat then T.length
        else T.length - m.cache.blocksPerSet.toNat : Nat) : Int) := by
  have hstart := set_start_nonneg m.cache a ha hg
  have hn : 0 < m.cache.blocksPerSet.toNat := by have := hg.2.2; omega
  unfold victim
  rw [hs] at hstart ⊢
  by_cases hL : T.length < m.cache.blocksPerSet.toNat
  · rw [if_pos hL]
    apply choose_victim_empty _ hstart
    apply find_empty_some_of hL
    · exact (hsh _ hL).1 (le_refl _)
    · intro j hj
      exact ((hsh j (by omega)).2 hj).1
  · rw [if_neg hL]
    have hfull : find_empty m.cache (s * m.cache.blocksPerSet) = none :=
      find_empty_none_of (fun j hj => ((hsh j hj).2 (by omega)).1)
    rw [choose_victim_full hfull]
    obtain ⟨w, hw, hf, _, hmax, hfirst⟩ := find_lru_block_spec m.cache s hg.2.2
    rw [hf]
    have hv0 : T.length - m.cache.blocksPerSet.toNat < m.cache.blocksPerSet.toNat := by omega
    obtain ⟨_, _, l0⟩ := (hsh _ hv0).2 (by omega)
    obtain ⟨_, _, lw⟩ := (hsh w hw).2 (by omega)
    have hle := hmax _ hv0 (Or.inr ((hsh _ hv0).2 (by omega)).1)
    rw [l0, lw] at hle
    unfold slot_index at hle
    have : w = T.length - m.cache.blocksPerSet.toNat := by
      split_ifs at hle <;> omega
    rw [this]

theorem slot_index_lt (n L w : Nat) (hw : w < L) : slot_index n L w < L := by
  unfold slot_index; split_ifs <;> omega

/-- An access to set `s` with a new tag extends the history of the set. -/
theorem set_after_step (m : Machine) (a wf wd s : Int) (T : List Int) (ha : 0 ≤ a)
    (hg : GeomOk m.cache) (hs : get_set_index m.cache a = s) (hsh : set_after m.cache s T)
    (hnew : get_tag m.cache a ∉ T) (hlen : T.length < 2 * m.cache.blocksPerSet.toNat) :
    set_after (cache_access m a wf wd).2.cache s (T ++ [get_tag m.cache a]) := by
  have hmiss := set_after_miss m a s T hs hsh hnew
  have hvic := set_after_victim m a s T ha hg hs hsh hlen
  have hres := (resolve_miss_facts m a hmiss).2.1
  have hb := (access_geom m a wf wd).2.2
  obtain ⟨sv, st, sl, _⟩ := access_blocks_self m a wf wd ha hg
  rw [hres, hvic] at sv st sl
  intro w hw
  rw [hb] at hw ⊢
  simp only [List.length_append, List.length_singleton]
  by_cases hwv : w = (if T.length < m.cache.blocksPerSet.toNat then T.length
        else T.length - m.cache.blocksPerSet.toNat)
  · -- the filled way
    have hwL : w < T.length + 1 := by rw [hwv]; split_ifs <;> omega
    have hidx : slot_index m.cache.blocksPerSet.toNat (T.length + 1) w = T.length := by
      unfold slot_index; rw [hwv]; split_ifs <;> omega
    refine ⟨fun h => by omega, fun _ => ?_⟩
    rw [hidx, hwv]
    refine ⟨sv, ?_, ?_⟩
    · rw [st, List.getElem?_concat_length]
    · rw [sl]; push_cast; ring
  · -- another way of the set
    have hne : s * m.cache.blocksPerSet + (w : Int) ≠ (resolve m a).1 := by
      rw [hres, hvic]
      intro e
      exact hwv (by omega)
    have hin : inSet m.cache (get_set_index m.cache a) (s * m.cache.blocksPerSet + (w : Int)) := by
      rw [hs]; exact inSet_way _ _ w hw
    rw [access_blocks_other m a wf wd _ ha hg hne]
    obtain ⟨e1, e2⟩ := hsh w hw
    refine ⟨?_, ?_⟩
    · intro hLw
      have hv0 := e1 (by omega)
      rw [if_neg (fun h => h.2 hv0)]
      exact hv0
    · intro hwL
      have hwL0 : w < T.length := by
        by_contra hcon
        apply hwv
        have : w = T.length := by omega
        rw [if_pos (by omega)]
        exact this
      obtain ⟨v1, v2, v3⟩ := e2 hwL0
      rw [if_pos ⟨hin, v1⟩]
      have hidx : slot_index m.cache.blocksPerSet.toNat (T.length + 1) w
          = slot_index m.cache.blocksPerSet.toNat T.length w := by
        unfold slot_index
        have : w + m.cache.blocksPerSet.toNat ≠ T.length := by
          intro e
          apply hwv
          rw [if_neg (by omega)]
          omega
        split_ifs <;> omega
      rw [hidx]
      refine ⟨v1, ?_, ?_⟩
      · rw [List.getElem?_append_left
          (slot_index_lt _ _ _ hwL0)]
        exact v2
      · show (m.cache.blocks (s * m.cache.blocksPerSet + (w : Int))).lruLabel + 1 = _
        rw [v3]; push_cast; ring

/-- An access to another set leaves the history of set `s` as it is. -/
theorem set_after_frame (m : Machine) (a wf wd s : Int) (T : List Int) (ha : 0 ≤ a)
    (hg : GeomOk m.cache) (hs : get_set_index m.cache a ≠ s) (hsh : set_after m.cache s T) :
    set_after (cache_access m a wf wd).2.cache s T := by
  have hb := (access_geom m a wf wd).2.2
  intro w hw
  rw [hb] at hw ⊢
  rw [other_set_untouched m a wf wd s _ ha hg hs (inSet_way _ _ w hw)]
  exact hsh w hw

theorem set_tags_congr {c1 c2 : cacheStruct} (s : Int) (xs : List Access)
    (h1 : c1.blockSize = c2.blockSize) (h2 : c1.numSets = c2.numSets) :
    set_tags c1 s xs = set_tags c2 s xs := by
  unfold set_tags get_set_index get_tag
  rw [h1, h2]

theorem set_tags_cons (c : cacheStruct) (s : Int) (x : Access) (xs : List Access) :
    set_tags c s (x :: xs)
      = if get_set_index c x.addr = s then get_tag c x.addr :: set_tags c s xs
        else set_tags c s xs := by
  unfold set_tags
  rw [List.filter_cons]
  by_cases h : get_set_index c x.addr = s
  · rw [if_pos (decide_eq_true h), if_pos h, List.map_cons]
  · rw [if_neg (by simpa using h), if_neg h]

/-- The history of set `s` along a run, as long as its tags stay distinct and
are at most twice the associativity. -/
theorem run_set_after (s : Int) (xs : List Access) (m : Machine) (T : List Int)
    (hg : GeomOk m.cache) (hnn : ∀ x ∈ xs, 0 ≤ x.addr) (hsh : set_after m.cache s T)
    (hnd : (T ++ set_tags m.cache s xs).Nodup)
    (hlen : (T ++ set_tags m.cache s xs).length ≤ 2 * m.cache.blocksPerSet.toNat) :
    set_after (run m xs).cache s (T ++ set_tags m.cache s xs) ∧
      (run m xs).cache.blockSize = m.cache.blockSize ∧
      (run m xs).cache.numSets = m.cache.numSets ∧
      (run m xs).cache.blocksPerSet = m.cache.blocksPerSet := by
  induction xs generalizing m T with
  | nil =>
    refine ⟨?_, rfl, rfl, rfl⟩
    show set_after m.cache s (T ++ set_tags m.cache s [])
    unfold set_tags
    simpa using hsh
  | cons x xs ih =>
    have hx := hnn x (List.mem_cons_self _ _)
    have hrest : ∀ y ∈ xs, 0 ≤ y.addr := fun y hy => hnn y (List.mem_cons_of_mem _ hy)
    obtain ⟨g1, g2, g3⟩ := access_geom m x.addr x.write_flag x.write_data
    have hg1 := access_GeomOk m x.addr x.write_flag x.write_data hg
    have hcongr := set_tags_congr s xs g1 g2
    rw [set_tags_cons] at hnd hlen ⊢
    show set_after (run (cache_access m x.addr x.write_flag x.write_data).2 xs).cache s _ ∧
      (run (cache_access m x.addr x.write_flag x.write_data).2 xs).cache.blockSize = _ ∧
      (run (cache_access m x.addr x.write_flag x.write_data).2 xs).cache.numSets = _ ∧
      (run (cache_access m x.addr x.write_flag x.write_data).2 xs).cache.blocksPerSet = _
    by_cases hs : get_set_index m.cache x.addr = s
    · rw [if_pos hs] at hnd hlen ⊢
      have hnd' : (T ++ [get_tag m.cache x.addr] ++ set_tags m.cache s xs).Nodup := by
        rw [List.append_assoc]; exact hnd
      have hlen' : (T ++ [get_tag m.cache x.addr] ++ set_tags m.cache s xs).length
          ≤ 2 * m.cache.blocksPerSet.toNat := by
        rw [List.append_assoc]; exact hlen
      have hnew : get_tag m.cache x.addr ∉ T := by
        intro hmem
        have := (List.nodup_append.mp hnd).2.2
        exact this hmem (List.mem_cons_self _ _)
      have hlt : T.length < 2 * m.cache.blocksPerSet.toNat := by
        simp only [List.length_append, List.length_cons] at hlen
        omega
      have hstep := set_after_step m x.addr x.write_flag x.write_data s T hx hg hs hsh hnew hlt
      have := ih (cache_access m x.addr x.write_flag x.write_data).2
        (T ++ [get_tag m.cache x.addr]) hg1 hrest hstep
        (by rw [hcongr]; exact hnd') (by rw [hcongr, g3]; exact hlen')
      rw [hcongr, g1, g2, g3, List.append_assoc] at this
      exact this
    · rw [if_neg hs] at hnd hlen ⊢
      have hstep := set_after_frame m x.addr x.write_flag x.write_data s T hx hg hs hsh
      have := ih (cache_access m x.addr x.write_flag x.write_data).2 T hg1 hrest hstep
        (by rw [hcongr]; exact hnd) (by rw [hcongr, g3]; exact hlen)
      rw [hcongr, g1, g2, g3] at this
      exact this

theorem list_split_at {α : Type} (B : List α) (j : Nat) (b : α) (h : B[j]? = some b) :
    B = B.take j ++ b :: B.drop (j + 1) := by
  induction B generalizing j with
  | nil => simp at h
  | cons x xs ih =>
    cases j with
    | zero =>
      simp only [List.getElem?_cons_zero, Option.some.injEq] at h
      simp [h]
    | succ j =>
      simp only [List.getElem?_cons_succ] at h
      simp only [List.take_succ_cons, List.drop_succ_cons, List.cons_append, List.cons.injEq,
        true_and]
      exact ih j h

theorem set_after_start (st : stateType) (bs ns bps : Int) (ws : List initWarning)
    (c : cacheStruct) (hinit : cache_init cache_global bs ns bps = Except.ok (ws, c)) (s : Int) :
    set_after (start st c).cache s [] := by
  obtain ⟨_, _, _, hz⟩ := cache_init_ok hinit
  intro w _
  refine ⟨fun _ => ?_, fun h => by simp at h⟩
  show (c.blocks _).valid = 0
  rw [hz]; rfl

/-- C3. After `cache_init` with associativity `k`, let the accesses that map
to set `s` be, in order, `A` (`k` accesses) and then the first `j` accesses of
`B` (`k` accesses), all the tags of `A` and `B` being distinct; accesses to
other sets may come in between.  Then the next access of `B` misses, its
victim is valid and holds the tag of the `j`-th access of `A`, and the call
prints first the eviction line of that block, at
`(tag * numSets + s) * blockSize`, then the fill line and the processor line. -/
theorem lru_eviction_order (st : stateType) (bs ns bps : Int) (ws : List initWarning)
    (c : cacheStruct) (hinit : cache_init cache_global bs ns bps = Except.ok (ws, c))
    (s : Int) (xs A B : List Access) (j : Nat) (a b : Access)
    (hnn : ∀ x ∈ xs, 0 ≤ x.addr)
    (hA : A.length = c.blocksPerSet.toNat) (hB : B.length = c.blocksPerSet.toNat)
    (hAB : ∀ x ∈ A ++ B, 0 ≤ x.addr ∧ get_set_index c x.addr = s)
    (hnd : ((A ++ B).map (fun x => get_tag c x.addr)).Nodup)
    (hxs : xs.filter (fun x => decide (get_set_index c x.addr = s)) = A ++ B.take j)
    (haj : A[j]? = some a) (hbj : B[j]? = some b) :
    is_hit (run (start st c) xs) b.addr = false ∧
      ((run (start st c) xs).cache.blocks (victim (run (start st c) xs) b.addr)).valid ≠ 0 ∧
      ((run (start st c) xs).cache.blocks (victim (run (start st c) xs) b.addr)).tag
        = get_tag c a.addr ∧
      ∃ ty : actionType, (ty = actionType.cacheToMemory ∨ ty = actionType.cacheToNowhere) ∧
        (cache_access (run (start st c) xs) b.addr b.write_flag b.write_data).2.printed
          = (run (start st c) xs).printed ++
            [{ address := (get_tag c a.addr * c.numSets + s) * c.blockSize,
               size := c.blockSize, type := ty },
             { address := Int.tdiv b.addr c.blockSize * c.blockSize,
               size := c.blockSize, type := actionType.memoryToCache },
             { address := b.addr, size := 1,
               type := if b.write_flag ≠ 0 then actionType.processorToCache
                       else actionType.cacheToProcessor }] := by
  have hg0 : GeomOk (start st c).cache := (start_invariants st hinit).1
  have hsplit := list_split_at B j b hbj
  have hjB : j < B.length := (List.getElem?_eq_some.mp hbj).1
  have hjA : j < A.length := (List.getElem?_eq_some.mp haj).1
  have hk : 0 < c.blocksPerSet.toNat := by omega
  -- the tags seen by set `s` before the access `b`
  have htags : set_tags c s xs = (A ++ B.take j).map (fun x => get_tag c x.addr) := by
    unfold set_tags; rw [hxs]
  have hall : (A ++ B).map (fun x => get_tag c x.addr)
      = (A ++ B.take j).map (fun x => get_tag c x.addr)
        ++ get_tag c b.addr :: (B.drop (j + 1)).map (fun x => get_tag c x.addr) := by
    conv_lhs => rw [hsplit]
    simp only [List.map_append, List.map_cons, List.append_assoc]
  rw [hall] at hnd
  have hnd1 : ((A ++ B.take j).map (fun x => get_tag c x.addr)).Nodup :=
    (List.nodup_append.mp hnd).1
  have hnew : get_tag c b.addr ∉ (A ++ B.take j).map (fun x => get_tag c x.addr) := by
    intro hmem
    exact (List.nodup_append.mp hnd).2.2 hmem (List.mem_cons_self _ _)
  have hlen : ((A ++ B.take j).map (fun x => get_tag c x.addr)).length
      = c.blocksPerSet.toNat + j := by
    simp only [List.length_map, List.length_append, List.length_take, hA]
    omega
  obtain ⟨hsh, g1, g2, g3⟩ := run_set_after s xs (start st c) [] hg0 hnn
    (set_after_start st bs ns bps ws c hinit s)
    (by show ([] ++ set_tags c s xs).Nodup; rw [List.nil_append, htags]; exact hnd1)
    (by
      show ([] ++ set_tags c s xs).length ≤ 2 * c.blocksPerSet.toNat
      rw [List.nil_append, htags, hlen]; omega)
  have hT : ([] : List Int) ++ set_tags (start st c).cache s xs
      = (A ++ B.take j).map (fun x => get_tag c x.addr) := by
    rw [List.nil_append]; exact htags
  rw [hT] at hsh
  have hc1 : (run (start st c) xs).cache.blockSize = c.blockSize := g1
  have hc2 : (run (start st c) xs).cache.numSets = c.numSets := g2
  have hc3 : (run (start st c) xs).cache.blocksPerSet = c.blocksPerSet := g3
  have hgM : GeomOk (run (start st c) xs).cache := by
    unfold GeomOk; rw [hc1, hc2, hc3]; exact hg0
  have hb := hAB b (List.mem_append_right _ (List.getElem?_mem hbj))
  have hsb : get_set_index (run (start st c) xs).cache b.addr = s := by
    rw [get_set_index_congr b.addr hc1 hc2]; exact hb.2
  have htb : get_tag (run (start st c) xs).cache b.addr = get_tag c b.addr :=
    get_tag_congr b.addr hc1 hc2
  have hmiss := set_after_miss (run (start st c) xs) b.addr s _ hsb hsh (by rw [htb]; exact hnew)
  have hvic := set_after_victim (run (start st c) xs) b.addr s _ hb.1 hgM hsb hsh
    (by rw [hlen, hc3]; omega)
  rw [hlen, hc3, if_neg (by omega)] at hvic
  have hway : c.blocksPerSet.toNat + j - c.blocksPerSet.toNat = j := by omega
  rw [hway] at hvic
  obtain ⟨v1, v2, _⟩ := (hsh j (by rw [hc3]; omega)).2 (by rw [hlen]; omega)
  rw [hc3] at v1 v2
  rw [hlen] at v2
  have hslot : slot_index c.blocksPerSet.toNat (c.blocksPerSet.toNat + j) j = j := by
    unfold slot_index; rw [if_neg (by omega)]
  rw [hslot, List.map_append, List.getElem?_append_left (by rw [List.length_map]; exact hjA),
    List.getElem?_map, haj] at v2
  have hvtag : ((run (start st c) xs).cache.blocks (s * c.blocksPerSet + (j : Int))).tag
      = get_tag c a.addr := by
    simp only [Option.map_some', Option.some.injEq] at v2
    exact v2.symm
  rw [hvic]
  refine ⟨hmiss, v1, hvtag, ?_⟩
  obtain ⟨_, _, _, hp, _⟩ := access_miss (run (start st c) xs) b.addr b.write_flag b.write_data hmiss
  rw [hp, hvic]
  simp only [old_addr, base_addr, proc_action, hvtag, hsb, hc1, hc2]
  by_cases hd : ((run (start st c) xs).cache.blocks (s * c.blocksPerSet + (j : Int))).dirty ≠ 0
  · refine ⟨actionType.cacheToMemory, Or.inl rfl, ?_⟩
    rw [if_pos ⟨v1, hd⟩]
    simp only [List.append_assoc, List.singleton_append]
    split_ifs <;> rfl
  · refine ⟨actionType.cacheToNowhere, Or.inr rfl, ?_⟩
    rw [if_neg (fun h => hd h.2), if_pos v1]
    simp only [List.append_assoc, List.singleton_append]
    split_ifs <;> rfl

theorem lru_eviction_order_witness :
    is_hit (run (start example_store (init_result 2 1 2).2) [⟨0, 1, 5⟩, ⟨2, 0, 0⟩, ⟨4, 0, 0⟩]) 6
        = false ∧
      ((run (start example_store (init_result 2 1 2).2)
          [⟨0, 1, 5⟩, ⟨2, 0, 0⟩, ⟨4, 0, 0⟩]).cache.blocks
        (victim (run (start example_store (init_result 2 1 2).2)
          [⟨0, 1, 5⟩, ⟨2, 0, 0⟩, ⟨4, 0, 0⟩]) 6)).tag = get_tag (init_result 2 1 2).2 2 :=
  have h := lru_eviction_order example_store 2 1 2 (init_result 2 1 2).1 (init_result 2 1 2).2
    rfl 0 [⟨0, 1, 5⟩, ⟨2, 0, 0⟩, ⟨4, 0, 0⟩] [⟨0, 1, 5⟩, ⟨2, 0, 0⟩] [⟨4, 0, 0⟩, ⟨6, 0, 0⟩] 1
    ⟨2, 0, 0⟩ ⟨6, 0, 0⟩ (by decide) (by decide) (by decide) (by decide) (by decide) (by decide)
    (by decide) (by decide)
  ⟨h.1, h.2.2.1⟩

/-! ## C4 -/

/-- C4. In every reachable state no set holds two distinct valid blocks with
the same tag. -/
theorem no_duplicate_residency (m : Machine) (hm : Reachable m) (s i j : Int)
    (hi : s * m.cache.blocksPerSet ≤ i ∧ i < s * m.cache.blocksPerSet + m.cache.blocksPerSet)
    (hj : s * m.cache.blocksPerSet ≤ j ∧ j < s * m.cache.blocksPerSet + m.cache.blocksPerSet)
    (hij : i ≠ j) (hvi : (m.cache.blocks i).valid ≠ 0) (hvj : (m.cache.blocks j).valid ≠ 0) :
    (m.cache.blocks i).tag ≠ (m.cache.blocks j).tag :=
  fun ht => hij ((reachable_invariants hm).2.1 s i j hi hj hvi hvj ht)

theorem no_duplicate_residency_witness :
    ((run example_assoc [⟨0, 0, 0⟩, ⟨2, 1, 5⟩]).cache.blocks 0).tag
      ≠ ((run example_assoc [⟨0, 0, 0⟩, ⟨2, 1, 5⟩]).cache.blocks 1).tag :=
  no_duplicate_residency (run example_assoc [⟨0, 0, 0⟩, ⟨2, 1, 5⟩])
    (run_reachable example_assoc_reachable _ (by decide)) 0 0 1
    (by decide) (by decide) (by decide) (by decide) (by decide)

/-! ## C5 -/

/-- One call with a non-negative address raises exactly one of `hits` and
`misses`, by one. -/
theorem access_counts_once (m : Machine) (a wf wd : Int) (ha : 0 ≤ a) (hg : GeomOk m.cache) :
    ((cache_access m a wf wd).2.cache.hits = m.cache.hits + 1 ∧
        (cache_access m a wf wd).2.cache.misses = m.cache.misses) ∨
      ((cache_access m a wf wd).2.cache.hits = m.cache.hits ∧
        (cache_access m a wf wd).2.cache.misses = m.cache.misses + 1) := by
  cases h : is_hit m a with
  | true =>
    obtain ⟨h1, h2, _⟩ := access_hit m a wf wd ha hg h
    exact Or.inl ⟨h1, h2⟩
  | false =>
    obtain ⟨h1, h2, _⟩ := access_miss m a wf wd h
    exact Or.inr ⟨h1, h2⟩

theorem run_counts (m : Machine) (hm : Reachable m) (accs : List Access)
    (hnn : ∀ x ∈ accs, 0 ≤ x.addr) :
    (run m accs).cache.hits + (run m accs).cache.misses
      = m.cache.hits + m.cache.misses + (accs.length : Int) := by
  induction accs generalizing m with
  | nil => simp [run]
  | cons x xs ih =>
    have hx := hnn x (List.mem_cons_self _ _)
    have hm1 := Reachable.step m x.addr x.write_flag x.write_data hm hx
    have := ih _ hm1 (fun y hy => hnn y (List.mem_cons_of_mem _ hy))
    show (run (cache_access m x.addr x.write_flag x.write_data).2 xs).cache.hits
      + (run (cache_access m x.addr x.write_flag x.write_data).2 xs).cache.misses = _
    rw [this]
    rcases access_counts_once m x.addr x.write_flag x.write_data hx
      (reachable_invariants hm).1 with ⟨h1, h2⟩ | ⟨h1, h2⟩ <;>
      rw [h1, h2] <;> simp only [List.length_cons] <;> push_cast <;> ring

/-- C5. After a successful `cache_init` and any `n` calls of `cache_access`
with non-negative addresses, `hits + misses = n`; and in a reachable state one
call raises exactly one of `hits` and `misses`, by exactly one. -/
theorem counter_conservation (st : stateType) (bs ns bps : Int) (ws : List initWarning)
    (c : cacheStruct) (hinit : cache_init cache_global bs ns bps = Except.ok (ws, c)) :
    (∀ accs : List Access, (∀ x ∈ accs, 0 ≤ x.addr) →
      (run (start st c) accs).cache.hits + (run (start st c) accs).cache.misses
        = (accs.length : Int)) ∧
    (∀ (m : Machine) (a wf wd : Int), Reachable m → 0 ≤ a →
      ((cache_access m a wf wd).2.cache.hits = m.cache.hits + 1 ∧
          (cache_access m a wf wd).2.cache.misses = m.cache.misses) ∨
        ((cache_access m a wf wd).2.cache.hits = m.cache.hits ∧
          (cache_access m a wf wd).2.cache.misses = m.cache.misses + 1)) := by
  refine ⟨?_, ?_⟩
  · intro accs hnn
    rw [run_counts _ (Reachable.init st bs ns bps ws c hinit) accs hnn]
    obtain ⟨_, _, ⟨h1, h2, _⟩, _⟩ := cache_init_ok hinit
    show c.hits + c.misses + _ = _
    rw [h1, h2]; ring
  · intro m a wf wd hm ha
    exact access_counts_once m a wf wd ha (reachable_invariants hm).1

theorem counter_conservation_witness :
    (run (start example_store (init_result 2 1 2).2) [⟨0, 0, 0⟩, ⟨2, 1, 5⟩, ⟨0, 0, 0⟩]).cache.hits
      + (run (start example_store (init_result 2 1 2).2)
          [⟨0, 0, 0⟩, ⟨2, 1, 5⟩, ⟨0, 0, 0⟩]).cache.misses
      = (([⟨0, 0, 0⟩, ⟨2, 1, 5⟩, ⟨0, 0, 0⟩] : List Access).length : Int) :=
  (counter_conservation example_store 2 1 2 (init_result 2 1 2).1 (init_result 2 1 2).2 rfl).1
    [⟨0, 0, 0⟩, ⟨2, 1, 5⟩, ⟨0, 0, 0⟩] (by decide)

/-! ## C6 -/

theorem access_writebacks (m : Machine) (a wf wd : Int) (ha : 0 ≤ a) (hg : GeomOk m.cache) :
    (cache_access m a wf wd).2.cache.writebacks
      = m.cache.writebacks +
        (if is_hit m a = false ∧ (m.cache.blocks (victim m a)).valid ≠ 0 ∧
            (m.cache.blocks (victim m a)).dirty ≠ 0 then 1 else 0) := by
  cases h : is_hit m a with
  | true =>
    rw [(access_hit m a wf wd ha hg h).2.2.1, if_neg (by simp)]
    ring
  | false =>
    rw [(access_miss m a wf wd h).2.2.1]
    simp only [true_and]

theorem access_count_c2m (m : Machine) (a wf wd : Int) (ha : 0 ≤ a) (hg : GeomOk m.cache) :
    ((cache_access m a wf wd).2.printed.filter
        (fun e => decide (e.type = actionType.cacheToMemory))).length
      = (m.printed.filter (fun e => decide (e.type = actionType.cacheToMemory))).length +
        (if is_hit m a = false ∧ (m.cache.blocks (victim m a)).valid ≠ 0 ∧
            (m.cache.blocks (victim m a)).dirty ≠ 0 then 1 else 0) := by
  have hp : ((proc_action a wf).type = actionType.cacheToMemory) = False := by
    unfold proc_action; split_ifs <;> simp
  cases h : is_hit m a with
  | true =>
    rw [(access_hit m a wf wd ha hg h).2.2.2.1, if_neg (by simp)]
    simp [List.filter_append, List.filter_cons, hp]
  | false =>
    rw [(access_miss m a wf wd h).2.2.2.1]
    simp only [true_and, List.filter_append, List.length_append]
    split_ifs with h1 h2 <;> simp [List.filter_cons, hp]

theorem run_writebacks (m : Machine) (hm : Reachable m) (accs : List Access)
    (hnn : ∀ x ∈ accs, 0 ≤ x.addr) :
    (run m accs).cache.writebacks = m.cache.writebacks + (dirty_evictions m accs : Int) ∧
      ((run m accs).printed.filter (fun e => decide (e.type = actionType.cacheToMemory))).length
        = (m.printed.filter (fun e => decide (e.type = actionType.cacheToMemory))).length
          + dirty_evictions m accs := by
  induction accs generalizing m with
  | nil => simp [run, dirty_evictions]
  | cons x xs ih =>
    have hx := hnn x (List.mem_cons_self _ _)
    have hm1 := Reachable.step m x.addr x.write_flag x.write_data hm hx
    obtain ⟨i1, i2⟩ := ih _ hm1 (fun y hy => hnn y (List.mem_cons_of_mem _ hy))
    have hg := (reachable_invariants hm).1
    constructor
    · show (run (cache_access m x.addr x.write_flag x.write_data).2 xs).cache.writebacks = _
      rw [i1, access_writebacks m _ _ _ hx hg]
      simp only [dirty_evictions]
      push_cast
      split_ifs <;> ring
    · show ((run (cache_access m x.addr x.write_flag x.write_data).2 xs).printed.filter _).length
        = _
      rw [i2, access_count_c2m m _ _ _ hx hg]
      simp only [dirty_evictions]
      ring

/-- C6. After a successful `cache_init` and any calls of `cache_access` with
non-negative addresses, `writebacks` is the number of calls that missed with a
valid dirty victim, which is the number of `cacheToMemory` lines printed; and
in a reachable state a call that hits, or whose victim is invalid or clean,
leaves `writebacks` unchanged. -/
theorem writeback_conservation (st : stateType) (bs ns bps : Int) (ws : List initWarning)
    (c : cacheStruct) (hinit : cache_init cache_global bs ns bps = Except.ok (ws, c)) :
    (∀ accs : List Access, (∀ x ∈ accs, 0 ≤ x.addr) →
      (run (start st c) accs).cache.writebacks = (dirty_evictions (start st c) accs : Int) ∧
      dirty_evictions (start st c) accs
        = ((run (start st c) accs).printed.filter
            (fun e => decide (e.type = actionType.cacheToMemory))).length) ∧
    (∀ (m : Machine) (a wf wd : Int), Reachable m → 0 ≤ a →
      (is_hit m a = true ∨ (m.cache.blocks (victim m a)).valid = 0 ∨
        (m.cache.blocks (victim m a)).dirty = 0) →
      (cache_access m a wf wd).2.cache.writebacks = m.cache.writebacks) := by
  refine ⟨?_, ?_⟩
  · intro accs hnn
    obtain ⟨h1, h2⟩ := run_writebacks _ (Reachable.init st bs ns bps ws c hinit) accs hnn
    obtain ⟨_, _, ⟨_, _, h3⟩, _⟩ := cache_init_ok hinit
    refine ⟨?_, ?_⟩
    · rw [h1]
      show c.writebacks + _ = _
      rw [h3]; ring
    · rw [h2]
      show _ = (List.filter _ []).length + _
      simp
  · intro m a wf wd hm ha hcase
    rw [access_writebacks m a wf wd ha (reachable_invariants hm).1, if_neg, add_zero]
    rintro ⟨h1, h2, h3⟩
    rcases hcase with h | h | h
    · rw [h1] at h; cases h
    · exact h2 h
    · exact h3 h

theorem writeback_conservation_witness :
    (run (start example_store (init_result 4 2 1).2) [⟨0, 1, 7⟩, ⟨8, 0, 0⟩]).cache.writebacks
        = (dirty_evictions (start example_store (init_result 4 2 1).2)
            [⟨0, 1, 7⟩, ⟨8, 0, 0⟩] : Int) ∧
      dirty_evictions (start example_store (init_result 4 2 1).2) [⟨0, 1, 7⟩, ⟨8, 0, 0⟩]
        = ((run (start example_store (init_result 4 2 1).2) [⟨0, 1, 7⟩, ⟨8, 0, 0⟩]).printed.filter
            (fun e => decide (e.type = actionType.cacheToMemory))).length :=
  (writeback_conservation example_store 4 2 1 (init_result 4 2 1).1 (init_result 4 2 1).2 rfl).1
    [⟨0, 1, 7⟩, ⟨8, 0, 0⟩] (by decide)

/-! ## C7 -/

/-- C7. In a reachable state and for a non-negative address: after a write,
every valid block of the set of the address that carries its tag is dirty
(`dirty = 1`), and the block that served the access is such a block; a read
that hits leaves every dirty flag as it was; a read that misses leaves the
filled block with `dirty = 0` and every other dirty flag as it was. -/
theorem dirty_propagation (m : Machine) (hm : Reachable m) (a : Int) (ha : 0 ≤ a) :
    (∀ d j : Int,
      inSet (cache_access m a 1 d).2.cache (get_set_index m.cache a) j →
      ((cache_access m a 1 d).2.cache.blocks j).valid ≠ 0 →
      ((cache_access m a 1 d).2.cache.blocks j).tag = get_tag m.cache a →
      ((cache_access m a 1 d).2.cache.blocks j).dirty = 1) ∧
    (∀ d : Int,
      inSet (cache_access m a 1 d).2.cache (get_set_index m.cache a) (resolve m a).1 ∧
      ((cache_access m a 1 d).2.cache.blocks (resolve m a).1).valid ≠ 0 ∧
      ((cache_access m a 1 d).2.cache.blocks (resolve m a).1).tag = get_tag m.cache a) ∧
    (∀ wd : Int, is_hit m a = true → ∀ j : Int,
      ((cache_access m a 0 wd).2.cache.blocks j).dirty = (m.cache.blocks j).dirty) ∧
    (∀ wd : Int, is_hit m a = false →
      ((cache_access m a 0 wd).2.cache.blocks (victim m a)).dirty = 0 ∧
      ∀ j : Int, j ≠ victim m a →
        ((cache_access m a 0 wd).2.cache.blocks j).dirty = (m.cache.blocks j).dirty) := by
  obtain ⟨hg, hn, _, _⟩ := reachable_invariants hm
  have hin : ∀ d : Int,
      inSet (cache_access m a 1 d).2.cache (get_set_index m.cache a) (resolve m a).1 := by
    intro d
    have := resolved_inSet m a ha hg
    unfold inSet at this ⊢
    rw [(access_geom m a 1 d).2.2]
    exact this
  refine ⟨?_, ?_, ?_, ?_⟩
  · intro d j hj hv ht
    have hn1 := access_NoDupTags m a 1 d ha hg hn
    obtain ⟨sv, st, _, sd⟩ := access_blocks_self m a 1 d ha hg
    have : j = (resolve m a).1 :=
      hn1 _ j _ hj (hin d) hv sv (by rw [ht, st])
    rw [this, sd, if_pos (by decide)]
  · intro d
    obtain ⟨sv, st, _, _⟩ := access_blocks_self m a 1 d ha hg
    exact ⟨hin d, sv, st⟩
  · intro wd hh j
    rw [access_dirty m a 0 wd j ha hg]
    split_ifs with h1 h2
    · exact absurd rfl h2
    · rfl
    · rfl
  · intro wd hh
    have hr := (resolve_miss_facts m a hh).2.1
    refine ⟨?_, ?_⟩
    · rw [access_dirty m a 0 wd _ ha hg, if_pos hr.symm, if_neg (by decide),
        if_neg (by rw [hh]; decide)]
    · intro j hj
      rw [access_dirty m a 0 wd j ha hg, if_neg (by rw [hr]; exact hj)]

theorem dirty_propagation_witness :
    ((cache_access example_assoc 2 1 9).2.cache.blocks 0).dirty = 1 :=
  (dirty_propagation example_assoc example_assoc_reachable 2 (by decide)).1 9 0
    (by decide) (by decide) (by decide)

/-! ## C8 -/

theorem access_read_val (m : Machine) (a wd : Int) :
    (cache_access m a 0 wd).1
      = ((cache_access m a 0 wd).2.cache.blocks (resolve m a).1).data
          (get_block_offset m.cache a) := by
  unfold cache_access
  simp only [if_neg (show ¬ ((0 : Int) ≠ 0) by decide)]

theorem access_hit_read_block (m : Machine) (a wd : Int) (ha : 0 ≤ a) (hg : GeomOk m.cache)
    (h : is_hit m a = true) :
    (cache_access m a 0 wd).2.cache.blocks (resolve m a).1
      = { m.cache.blocks (resolve m a).1 with lruLabel := 0 } := by
  rw [access_blocks, if_pos rfl, if_neg (by decide), (resolve_hit_facts m a ha hg h).2.2.2]

/-- In a reachable state, right after an access to `a` a second access to `a`
hits and is served by the same block. -/
theorem second_access_hits (m : Machine) (hm : Reachable m) (a wf wd : Int) (ha : 0 ≤ a) :
    is_hit (cache_access m a wf wd).2 a = true ∧
      (resolve (cache_access m a wf wd).2 a).1 = (resolve m a).1 := by
  obtain ⟨hg, hn, _, _⟩ := reachable_invariants hm
  obtain ⟨g1, g2, g3⟩ := access_geom m a wf wd
  have hg1 := access_GeomOk m a wf wd hg
  have hn1 := access_NoDupTags m a wf wd ha hg hn
  obtain ⟨sv, st, _, _⟩ := access_blocks_self m a wf wd ha hg
  have hs : get_set_index (cache_access m a wf wd).2.cache a = get_set_index m.cache a :=
    get_set_index_congr a g1 g2
  have ht : get_tag (cache_access m a wf wd).2.cache a = get_tag m.cache a :=
    get_tag_congr a g1 g2
  have hin : inSet (cache_access m a wf wd).2.cache
      (get_set_index (cache_access m a wf wd).2.cache a) (resolve m a).1 := by
    have := resolved_inSet m a ha hg
    unfold inSet at this ⊢
    rw [g3, hs]
    exact this
  have hhit : is_hit (cache_access m a wf wd).2 a = true := by
    cases h : is_hit (cache_access m a wf wd).2 a with
    | true => rfl
    | false =>
      exfalso
      exact (resolve_miss_facts _ a h).1 _ hin sv (by rw [st, ht])
  refine ⟨hhit, ?_⟩
  obtain ⟨r1, r2, r3, _⟩ := resolve_hit_facts _ a ha hg1 hhit
  exact hn1 _ _ _ r1 hin r2 sv (by rw [r3, st, ht])

/-- C8. In a reachable state, for a non-negative address, two reads of the
address in a row: the second hits, returns what the first returned, raises
`hits` by one, leaves `misses` and `writebacks` alone, does not call the
backing store, and prints exactly one line, `cacheToProcessor` of size 1 at
the address. -/
theorem hit_idempotence (m : Machine) (hm : Reachable m) (a : Int) (ha : 0 ≤ a) :
    is_hit (cache_access m a 0 0).2 a = true ∧
      (cache_access (cache_access m a 0 0).2 a 0 0).1 = (cache_access m a 0 0).1 ∧
      (cache_access (cache_access m a 0 0).2 a 0 0).2.cache.hits
        = (cache_access m a 0 0).2.cache.hits + 1 ∧
      (cache_access (cache_access m a 0 0).2 a 0 0).2.cache.misses
        = (cache_access m a 0 0).2.cache.misses ∧
      (cache_access (cache_access m a 0 0).2 a 0 0).2.cache.writebacks
        = (cache_access m a 0 0).2.cache.writebacks ∧
      (cache_access (cache_access m a 0 0).2 a 0 0).2.memCalls
        = (cache_access m a 0 0).2.memCalls ∧
      (cache_access (cache_access m a 0 0).2 a 0 0).2.num_mem_accesses
        = (cache_access m a 0 0).2.num_mem_accesses ∧
      (cache_access (cache_access m a 0 0).2 a 0 0).2.printed
        = (cache_access m a 0 0).2.printed ++
          [{ address := a, size := 1, type := actionType.cacheToProcessor }] := by
  obtain ⟨hg, _, _, _⟩ := reachable_invariants hm
  have hg1 := access_GeomOk m a 0 0 hg
  obtain ⟨hhit, hsame⟩ := second_access_hits m hm a 0 0 ha
  obtain ⟨c1, c2, c3, c4, c5, _, c7⟩ := access_hit _ a 0 0 ha hg1 hhit
  refine ⟨hhit, ?_, c1, c2, c3, c5, c7, ?_⟩
  · rw [access_read_val, access_read_val m, access_hit_read_block _ a 0 ha hg1 hhit, hsame,
      get_block_offset_congr a (access_geom m a 0 0).1]
  · rw [c4]
    rfl

theorem hit_idempotence_witness :
    (cache_access (cache_access example_assoc 3 0 0).2 3 0 0).1
      = (cache_access example_assoc 3 0 0).1 :=
  (hit_idempotence example_assoc example_assoc_reachable 3 (by decide)).2.1

/-! ## C9 -/

/-- Whatever the address, `resolve` changes no block but the one it returns,
and that one is valid afterwards. -/
theorem resolve_any (m : Machine) (a : Int) :
    (∀ j, j ≠ (resolve m a).1 → (resolve m a).2.cache.blocks j = m.cache.blocks j) ∧
      ((resolve m a).2.cache.blocks (resolve m a).1).valid ≠ 0 := by
  cases h : lookup m.cache (get_set_index m.cache a * m.cache.blocksPerSet)
    (get_tag m.cache a) with
  | none =>
    rw [resolve_miss m a h]
    refine ⟨?_, ?_⟩
    · intro j hj
      simp only [fill_eq, evict_cache, setBlock_blocks, if_neg hj]
      split_ifs <;> rfl
    · simp [fill_eq]
  | some i =>
    unfold resolve
    simp only [h]
    split_ifs with hneg
    · refine ⟨?_, ?_⟩
      · intro j hj
        simp only [fill_eq, evict_cache, setBlock_blocks, if_neg hj]
        split_ifs <;> rfl
      · simp [fill_eq]
    · exact ⟨fun _ _ => rfl, (lookup_some h).2.1⟩

theorem access_DirtyValid_any (m : Machine) (a wf wd : Int) (hd : DirtyValid m.cache) :
    DirtyValid (cache_access m a wf wd).2.cache := by
  obtain ⟨r1, r2⟩ := resolve_any m a
  intro j hdj
  rw [access_blocks] at hdj ⊢
  by_cases hj : j = (resolve m a).1
  · rw [if_pos hj]
    split_ifs <;> exact r2
  · rw [if_neg hj, r1 j hj] at hdj ⊢
    split_ifs at hdj ⊢ <;> exact hd j hdj

theorem run_DirtyValid (m : Machine) (accs : List Access) (hd : DirtyValid m.cache) :
    DirtyValid (run m accs).cache := by
  induction accs generalizing m with
  | nil => exact hd
  | cons x xs ih => exact ih _ (access_DirtyValid_any m _ _ _ hd)

/-- C9. After a successful `cache_init` and any calls of `cache_access`,
every block of the table (index below `numSets * blocksPerSet`) that is dirty
is valid. -/
theorem dirty_implies_valid (st : stateType) (bs ns bps : Int) (ws : List initWarning)
    (c : cacheStruct) (hinit : cache_init cache_global bs ns bps = Except.ok (ws, c))
    (accs : List Access) :
    ∀ j : Int, 0 ≤ j →
      j < (run (start st c) accs).cache.numSets * (run (start st c) accs).cache.blocksPerSet →
      ((run (start st c) accs).cache.blocks j).dirty ≠ 0 →
      ((run (start st c) accs).cache.blocks j).valid ≠ 0 :=
  fun j _ _ hd => run_DirtyValid _ accs (start_invariants st hinit).2.2.1 j hd

theorem dirty_implies_valid_witness :
    ((run (start example_store (init_result 2 1 2).2) [⟨0, 0, 0⟩, ⟨2, 1, 5⟩]).cache.blocks 1).valid
      ≠ 0 :=
  dirty_implies_valid example_store 2 1 2 (init_result 2 1 2).1 (init_result 2 1 2).2 rfl
    [⟨0, 0, 0⟩, ⟨2, 1, 5⟩] 1 (by decide) (by decide) (by decide)

/-! ## C10 -/

/-- Right after an access, the block that served it lies in the set of the
address, is valid and has label 0, and every other valid block of that set
has a label of at least 1. -/
theorem mru_after_access (m : Machine) (a wf wd : Int) (ha : 0 ≤ a) (hg : GeomOk m.cache)
    (hl : LabelsNonneg m.cache) :
    inSet (cache_access m a wf wd).2.cache (get_set_index m.cache a) (resolve m a).1 ∧
      ((cache_access m a wf wd).2.cache.blocks (resolve m a).1).valid ≠ 0 ∧
      ((cache_access m a wf wd).2.cache.blocks (resolve m a).1).lruLabel = 0 ∧
      ∀ j : Int, inSet (cache_access m a wf wd).2.cache (get_set_index m.cache a) j →
        j ≠ (resolve m a).1 → ((cache_access m a wf wd).2.cache.blocks j).valid ≠ 0 →
        1 ≤ ((cache_access m a wf wd).2.cache.blocks j).lruLabel := by
  obtain ⟨sv, _, sl, _⟩ := access_blocks_self m a wf wd ha hg
  have hb := (access_geom m a wf wd).2.2
  refine ⟨?_, sv, sl, ?_⟩
  · have := resolved_inSet m a ha hg
    unfold inSet at this ⊢
    rw [hb]; exact this
  · intro j hj hne hv
    have hj0 : inSet m.cache (get_set_index m.cache a) j := by
      unfold inSet at hj ⊢; rw [hb] at hj; exact hj
    rw [access_valid m a wf wd j ha hg] at hv
    have hv0 := hv.resolve_left hne
    rw [access_label m a wf wd j ha hg, if_neg hne, if_pos ⟨hj0, hv0⟩]
    have := hl j
    omega

theorem run_mru (s : Int) (m : Machine) (hm : Reachable m) (accs : List Access)
    (hnn : ∀ x ∈ accs, 0 ≤ x.addr) (r : Option Int)
    (hr : ∀ f, r = some f →
      inSet m.cache s f ∧ (m.cache.blocks f).valid ≠ 0 ∧ (m.cache.blocks f).lruLabel = 0 ∧
      ∀ j : Int, inSet m.cache s j → j ≠ f → (m.cache.blocks j).valid ≠ 0 →
        1 ≤ (m.cache.blocks j).lruLabel) :
    ∀ f, last_resolved s m accs r = some f →
      inSet (run m accs).cache s f ∧ ((run m accs).cache.blocks f).valid ≠ 0 ∧
      ((run m accs).cache.blocks f).lruLabel = 0 ∧
      ∀ j : Int, inSet (run m accs).cache s j → j ≠ f →
        ((run m accs).cache.blocks j).valid ≠ 0 → 1 ≤ ((run m accs).cache.blocks j).lruLabel := by
  induction accs generalizing m r with
  | nil => exact hr
  | cons x xs ih =>
    have hx := hnn x (List.mem_cons_self _ _)
    have hm1 := Reachable.step m x.addr x.write_flag x.write_data hm hx
    obtain ⟨hg, _, _, hl⟩ := reachable_invariants hm
    have hb := (access_geom m x.addr x.write_flag x.write_data).2.2
    apply ih _ hm1 (fun y hy => hnn y (List.mem_cons_of_mem _ hy))
    intro f hf
    by_cases hs : get_set_index m.cache x.addr = s
    · rw [if_pos hs] at hf
      cases hf
      rw [← hs]
      exact mru_after_access m _ _ _ hx hg hl
    · rw [if_neg hs] at hf
      obtain ⟨h1, h2, h3, h4⟩ := hr f hf
      have keep : ∀ j, inSet m.cache s j →
          (cache_access m x.addr x.write_flag x.write_data).2.cache.blocks j = m.cache.blocks j :=
        fun j hj => other_set_untouched m _ _ _ s j hx hg hs hj
      have back : ∀ j, inSet (cache_access m x.addr x.write_flag x.write_data).2.cache s j →
          inSet m.cache s j := by
        intro j hj
        unfold inSet at hj ⊢; rw [hb] at hj; exact hj
      refine ⟨?_, ?_, ?_, ?_⟩
      · unfold inSet at h1 ⊢; rw [hb]; exact h1
      · rw [keep f h1]; exact h2
      · rw [keep f h1]; exact h3
      · intro j hj hne hv
        rw [keep j (back j hj)] at hv ⊢
        exact h4 j (back j hj) hne hv

/-- C10. After a successful `cache_init` and calls of `cache_access` with
non-negative addresses, for every set that has been accessed, the block
resolved by the most recent access to the set lies in the set, is valid and
has `lruLabel = 0`, and every other valid block of the set has
`lruLabel ≥ 1`. -/
theorem most_recent_is_minimum (st : stateType) (bs ns bps : Int) (ws : List initWarning)
    (c : cacheStruct) (hinit : cache_init cache_global bs ns bps = Except.ok (ws, c))
    (accs : List Access) (hnn : ∀ x ∈ accs, 0 ≤ x.addr) (s f : Int)
    (hlast : last_resolved s (start st c) accs none = some f) :
    inSet (run (start st c) accs).cache s f ∧
      ((run (start st c) accs).cache.blocks f).valid ≠ 0 ∧
      ((run (start st c) accs).cache.blocks f).lruLabel = 0 ∧
      ∀ j : Int, inSet (run (start st c) accs).cache s j → j ≠ f →
        ((run (start st c) accs).cache.blocks j).valid ≠ 0 →
        1 ≤ ((run (start st c) accs).cache.blocks j).lruLabel :=
  run_mru s _ (Reachable.init st bs ns bps ws c hinit) accs hnn none
    (fun _ h => by cases h) f hlast

theorem most_recent_is_minimum_witness :
    ((run (start example_store (init_result 2 1 2).2)
        [⟨0, 0, 0⟩, ⟨2, 1, 5⟩, ⟨0, 0, 0⟩]).cache.blocks 0).lruLabel = 0 ∧
      1 ≤ ((run (start example_store (init_result 2 1 2).2)
        [⟨0, 0, 0⟩, ⟨2, 1, 5⟩, ⟨0, 0, 0⟩]).cache.blocks 1).lruLabel :=
  have h := most_recent_is_minimum example_store 2 1 2 (init_result 2 1 2).1
    (init_result 2 1 2).2 rfl [⟨0, 0, 0⟩, ⟨2, 1, 5⟩, ⟨0, 0, 0⟩] (by decide) 0 0 (by decide)
  ⟨h.2.2.1, h.2.2.2 1 (by decide) (by decide) (by decide)⟩

/-! ## The control state does not depend on the data words -/

theorem lookup_congr {c1 c2 : cacheStruct} (h : SameControl c1 c2) (start t : Int) :
    lookup c1 start t = lookup c2 start t := by
  unfold lookup
  rw [h.2.2.2.1]
  congr 1
  funext i
  rw [(h.1 _).1, (h.1 _).2.1]

theorem find_empty_congr {c1 c2 : cacheStruct} (h : SameControl c1 c2) (start : Int) :
    find_empty c1 start = find_empty c2 start := by
  unfold find_empty
  rw [h.2.2.2.1]
  congr 1
  funext i
  rw [(h.1 _).1]

theorem find_lru_block_congr {c1 c2 : cacheStruct} (h : SameControl c1 c2) (s : Int) :
    find_lru_block c1 s = find_lru_block c2 s := by
  unfold find_lru_block
  have hv : ∀ j, (c1.blocks j).valid = (c2.blocks j).valid := fun j => (h.1 j).1
  have hl : ∀ j, (c1.blocks j).lruLabel = (c2.blocks j).lruLabel := fun j => (h.1 j).2.2.2
  simp only [h.2.2.2.1, hv, hl]

theorem choose_victim_congr {c1 c2 : cacheStruct} (h : SameControl c1 c2) (s start : Int) :
    choose_victim c1 s start = choose_victim c2 s start := by
  unfold choose_victim
  rw [find_empty_congr h, find_lru_block_congr h]

theorem is_hit_congr {m1 m2 : Machine} (h : SameControl m1.cache m2.cache) (a : Int) :
    is_hit m1 a = is_hit m2 a := by
  unfold is_hit
  rw [lookup_congr h, get_set_index_congr a h.2.1 h.2.2.1, get_tag_congr a h.2.1 h.2.2.1,
    h.2.2.2.1]


theorem SameControl_refl (c : cacheStruct) : SameControl c c :=
  ⟨fun _ => ⟨rfl, rfl, rfl, rfl⟩, rfl, rfl, rfl, rfl, rfl, rfl⟩

theorem miss_congr {n1 n2 : Machine} (hn : SameControl n1.cache n2.cache)
    (hnp : n1.printed = n2.printed) (a s t start : Int) :
    choose_victim n1.cache s start = choose_victim n2.cache s start ∧
      SameControl
        (fill (evict n1 s (choose_victim n1.cache s start)) a t
          (choose_victim n1.cache s start)).cache
        (fill (evict n2 s (choose_victim n2.cache s start)) a t
          (choose_victim n2.cache s start)).cache ∧
      (fill (evict n1 s (choose_victim n1.cache s start)) a t
          (choose_victim n1.cache s start)).printed
        = (fill (evict n2 s (choose_victim n2.cache s start)) a t
          (choose_victim n2.cache s start)).printed := by
  rw [choose_victim_congr hn s start]
  obtain ⟨nb, n1', n2', n3', n4, n5, n6⟩ := hn
  generalize choose_victim n2.cache s start = v
  obtain ⟨v1, v2, v3, v4⟩ := nb v
  refine ⟨rfl, ?_, ?_⟩
  · simp only [fill_eq, evict_cache, v1, v3]
    refine ⟨?_, ?_⟩
    · intro j
      simp only [setBlock_blocks]
      by_cases hj : j = v
      · simp only [if_pos hj]
        refine ⟨?_, ?_, ?_, ?_⟩ <;> first | trivial | rfl | (split_ifs <;> exact v4)
      · simp only [if_neg hj]
        split_ifs <;> exact nb j
    · simp only [setBlock_blockSize, setBlock_numSets, setBlock_blocksPerSet, setBlock_hits,
        setBlock_misses, setBlock_writebacks]
      split_ifs <;> simp only [n1', n2', n3', n4, n5, n6, and_self]
  · simp only [fill_eq, evict_cache, evict_printed, v1, v2, v3, hnp, n1', n2']
    split_ifs <;> simp only [n1']

theorem resolve_hit_neg (m : Machine) (a : Int) {i : Nat}
    (h : lookup m.cache (get_set_index m.cache a * m.cache.blocksPerSet) (get_tag m.cache a)
      = some i)
    (hneg : get_set_index m.cache a * m.cache.blocksPerSet + (i : Int) = -1) :
    resolve m a = (victim m a,
      fill (evict { m with cache := { m.cache with hits := m.cache.hits + 1,
                                                   misses := m.cache.misses + 1 } }
        (get_set_index m.cache a) (victim m a)) a (get_tag m.cache a) (victim m a)) := by
  unfold resolve
  simp only [h]
  rw [if_pos hneg]
  rfl

/-- `resolve` picks the same block and leaves the same control state and the
same printed lines, whatever the data words and the backing store hold. -/
theorem resolve_congr {m1 m2 : Machine} (h : SameControl m1.cache m2.cache)
    (hp : m1.printed = m2.printed) (a : Int) :
    (resolve m1 a).1 = (resolve m2 a).1 ∧
      SameControl (resolve m1 a).2.cache (resolve m2 a).2.cache ∧
      (resolve m1 a).2.printed = (resolve m2 a).2.printed := by
  obtain ⟨hb, g1, g2, g3, k1, k2, k3⟩ := h
  have hs : get_set_index m1.cache a = get_set_index m2.cache a := get_set_index_congr a g1 g2
  have ht : get_tag m1.cache a = get_tag m2.cache a := get_tag_congr a g1 g2
  have hl := lookup_congr ⟨hb, g1, g2, g3, k1, k2, k3⟩
    (get_set_index m1.cache a * m1.cache.blocksPerSet) (get_tag m1.cache a)
  cases hlk : lookup m2.cache (get_set_index m1.cache a * m1.cache.blocksPerSet)
      (get_tag m1.cache a) with
  | none =>
    rw [hlk] at hl
    rw [resolve_miss m1 a hl, resolve_miss m2 a (by rw [← hs, ← ht, ← g3]; exact hlk)]
    unfold victim
    rw [← hs, ← ht, ← g3]
    exact @miss_congr { m1 with cache := { m1.cache with misses := m1.cache.misses + 1 } }
      { m2 with cache := { m2.cache with misses := m2.cache.misses + 1 } }
      ⟨hb, g1, g2, g3, k1, by show m1.cache.misses + 1 = m2.cache.misses + 1; rw [k2], k3⟩ hp
      a _ _ _
  | some i =>
    rw [hlk] at hl
    have hlk2 : lookup m2.cache (get_set_index m2.cache a * m2.cache.blocksPerSet)
        (get_tag m2.cache a) = some i := by rw [← hs, ← ht, ← g3]; exact hlk
    by_cases hneg : get_set_index m1.cache a * m1.cache.blocksPerSet + (i : Int) = -1
    · rw [resolve_hit_neg m1 a hl hneg,
        resolve_hit_neg m2 a hlk2 (by rw [← hs, ← g3]; exact hneg)]
      unfold victim
      rw [← hs, ← ht, ← g3]
      exact @miss_congr
        { m1 with cache := { m1.cache with hits := m1.cache.hits + 1,
                                           misses := m1.cache.misses + 1 } }
        { m2 with cache := { m2.cache with hits := m2.cache.hits + 1,
                                           misses := m2.cache.misses + 1 } }
        ⟨hb, g1, g2, g3, by show m1.cache.hits + 1 = m2.cache.hits + 1; rw [k1],
          by show m1.cache.misses + 1 = m2.cache.misses + 1; rw [k2], k3⟩ hp a _ _ _
    · have e1 : resolve m1 a = (get_set_index m1.cache a * m1.cache.blocksPerSet + (i : Int),
          { m1 with cache := { m1.cache with hits := m1.cache.hits + 1 } }) := by
        unfold resolve; simp only [hl]; rw [if_neg hneg]
      have e2 : resolve m2 a = (get_set_index m2.cache a * m2.cache.blocksPerSet + (i : Int),
          { m2 with cache := { m2.cache with hits := m2.cache.hits + 1 } }) := by
        unfold resolve; simp only [hlk2]; rw [if_neg (by rw [← hs, ← g3]; exact hneg)]
      rw [e1, e2]
      exact ⟨by rw [hs, g3], ⟨hb, g1, g2, g3,
        by show m1.cache.hits + 1 = m2.cache.hits + 1; rw [k1], k2, k3⟩, hp⟩

/-- One call leaves the same control state and the same printed lines,
whatever the data words, the backing store and the word to write are. -/
theorem access_congr {m1 m2 : Machine} (h : SameControl m1.cache m2.cache)
    (hp : m1.printed = m2.printed) (a wf wd1 wd2 : Int) :
    SameControl (cache_access m1 a wf wd1).2.cache (cache_access m2 a wf wd2).2.cache ∧
      (cache_access m1 a wf wd1).2.printed = (cache_access m2 a wf wd2).2.printed := by
  obtain ⟨r1, ⟨rb, q1, q2, q3, q4, q5, q6⟩, r3⟩ := resolve_congr h hp a
  obtain ⟨a1, _, _, _, a5, a6, a7⟩ := access_outer m1 a wf wd1
  obtain ⟨b1, _, _, _, b5, b6, b7⟩ := access_outer m2 a wf wd2
  obtain ⟨x1, x2, x3⟩ := access_geom m1 a wf wd1
  obtain ⟨y1, y2, y3⟩ := access_geom m2 a wf wd2
  obtain ⟨z1, z2, z3⟩ := resolve_geom m1 a
  obtain ⟨w1, w2, w3⟩ := resolve_geom m2 a
  have hs : get_set_index m1.cache a = get_set_index m2.cache a :=
    get_set_index_congr a h.2.1 h.2.2.1
  refine ⟨⟨?_, ?_⟩, by rw [a1, b1, r3]⟩
  · intro j
    rw [access_blocks, access_blocks, r1, hs, q3]
    obtain ⟨v1, v2, v3, v4⟩ := rb j
    obtain ⟨f1, f2, f3, f4⟩ := rb (resolve m2 a).1
    by_cases hj : j = (resolve m2 a).1
    · simp only [if_pos hj]
      split_ifs <;> exact ⟨f1, f2, by first | rfl | exact f3, rfl⟩
    · rw [if_neg hj, if_neg hj]
      have hc : (((get_set_index m2.cache a * (resolve m2 a).2.cache.blocksPerSet ≤ j ∧
            j < get_set_index m2.cache a * (resolve m2 a).2.cache.blocksPerSet
                  + ((resolve m2 a).2.cache.blocksPerSet.toNat : Int)) ∧
            ((resolve m1 a).2.cache.blocks j).valid ≠ 0))
          ↔ (((get_set_index m2.cache a * (resolve m2 a).2.cache.blocksPerSet ≤ j ∧
            j < get_set_index m2.cache a * (resolve m2 a).2.cache.blocksPerSet
                  + ((resolve m2 a).2.cache.blocksPerSet.toNat : Int)) ∧
            ((resolve m2 a).2.cache.blocks j).valid ≠ 0)) := by rw [v1]
      by_cases hin : ((get_set_index m2.cache a * (resolve m2 a).2.cache.blocksPerSet ≤ j ∧
            j < get_set_index m2.cache a * (resolve m2 a).2.cache.blocksPerSet
                  + ((resolve m2 a).2.cache.blocksPerSet.toNat : Int)) ∧
            ((resolve m2 a).2.cache.blocks j).valid ≠ 0)
      · rw [if_pos (hc.mpr hin), if_pos hin]
        exact ⟨v1, v2, v3, by show _ + 1 = _ + 1; rw [v4]⟩
      · rw [if_neg (fun h => hin (hc.mp h)), if_neg hin]
        exact ⟨v1, v2, v3, v4⟩
  · rw [x1, x2, x3, y1, y2, y3, a5, a6, a7, b5, b6, b7]
    exact ⟨h.2.1, h.2.2.1, h.2.2.2.1, q4, q5, q6⟩

theorem run_congr {m1 m2 : Machine} (h : SameControl m1.cache m2.cache)
    (hp : m1.printed = m2.printed) (accs : List Access) :
    SameControl (run m1 accs).cache (run m2 accs).cache ∧
      (run m1 accs).printed = (run m2 accs).printed := by
  induction accs generalizing m1 m2 with
  | nil => exact ⟨h, hp⟩
  | cons x xs ih =>
    obtain ⟨h1, h2⟩ := access_congr h hp x.addr x.write_flag x.write_data x.write_data
    exact ih h1 h2

/-! ## C11 -/

theorem init_result_ok (bs ns bps : Int) (ws : List initWarning) (c : cacheStruct)
    (h : cache_init cache_global bs ns bps = Except.ok (ws, c)) :
    init_result bs ns bps = (ws, c) := by
  unfold init_result
  rw [h]

/-- C11. After `cache_init(1, 2, 2)`, reads of 0, 1, 2, 3, 0 miss, miss, miss,
miss and hit: the lines printed are exactly the four fills, each followed by
its processor line, and then the processor line of the hit, with no eviction
line; the counters end at `hits = 1`, `misses = 4`, `writebacks = 0`. -/
theorem scenario_two_sets_two_ways (st : stateType) (ws : List initWarning) (c : cacheStruct)
    (hinit : cache_init cache_global 1 2 2 = Except.ok (ws, c)) :
    is_hit (start st c) 0 = false ∧
      is_hit (run (start st c) [⟨0, 0, 0⟩]) 1 = false ∧
      is_hit (run (start st c) [⟨0, 0, 0⟩, ⟨1, 0, 0⟩]) 2 = false ∧
      is_hit (run (start st c) [⟨0, 0, 0⟩, ⟨1, 0, 0⟩, ⟨2, 0, 0⟩]) 3 = false ∧
      is_hit (run (start st c) [⟨0, 0, 0⟩, ⟨1, 0, 0⟩, ⟨2, 0, 0⟩, ⟨3, 0, 0⟩]) 0 = true ∧
      (run (start st c) [⟨0, 0, 0⟩, ⟨1, 0, 0⟩, ⟨2, 0, 0⟩, ⟨3, 0, 0⟩, ⟨0, 0, 0⟩]).printed
        = [{ address := 0, size := 1, type := actionType.memoryToCache },
           { address := 0, size := 1, type := actionType.cacheToProcessor },
           { address := 1, size := 1, type := actionType.memoryToCache },
           { address := 1, size := 1, type := actionType.cacheToProcessor },
           { address := 2, size := 1, type := actionType.memoryToCache },
           { address := 2, size := 1, type := actionType.cacheToProcessor },
           { address := 3, size := 1, type := actionType.memoryToCache },
           { address := 3, size := 1, type := actionType.cacheToProcessor },
           { address := 0, size := 1, type := actionType.cacheToProcessor }] ∧
      (run (start st c) [⟨0, 0, 0⟩, ⟨1, 0, 0⟩, ⟨2, 0, 0⟩, ⟨3, 0, 0⟩, ⟨0, 0, 0⟩]).cache.hits = 1 ∧
      (run (start st c) [⟨0, 0, 0⟩, ⟨1, 0, 0⟩, ⟨2, 0, 0⟩, ⟨3, 0, 0⟩, ⟨0, 0, 0⟩]).cache.misses = 4 ∧
      (run (start st c) [⟨0, 0, 0⟩, ⟨1, 0, 0⟩, ⟨2, 0, 0⟩, ⟨3, 0, 0⟩, ⟨0, 0, 0⟩]).cache.writebacks
        = 0 := by
  have hc : c = (init_result 1 2 2).2 := by rw [init_result_ok 1 2 2 ws c hinit]
  subst hc
  have hsim : ∀ accs : List Access,
      SameControl (run (start st (init_result 1 2 2).2) accs).cache
        (run (start example_store (init_result 1 2 2).2) accs).cache ∧
      (run (start st (init_result 1 2 2).2) accs).printed
        = (run (start example_store (init_result 1 2 2).2) accs).printed :=
    fun accs => @run_congr (start st (init_result 1 2 2).2)
      (start example_store (init_result 1 2 2).2)
      (SameControl_refl (init_result 1 2 2).2) rfl accs
  have hhit : ∀ (accs : List Access) (a : Int),
      is_hit (run (start st (init_result 1 2 2).2) accs) a
        = is_hit (run (start example_store (init_result 1 2 2).2) accs) a :=
    fun accs a => is_hit_congr (hsim accs).1 a
  obtain ⟨⟨_, _, _, _, k1, k2, k3⟩, hp⟩ :=
    hsim [⟨0, 0, 0⟩, ⟨1, 0, 0⟩, ⟨2, 0, 0⟩, ⟨3, 0, 0⟩, ⟨0, 0, 0⟩]
  refine ⟨?_, ?_, ?_, ?_, ?_, ?_, ?_, ?_, ?_⟩
  · exact (hhit [] 0).trans (by decide)
  · exact (hhit _ 1).trans (by decide)
  · exact (hhit _ 2).trans (by decide)
  · exact (hhit _ 3).trans (by decide)
  · exact (hhit _ 0).trans (by decide)
  · exact hp.trans (by decide)
  · exact k1.trans (by decide)
  · exact k2.trans (by decide)
  · exact k3.trans (by decide)

theorem scenario_two_sets_two_ways_witness :
    (run (start example_store (init_result 1 2 2).2)
        [⟨0, 0, 0⟩, ⟨1, 0, 0⟩, ⟨2, 0, 0⟩, ⟨3, 0, 0⟩, ⟨0, 0, 0⟩]).cache.hits = 1 :=
  (scenario_two_sets_two_ways example_store (init_result 1 2 2).1 (init_result 1 2 2).2
    rfl).2.2.2.2.2.2.1

/-! ## C14 -/

/-- C14. In a reachable state, an access to a non-negative address that misses
with a valid clean victim prints exactly three lines: `cacheToNowhere` for the
victim's block, `memoryToCache` for the block of the address, then the
one-word processor line; the backing store is called with the `blockSize` reads
of the fill and nothing else, and `writebacks` is unchanged. -/
theorem clean_eviction_protocol (m : Machine) (_hm : Reachable m) (a wf wd : Int) (_ha : 0 ≤ a)
    (hmiss : is_hit m a = false) (hv : (m.cache.blocks (victim m a)).valid ≠ 0)
    (hd : (m.cache.blocks (victim m a)).dirty = 0) :
    (cache_access m a wf wd).2.printed
        = m.printed ++
          [{ address := ((m.cache.blocks (victim m a)).tag * m.cache.numSets
                          + get_set_index m.cache a) * m.cache.blockSize,
             size := m.cache.blockSize, type := actionType.cacheToNowhere },
           { address := Int.tdiv a m.cache.blockSize * m.cache.blockSize,
             size := m.cache.blockSize, type := actionType.memoryToCache },
           { address := a, size := 1,
             type := if wf ≠ 0 then actionType.processorToCache
                     else actionType.cacheToProcessor }] ∧
      (cache_access m a wf wd).2.memCalls
        = m.memCalls ++
          (List.range m.cache.blockSize.toNat).map (fun (i : Nat) =>
            { addr := Int.tdiv a m.cache.blockSize * m.cache.blockSize + (i : Int),
              write_flag := 0, write_data := 0 }) ∧
      (cache_access m a wf wd).2.cache.writebacks = m.cache.writebacks := by
  obtain ⟨_, _, hw, hp, hc⟩ := access_miss m a wf wd hmiss
  have hnot : ¬ ((m.cache.blocks (victim m a)).valid ≠ 0 ∧
      (m.cache.blocks (victim m a)).dirty ≠ 0) := fun h => h.2 hd
  refine ⟨?_, ?_, ?_⟩
  · rw [hp, if_neg hnot, if_pos hv]
    simp only [old_addr, base_addr, proc_action, List.append_assoc, List.singleton_append]
    split_ifs <;> rfl
  · rw [hc, if_neg hnot, List.append_nil]
    rfl
  · rw [hw, if_neg hnot, add_zero]

theorem clean_eviction_protocol_witness :
    (cache_access (cache_access example_direct 0 0 0).2 8 0 0).2.cache.writebacks
      = (cache_access example_direct 0 0 0).2.cache.writebacks :=
  (clean_eviction_protocol (cache_access example_direct 0 0 0).2
    (Reachable.step example_direct 0 0 0 example_direct_reachable (by decide))
    8 0 0 (by decide) (by decide) (by decide) (by decide)).2.2

/-! ## A cache without valid blocks -/

theorem all_invalid_miss (m : Machine) (a : Int) (hz : ∀ j, (m.cache.blocks j).valid = 0) :
    is_hit m a = false := by
  unfold is_hit
  rw [lookup_none_of (fun j _ h => h.1 (hz _))]
  rfl

/-! ## C17 -/

/-- C17. For an address in `[0, 65536)`: `mem_access(addr, 1, d)` stores `d` at
`mem[addr]`, leaves every other word alone and returns `d`;
`mem_access(addr, 0, _)` leaves the memory alone and returns `mem[addr]`; and
every call raises `get_num_mem_accesses` by exactly one. -/
theorem mem_access_contract (m : Machine) (addr : Int) :
    0 ≤ addr → addr < MEMORYSIZE →
    (∀ d : Int,
      (mem_access m addr 1 d).2.state.mem addr = d ∧
      (∀ x : Int, x ≠ addr → (mem_access m addr 1 d).2.state.mem x = m.state.mem x) ∧
      (mem_access m addr 1 d).1 = d) ∧
    (∀ d : Int,
      (mem_access m addr 0 d).2.state.mem = m.state.mem ∧
      (mem_access m addr 0 d).1 = m.state.mem addr) ∧
    (∀ wf d : Int,
      get_num_mem_accesses (mem_access m addr wf d).2 = get_num_mem_accesses m + 1) := by
  intro _ _
  refine ⟨?_, ?_, ?_⟩
  · intro d
    have h1 : (mem_access m addr 1 d).2.state.mem
        = fun a => if a = addr then d else m.state.mem a := by
      unfold mem_access
      simp only [if_pos (show (1 : Int) ≠ 0 by decide)]
      split_ifs <;> rfl
    refine ⟨?_, ?_, ?_⟩
    · rw [h1]; simp
    · intro x hx
      rw [h1]; simp [hx]
    · show (mem_access m addr 1 d).2.state.mem addr = d
      rw [h1]; simp
  · intro d
    exact ⟨by rw [mem_access_read_state], mem_access_read_val m addr d⟩
  · intro wf d
    unfold get_num_mem_accesses
    exact mem_access_num m addr wf d

theorem mem_access_contract_witness :
    (mem_access example_direct 5 1 42).1 = 42 :=
  ((mem_access_contract example_direct 5 (by decide) (by decide)).1 42).2.2

/-! ## C12 -/

theorem wrap32_of_range (x : Int) (h1 : -2147483648 ≤ x) (h2 : x ≤ 2147483647) :
    wrap32 x = x := by
  unfold wrap32
  omega

/-- When the product of ways and sets stays in the range of `int`, `cache_init`
exits exactly on the five listed conditions, and a geometry it stores is within
the bounds. -/
theorem cache_init_validation (bs ns bps : Int) (h1 : -2147483648 ≤ bps * ns)
    (h2 : bps * ns ≤ 2147483647) :
    ((∃ e, cache_init cache_global bs ns bps = Except.error e)
        ↔ (bs ≤ 0 ∨ ns ≤ 0 ∨ bps ≤ 0 ∨ ns * bps > 256 ∨ bs > 256)) ∧
      (∀ ws c, cache_init cache_global bs ns bps = Except.ok (ws, c) →
        1 ≤ c.blockSize ∧ c.blockSize ≤ 256 ∧ 1 ≤ c.numSets * c.blocksPerSet ∧
        c.numSets * c.blocksPerSet ≤ 256) := by
  have hw := wrap32_of_range _ h1 h2
  have hcomm : ns * bps = bps * ns := mul_comm _ _
  refine ⟨?_, ?_⟩
  · unfold cache_init
    rw [hw]
    by_cases c1 : bs ≤ 0 ∨ ns ≤ 0 ∨ bps ≤ 0
    · rw [if_pos c1]
      exact ⟨fun _ => by omega, fun _ => ⟨_, rfl⟩⟩
    rw [if_neg c1]
    by_cases c2 : bps * ns > MAX_CACHE_SIZE
    · rw [if_pos c2]
      have : bps * ns > 256 := c2
      exact ⟨fun _ => by omega, fun _ => ⟨_, rfl⟩⟩
    rw [if_neg c2]
    have c2' : ¬ bps * ns > 256 := c2
    by_cases c3 : bs > MAX_BLOCK_SIZE
    · rw [if_pos c3]
      have : bs > 256 := c3
      exact ⟨fun _ => by omega, fun _ => ⟨_, rfl⟩⟩
    rw [if_neg c3]
    have c3' : ¬ bs > 256 := c3
    constructor
    · rintro ⟨e, he⟩
      cases he
    · intro h
      omega
  · intro ws c h
    obtain ⟨⟨g1, g2, g3, g4, g5⟩, ⟨e1, e2, e3⟩, _, _⟩ := cache_init_ok h
    rw [hw] at g4
    have g4' : bps * ns ≤ 256 := g4
    have g5' : bs ≤ 256 := g5
    have hpos : 0 < ns * bps := Int.mul_pos g2 g3
    rw [e1, e2, e3]
    omega

/-- C12, evaluated where the code leaves the claim: `cache_init(1, 1073741824, 4)`
returns normally although `numSets * blocksPerSet` is `2 ^ 32`, far above
`MAX_CACHE_SIZE`; the product wraps to 0 in the capacity check. -/
theorem capacity_check_overflow :
    cache_init cache_global 1 1073741824 4 = Except.ok (init_result 1 1073741824 4) ∧
      (init_result 1 1073741824 4).2.numSets * (init_result 1 1073741824 4).2.blocksPerSet
        = 4294967296 ∧
      wrap32 (4 * 1073741824) = 0 ∧
      ¬ ((1 : Int) ≤ 0 ∨ (1073741824 : Int) ≤ 0 ∨ (4 : Int) ≤ 0) ∧
      (1073741824 : Int) * 4 > 256 :=
  ⟨rfl, by decide, by decide, by decide, by decide⟩

/-! ## C16 -/

theorem and_pred_eq_zero (n : Nat) (hn : 0 < n) (h : n &&& (n - 1) = 0) : ∃ k : Nat, n = 2 ^ k := by
  induction n using Nat.strong_induction_on with
  | _ n ih =>
    by_cases h1 : n = 1
    · exact ⟨0, by rw [h1]; rfl⟩
    have hhalf : n / 2 &&& (n - 1) / 2 = 0 := by
      rw [← Nat.and_div_two, h]
    rcases Nat.even_or_odd n with he | ho
    · obtain ⟨m, hm⟩ := he
      have e1 : n / 2 = m := by omega
      have e2 : (n - 1) / 2 = m - 1 := by omega
      rw [e1, e2] at hhalf
      obtain ⟨k, hk⟩ := ih m (by omega) (by omega) hhalf
      exact ⟨k + 1, by rw [pow_succ, ← hk]; omega⟩
    · obtain ⟨m, hm⟩ := ho
      have e1 : n / 2 = m := by omega
      have e2 : (n - 1) / 2 = m := by omega
      rw [e1, e2, Nat.and_self] at hhalf
      omega

theorem pow_two_and_pred (k : Nat) : 2 ^ k &&& (2 ^ k - 1) = 0 := by
  rw [Nat.and_pow_two_sub_one_eq_mod, Nat.mod_self]

theorem int_land_pred (n : Nat) (hn : 0 < n) :
    Int.land (n : Int) ((n : Int) - 1) = ((n &&& (n - 1) : Nat) : Int) := by
  have : (n : Int) - 1 = ((n - 1 : Nat) : Int) := by omega
  rw [this]
  rfl

theorem is_power_of_2_iff (v : Int) (hv : 0 < v) :
    is_power_of_2 v = true ↔ ∃ k : Nat, v = 2 ^ k := by
  obtain ⟨n, rfl⟩ := Int.eq_ofNat_of_zero_le (le_of_lt hv)
  have hn : 0 < n := by omega
  unfold is_power_of_2
  rw [int_land_pred n hn]
  simp only [Bool.and_eq_true, decide_eq_true_eq, Bool.not_eq_true', decide_eq_false_iff_not,
    ne_eq, not_not]
  constructor
  · rintro ⟨_, h⟩
    have h0 : n &&& (n - 1) = 0 := by exact_mod_cast h
    obtain ⟨k, hk⟩ := and_pred_eq_zero n hn h0
    exact ⟨k, by rw [hk]; push_cast; rfl⟩
  · rintro ⟨k, hk⟩
    have hk' : n = 2 ^ k := by exact_mod_cast hk
    refine ⟨by omega, ?_⟩
    rw [hk', pow_two_and_pred]
    rfl

/-- C16. For `v > 0` the macro `is_power_of_2(v)` is true exactly when `v` is
a power of two; a successful `cache_init` prints the `blockSize` warning
exactly when `blockSize` is not a power of two, and the `numSets` warning
exactly when `numSets` is not one; and whether or not they are powers of two,
`cache_init` succeeds as soon as the three size checks pass. -/
theorem power_of_two_warnings :
    (∀ v : Int, 0 < v → (is_power_of_2 v = true ↔ ∃ k : Nat, v = 2 ^ k)) ∧
    (∀ (bs ns bps : Int) (ws : List initWarning) (c : cacheStruct),
      cache_init cache_global bs ns bps = Except.ok (ws, c) →
      (initWarning.blockSizeNotPow2 bs ∈ ws ↔ ¬ ∃ k : Nat, bs = 2 ^ k) ∧
      (initWarning.numSetsNotPow2 ns ∈ ws ↔ ¬ ∃ k : Nat, ns = 2 ^ k)) ∧
    (∀ bs ns bps : Int, ¬ (bs ≤ 0 ∨ ns ≤ 0 ∨ bps ≤ 0) →
      ¬ (wrap32 (bps * ns) > MAX_CACHE_SIZE) → ¬ (bs > MAX_BLOCK_SIZE) →
      ∃ ws c, cache_init cache_global bs ns bps = Except.ok (ws, c)) := by
  refine ⟨is_power_of_2_iff, ?_, ?_⟩
  · intro bs ns bps ws c h
    obtain ⟨⟨g1, g2, _, _, _⟩, _⟩ := cache_init_ok h
    unfold cache_init at h
    by_cases c1 : bs ≤ 0 ∨ ns ≤ 0 ∨ bps ≤ 0
    · rw [if_pos c1] at h; cases h
    rw [if_neg c1] at h
    by_cases c2 : wrap32 (bps * ns) > MAX_CACHE_SIZE
    · rw [if_pos c2] at h; cases h
    rw [if_neg c2] at h
    by_cases c3 : bs > MAX_BLOCK_SIZE
    · rw [if_pos c3] at h; cases h
    rw [if_neg c3] at h
    simp only [Except.ok.injEq, Prod.mk.injEq] at h
    obtain ⟨hws, _⟩ := h
    rw [← hws, ← is_power_of_2_iff bs g1, ← is_power_of_2_iff ns g2]
    by_cases p1 : is_power_of_2 bs = true <;> by_cases p2 : is_power_of_2 ns = true <;>
      simp [p1, p2]
  · intro bs ns bps c1 c2 c3
    unfold cache_init
    rw [if_neg c1, if_neg c2, if_neg c3]
    exact ⟨_, _, rfl⟩

theorem power_of_two_warnings_witness :
    is_power_of_2 8 = true ↔ ∃ k : Nat, (8 : Int) = 2 ^ k :=
  power_of_two_warnings.1 8 (by decide)

/-! ## C20 -/

/-- The claim of C20 fails: after `cache_init(2, 1, 2)` and reads of 0, 2, 2
the valid block 0 has label 2, above `blocksPerSet - 1 = 1`. -/
theorem label_exceeds_associativity :
    Reachable (run example_assoc [⟨0, 0, 0⟩, ⟨2, 0, 0⟩, ⟨2, 0, 0⟩]) ∧
      ((run example_assoc [⟨0, 0, 0⟩, ⟨2, 0, 0⟩, ⟨2, 0, 0⟩]).cache.blocks 0).valid ≠ 0 ∧
      ¬ (((run example_assoc [⟨0, 0, 0⟩, ⟨2, 0, 0⟩, ⟨2, 0, 0⟩]).cache.blocks 0).lruLabel
          ≤ (run example_assoc [⟨0, 0, 0⟩, ⟨2, 0, 0⟩, ⟨2, 0, 0⟩]).cache.blocksPerSet - 1) :=
  ⟨run_reachable example_assoc_reachable _ (by decide), by decide, by decide⟩

theorem reachable_label_bound {m : Machine} (h : Reachable m) :
    0 ≤ m.cache.hits + m.cache.misses ∧
      ∀ j : Int, (m.cache.blocks j).valid ≠ 0 →
        (m.cache.blocks j).lruLabel + 1 ≤ m.cache.hits + m.cache.misses := by
  induction h with
  | init st bs ns bps ws c h =>
    obtain ⟨_, _, ⟨k1, k2, _⟩, hz⟩ := cache_init_ok h
    refine ⟨by show 0 ≤ c.hits + c.misses; rw [k1, k2]; decide, ?_⟩
    intro j hv
    exact absurd (by show (c.blocks j).valid = 0; rw [hz]; rfl) hv
  | step m a wf wd hm ha ih =>
    obtain ⟨hg, _, _, _⟩ := reachable_invariants hm
    obtain ⟨i0, ib⟩ := ih
    have hsum : (cache_access m a wf wd).2.cache.hits + (cache_access m a wf wd).2.cache.misses
        = m.cache.hits + m.cache.misses + 1 := by
      rcases access_counts_once m a wf wd ha hg with ⟨h1, h2⟩ | ⟨h1, h2⟩ <;> rw [h1, h2] <;> ring
    refine ⟨by omega, ?_⟩
    intro j hv
    rw [access_valid m a wf wd j ha hg] at hv
    rw [access_label m a wf wd j ha hg, hsum]
    by_cases hj : j = (resolve m a).1
    · rw [if_pos hj]; omega
    · rw [if_neg hj]
      have := ib j (hv.resolve_left hj)
      split_ifs <;> omega

/-- C20, amended. In every reachable state the label of a valid block is at
least 0 and at most `hits + misses - 1`, the number of calls made minus one. -/
theorem label_bounded_by_calls (m : Machine) (hm : Reachable m) (j : Int)
    (hv : (m.cache.blocks j).valid ≠ 0) :
    0 ≤ (m.cache.blocks j).lruLabel ∧
      (m.cache.blocks j).lruLabel ≤ m.cache.hits + m.cache.misses - 1 := by
  have h1 := (reachable_invariants hm).2.2.2 j
  have h2 := (reachable_label_bound hm).2 j hv
  exact ⟨h1, by omega⟩

theorem label_bounded_by_calls_witness :
    0 ≤ ((run example_assoc [⟨0, 0, 0⟩, ⟨2, 0, 0⟩, ⟨2, 0, 0⟩]).cache.blocks 0).lruLabel ∧
      ((run example_assoc [⟨0, 0, 0⟩, ⟨2, 0, 0⟩, ⟨2, 0, 0⟩]).cache.blocks 0).lruLabel
        ≤ (run example_assoc [⟨0, 0, 0⟩, ⟨2, 0, 0⟩, ⟨2, 0, 0⟩]).cache.hits
          + (run example_assoc [⟨0, 0, 0⟩, ⟨2, 0, 0⟩, ⟨2, 0, 0⟩]).cache.misses - 1 :=
  label_bounded_by_calls (run example_assoc [⟨0, 0, 0⟩, ⟨2, 0, 0⟩, ⟨2, 0, 0⟩])
    (run_reachable example_assoc_reachable _ (by decide)) 0 (by decide)

/-! ## C13 -/

theorem inSet_in_table (c : cacheStruct) (s k : Int) (hg : GeomOk c) (hs0 : 0 ≤ s)
    (hs1 : s < c.numSets) (hk : inSet c s k) : 0 ≤ k ∧ k < c.numSets * c.blocksPerSet := by
  unfold inSet at hk
  have h1 : 0 ≤ s * c.blocksPerSet := Int.mul_nonneg hs0 (le_of_lt hg.2.2)
  have h2 : (s + 1) * c.blocksPerSet ≤ c.numSets * c.blocksPerSet :=
    Int.mul_le_mul_of_nonneg_right (by omega) (le_of_lt hg.2.2)
  have h3 : (s + 1) * c.blocksPerSet = s * c.blocksPerSet + c.blocksPerSet := by ring
  omega

theorem mem_ways {start : Int} {n : Nat} {k : Int}
    (h : k ∈ (List.range n).map (fun (w : Nat) => start + (w : Int))) :
    ∃ w : Nat, w < n ∧ k = start + (w : Int) := by
  obtain ⟨w, hw, rfl⟩ := List.mem_map.mp h
  exact ⟨w, List.mem_range.mp hw, rfl⟩

/-- In a reachable state, a call with a non-negative address uses block
indices of the set of the address only, which lie in
`[0, numSets * blocksPerSet)`, and data indices in `[0, blockSize)` only. -/
theorem indices_in_set (m : Machine) (hm : Reachable m) (a : Int) (ha : 0 ≤ a) :
    (∀ k ∈ block_indices m a,
      inSet m.cache (get_set_index m.cache a) k ∧
      0 ≤ k ∧ k < m.cache.numSets * m.cache.blocksPerSet) ∧
    (∀ i ∈ data_indices m a, 0 ≤ i ∧ i < m.cache.blockSize) := by
  obtain ⟨hg, _, _, _⟩ := reachable_invariants hm
  obtain ⟨hs0, hs1⟩ := get_set_index_range m.cache a ha hg.1 hg.2.1
  have hstart := set_start_nonneg m.cache a ha hg
  have hn : 0 < m.cache.blocksPerSet.toNat := by have := hg.2.2; omega
  have hres := resolved_inSet m a ha hg
  have hvic : inSet m.cache (get_set_index m.cache a)
      (choose_victim m.cache (get_set_index m.cache a)
        (get_set_index m.cache a * m.cache.blocksPerSet)) := victim_inSet m a ha hg
  have hway : ∀ (n : Nat) (k : Int), n ≤ m.cache.blocksPerSet.toNat →
      k ∈ (List.range n).map
        (fun (w : Nat) => get_set_index m.cache a * m.cache.blocksPerSet + (w : Int)) →
      inSet m.cache (get_set_index m.cache a) k := by
    intro n k hle hk
    obtain ⟨w, hw, rfl⟩ := mem_ways hk
    exact inSet_way _ _ w (by omega)
  refine ⟨?_, ?_⟩
  · have key : ∀ k ∈ block_indices m a, inSet m.cache (get_set_index m.cache a) k := by
      intro k hk
      unfold block_indices at hk
      simp only [List.mem_append, List.mem_singleton] at hk
      rcases hk with ((h1 | h2) | h3) | h4
      · cases hl : lookup m.cache (get_set_index m.cache a * m.cache.blocksPerSet)
            (get_tag m.cache a) with
        | none => rw [hl] at h1; exact hway _ k (le_refl _) h1
        | some i =>
          rw [hl] at h1
          exact hway _ k (by have := (lookup_some hl).1; omega) h1
      · have hscan2 : ∀ k : Int,
            k ∈ (match find_empty m.cache (get_set_index m.cache a * m.cache.blocksPerSet) with
              | some i => (List.range (i + 1)).map
                  (fun (w : Nat) => get_set_index m.cache a * m.cache.blocksPerSet + (w : Int))
              | none => (List.range m.cache.blocksPerSet.toNat).map
                  (fun (w : Nat) => get_set_index m.cache a * m.cache.blocksPerSet + (w : Int))) →
            inSet m.cache (get_set_index m.cache a) k := by
          intro k h21
          cases he : find_empty m.cache (get_set_index m.cache a * m.cache.blocksPerSet) with
          | none => rw [he] at h21; exact hway _ k (le_refl _) h21
          | some i =>
            rw [he] at h21
            exact hway _ k (by have := (find_empty_some he).1; omega) h21
        split_ifs at h2 with hf hf2
        · simp only [List.mem_append, List.mem_singleton, List.mem_cons, List.not_mem_nil,
            or_false] at h2
          rcases h2 with (h21 | h0 | h1) | h23
          · exact hscan2 k h21
          · rw [h0]
            have := inSet_way m.cache (get_set_index m.cache a) 0 hn
            simpa using this
          · obtain ⟨w, hw, rfl⟩ := List.mem_map.mp h1
            exact inSet_way _ _ (w + 1) (by have := List.mem_range.mp hw; omega)
          · rw [h23]; exact hvic
        · simp only [List.mem_append, List.mem_singleton, List.not_mem_nil, or_false] at h2
          rcases h2 with h21 | h23
          · exact hscan2 k h21
          · rw [h23]; exact hvic
        · simp at h2
      · rcases h3 with h31 | h32
        · exact hway _ k (le_refl _) (List.mem_filter.mp h31).1
        · rw [h32]; exact hres
      · rw [h4]; exact hres
    intro k hk
    exact ⟨key k hk, inSet_in_table m.cache _ k hg hs0 hs1 (key k hk)⟩
  · intro i hi
    unfold data_indices at hi
    simp only [List.mem_append, List.mem_singleton] at hi
    have hrange : ∀ x : Int,
        x ∈ (List.range m.cache.blockSize.toNat).map (fun (i : Nat) => (i : Int)) →
        0 ≤ x ∧ x < m.cache.blockSize := by
      intro x hx
      obtain ⟨w, hw, rfl⟩ := List.mem_map.mp hx
      have := List.mem_range.mp hw
      have := hg.1
      omega
    rcases hi with h1 | h2
    · split_ifs at h1 with hf hd
      · simp only [List.mem_append] at h1
        rcases h1 with h | h <;> exact hrange i h
      · simp only [List.nil_append] at h1
        exact hrange i h1
      · simp at h1
    · rw [h2, get_block_offset_eq m.cache a ha hg.1]
      exact ⟨Int.emod_nonneg _ (ne_of_gt hg.1), Int.emod_lt_of_pos _ hg.1⟩

/-- C13, evaluated where the code leaves the claim: after
`cache_init(1, 1073741824, 4)`, which returns normally, `cache_access(64, _, _)`
evaluates `cache.blocks[256]`, outside the table of `MAX_CACHE_SIZE` blocks. -/
theorem table_index_out_of_range :
    Reachable example_overflow ∧ (0 : Int) ≤ 64 ∧
      (256 : Int) ∈ block_indices example_overflow 64 ∧ ¬ ((256 : Int) < MAX_CACHE_SIZE) :=
  ⟨Reachable.init example_store 1 1073741824 4 (init_result 1 1073741824 4).1
    (init_result 1 1073741824 4).2 rfl, by decide, by decide, by decide⟩

/-! ## C18 -/

/-- C18, evaluated where the code leaves the claim: with all registers 0, the
instruction `lw 0 1 -1` (word 8519679) makes `executeInstruction` print the
out-of-bounds message and then read `state->mem[-1]`; the instruction
`sw 0 1 -1` (word 12713983) prints it and then writes `state->mem[-1]`. -/
theorem memory_index_unchecked :
    getOpcode 8519679 = 2 ∧
      (executeInstruction example_state 8519679 false).errors
        = [simError.memOutOfBounds 0 (-1)] ∧
      (executeInstruction example_state 8519679 false).memIndices = [-1] ∧
      getOpcode 12713983 = 3 ∧
      (executeInstruction example_state 12713983 false).errors
        = [simError.memOutOfBounds 0 (-1)] ∧
      (executeInstruction example_state 12713983 false).memIndices = [-1] ∧
      ¬ ((0 : Int) ≤ -1 ∧ (-1 : Int) < MEMORYSIZE) :=
  ⟨by decide, by decide, by decide, by decide, by decide, by decide, by decide⟩

/-! ## C19: the memory seen through the cache -/

theorem mem_access_write_mem (m : Machine) (a wf d : Int) (hw : wf ≠ 0) :
    (mem_access m a wf d).2.state.mem = fun x => if x = a then d else m.state.mem x := by
  unfold mem_access
  simp only [if_pos hw]
  split_ifs <;> rfl

/-- The backing store after `k` rounds of the write-back loop. -/
theorem wb_loop_mem (f old : Int) (k : Nat) (m : Machine) (x : Int) :
    ((List.range k).foldl (fun (acc : Machine) (i : Nat) =>
        (mem_access acc (old + (i : Int)) 1 ((acc.cache.blocks f).data (i : Int))).2) m).state.mem x
      = if old ≤ x ∧ x < old + (k : Int) then (m.cache.blocks f).data (x - old)
        else m.state.mem x := by
  induction k with
  | zero =>
    simp only [List.range_zero, List.foldl_nil, Nat.cast_zero, add_zero]
    rw [if_neg (by omega)]
  | succ k ih =>
    rw [List.range_succ, List.foldl_append]
    simp only [List.foldl_cons, List.foldl_nil]
    rw [mem_access_write_mem _ _ _ _ (by decide), (wb_loop f old k m).1]
    show (if x = old + (k : Int) then (m.cache.blocks f).data (k : Int) else _) = _
    by_cases hx : x = old + (k : Int)
    · rw [if_pos hx, if_pos (by push_cast; omega)]
      congr 1
      omega
    · rw [if_neg hx, ih]
      apply if_congr _ rfl rfl
      push_cast
      constructor <;> intro h <;> omega

/-- The backing store after the eviction step. -/
theorem evict_mem (m : Machine) (s f x : Int) (hb : 0 < m.cache.blockSize) :
    (evict m s f).state.mem x
      = if ((m.cache.blocks f).valid ≠ 0 ∧ (m.cache.blocks f).dirty ≠ 0) ∧
            (old_addr m.cache s f ≤ x ∧ x < old_addr m.cache s f + m.cache.blockSize) then
          (m.cache.blocks f).data (x - old_addr m.cache s f)
        else m.state.mem x := by
  unfold evict old_addr
  by_cases h1 : (m.cache.blocks f).valid ≠ 0 ∧ (m.cache.blocks f).dirty ≠ 0
  · rw [if_pos h1]
    simp only [printAction_cache]
    rw [wb_loop_mem]
    simp only [printAction_cache, printAction_state, Int.toNat_of_nonneg (le_of_lt hb)]
    exact if_congr ⟨fun h => ⟨h1, h⟩, fun h => h.2⟩ rfl rfl
  · have hr : ¬ (((m.cache.blocks f).valid ≠ 0 ∧ (m.cache.blocks f).dirty ≠ 0) ∧
        (((m.cache.blocks f).tag * m.cache.numSets + s) * m.cache.blockSize ≤ x ∧
          x < ((m.cache.blocks f).tag * m.cache.numSets + s) * m.cache.blockSize
                + m.cache.blockSize)) := fun h => h1 h.1
    simp only [if_neg h1, if_neg hr]
    by_cases h2 : (m.cache.blocks f).valid ≠ 0
    · simp only [if_pos h2]; rfl
    · simp only [if_neg h2]

theorem evict_blocks (m : Machine) (s f j : Int) :
    (evict m s f).cache.blocks j = m.cache.blocks j := by
  rw [evict_cache]
  split_ifs <;> rfl

/-- Uniqueness of quotient and remainder. -/
theorem divmod_unique (q1 q2 r1 r2 b : Int) (h1 : 0 ≤ r1) (h1' : r1 < b) (h2 : 0 ≤ r2)
    (h2' : r2 < b) (h : q1 * b + r1 = q2 * b + r2) : q1 = q2 ∧ r1 = r2 := by
  have hb : 0 < b := by omega
  have e1 : (q1 * b + r1) % b = r1 := by
    rw [add_comm, Int.add_mul_emod_self, Int.emod_eq_of_lt h1 h1']
  have e2 : (q2 * b + r2) % b = r2 := by
    rw [add_comm, Int.add_mul_emod_self, Int.emod_eq_of_lt h2 h2']
  have hr : r1 = r2 := by rw [← e1, ← e2, h]
  refine ⟨?_, hr⟩
  rw [hr] at h
  have : q1 * b = q2 * b := by omega
  exact Int.eq_of_mul_eq_mul_right (ne_of_gt hb) this

/-- Two block addresses are equal only when tag, set and offset are. -/
theorem block_addr_inj (bs ns t1 t2 s1 s2 i1 i2 : Int)
    (hs1 : 0 ≤ s1 ∧ s1 < ns) (hs2 : 0 ≤ s2 ∧ s2 < ns) (hi1 : 0 ≤ i1 ∧ i1 < bs)
    (hi2 : 0 ≤ i2 ∧ i2 < bs)
    (h : (t1 * ns + s1) * bs + i1 = (t2 * ns + s2) * bs + i2) :
    t1 = t2 ∧ s1 = s2 ∧ i1 = i2 := by
  obtain ⟨hq, hi⟩ := divmod_unique _ _ _ _ bs hi1.1 hi1.2 hi2.1 hi2.2 h
  obtain ⟨ht, hs⟩ := divmod_unique _ _ _ _ ns hs1.1 hs1.2 hs2.1 hs2.2 hq
  exact ⟨ht, hs, hi⟩

theorem roundtrip_addressing_core (c : cacheStruct) (a : Int) (ha : 0 ≤ a) (hg : GeomOk c) :
    (get_tag c a * c.numSets + get_set_index c a) * c.blockSize + get_block_offset c a = a := by
  rw [get_tag_eq c a ha hg.1 hg.2.1, get_set_index_eq c a ha hg.1 hg.2.1,
    get_block_offset_eq c a ha hg.1]
  exact roundtrip_core a c.blockSize c.numSets ha hg.1 hg.2.1

/-- The parts of a non-negative address, with their ranges. -/
theorem addr_parts (c : cacheStruct) (a : Int) (ha : 0 ≤ a) (hg : GeomOk c) :
    (get_tag c a * c.numSets + get_set_index c a) * c.blockSize + get_block_offset c a = a ∧
      (0 ≤ get_set_index c a ∧ get_set_index c a < c.numSets) ∧
      (0 ≤ get_block_offset c a ∧ get_block_offset c a < c.blockSize) := by
  refine ⟨(roundtrip_addressing_core c a ha hg), get_set_index_range c a ha hg.1 hg.2.1, ?_⟩
  rw [get_block_offset_eq c a ha hg.1]
  exact ⟨Int.emod_nonneg _ (ne_of_gt hg.1), Int.emod_lt_of_pos _ hg.1⟩

theorem logical_of_resident (m : Machine) (a j : Int) (hn : NoDupTags m.cache)
    (hr : Resident m.cache a j) :
    logical m a = (m.cache.blocks j).data (get_block_offset m.cache a) := by
  obtain ⟨h1, h2, h3⟩ := hr
  unfold logical
  cases hl : lookup m.cache (get_set_index m.cache a * m.cache.blocksPerSet)
      (get_tag m.cache a) with
  | none =>
    exfalso
    obtain ⟨w, hw, rfl⟩ := (inSet_iff_way _ _ _).mp h1
    exact lookup_none hl w hw ⟨h2, h3⟩
  | some i =>
    obtain ⟨l1, l2, l3, _⟩ := lookup_some hl
    have : get_set_index m.cache a * m.cache.blocksPerSet + (i : Int) = j :=
      hn _ _ _ (inSet_way _ _ i l1) h1 l2 h2 (by rw [l3, h3])
    simp only [this]

theorem logical_of_absent (m : Machine) (a : Int) (h : ∀ j, ¬ Resident m.cache a j) :
    logical m a = m.state.mem a := by
  unfold logical
  rw [lookup_none_of]
  intro w hw hr
  exact h _ ⟨inSet_way _ _ w hw, hr.1, hr.2⟩

/-- The backing store after a call. -/
theorem access_mem (m : Machine) (a wf wd x : Int) (ha : 0 ≤ a) (hg : GeomOk m.cache) :
    (cache_access m a wf wd).2.state.mem x
      = if is_hit m a = false ∧
            ((m.cache.blocks (victim m a)).valid ≠ 0 ∧ (m.cache.blocks (victim m a)).dirty ≠ 0) ∧
            (old_addr m.cache (get_set_index m.cache a) (victim m a) ≤ x ∧
              x < old_addr m.cache (get_set_index m.cache a) (victim m a) + m.cache.blockSize)
        then (m.cache.blocks (victim m a)).data
          (x - old_addr m.cache (get_set_index m.cache a) (victim m a))
        else m.state.mem x := by
  cases h : is_hit m a with
  | true =>
    rw [(access_hit m a wf wd ha hg h).2.2.2.2.2.1, if_neg (by simp)]
  | false =>
    rw [(access_outer m a wf wd).2.2.1, (resolve_miss_facts m a h).2.2, fill_eq]
    have hev := evict_mem { m with cache := { m.cache with misses := m.cache.misses + 1 } }
      (get_set_index m.cache a) (victim m a) x hg.1
    show (evict _ _ _).state.mem x = _
    rw [hev]
    exact if_congr ⟨fun h => ⟨rfl, h⟩, fun h => h.2⟩ rfl rfl

theorem access_data_other (m : Machine) (a wf wd j : Int) (ha : 0 ≤ a) (hg : GeomOk m.cache)
    (hj : j ≠ (resolve m a).1) :
    ((cache_access m a wf wd).2.cache.blocks j).data = (m.cache.blocks j).data := by
  rw [access_blocks_other m a wf wd j ha hg hj]
  split_ifs <;> rfl

theorem access_data_hit (m : Machine) (a wf wd x : Int) (ha : 0 ≤ a) (hg : GeomOk m.cache)
    (h : is_hit m a = true) :
    ((cache_access m a wf wd).2.cache.blocks (resolve m a).1).data x
      = if wf ≠ 0 ∧ x = get_block_offset m.cache a then wd
        else (m.cache.blocks (resolve m a).1).data x := by
  rw [access_blocks, if_pos rfl, (resolve_hit_facts m a ha hg h).2.2.2]
  by_cases hw : wf ≠ 0
  · rw [if_pos hw]
    show (if x = get_block_offset m.cache a then wd else _) = _
    by_cases hx : x = get_block_offset m.cache a
    · rw [if_pos hx, if_pos ⟨hw, hx⟩]
    · rw [if_neg hx, if_neg (fun h => hx h.2)]
  · rw [if_neg hw, if_neg (fun h => hw h.1)]

theorem access_data_miss (m : Machine) (a wf wd x : Int) (hg : GeomOk m.cache)
    (h : is_hit m a = false) :
    ((cache_access m a wf wd).2.cache.blocks (victim m a)).data x
      = if wf ≠ 0 ∧ x = get_block_offset m.cache a then wd
        else if 0 ≤ x ∧ x < m.cache.blockSize then
          (cache_access m a wf wd).2.state.mem (base_addr m.cache a + x)
        else (m.cache.blocks (victim m a)).data x := by
  have hres := (resolve_miss_facts m a h).2.1
  have hst : (cache_access m a wf wd).2.state
      = (evict { m with cache := { m.cache with misses := m.cache.misses + 1 } }
          (get_set_index m.cache a) (victim m a)).state := by
    rw [(access_outer m a wf wd).2.2.1, (resolve_miss_facts m a h).2.2, fill_eq]
  have hfill : ((resolve m a).2.cache.blocks (victim m a)).data x
      = if 0 ≤ x ∧ x < m.cache.blockSize then
          (cache_access m a wf wd).2.state.mem (base_addr m.cache a + x)
        else (m.cache.blocks (victim m a)).data x := by
    rw [resolve_miss_blocks m a _ h, if_pos rfl, hst]
    show filled _ _ _ _ x = _
    unfold filled base_addr
    rw [Int.toNat_of_nonneg (le_of_lt hg.1), evict_blocks]
  rw [access_blocks, if_pos hres.symm, hres]
  by_cases hw : wf ≠ 0
  · rw [if_pos hw]
    show (if x = get_block_offset m.cache a then wd else _) = _
    by_cases hx : x = get_block_offset m.cache a
    · rw [if_pos hx, if_pos ⟨hw, hx⟩]
    · rw [if_neg hx, if_neg (fun h => hx h.2)]
      exact hfill
  · rw [if_neg hw, if_neg (fun h => hw h.1)]
    exact hfill

/-- Which block holds the block of an address after a call. -/
theorem resident_after (m : Machine) (a wf wd x j : Int) (ha : 0 ≤ a) (hg : GeomOk m.cache) :
    Resident (cache_access m a wf wd).2.cache x j
      ↔ inSet m.cache (get_set_index m.cache x) j ∧
        ((j = (resolve m a).1 ∧ get_tag m.cache a = get_tag m.cache x) ∨
          (j ≠ (resolve m a).1 ∧ (m.cache.blocks j).valid ≠ 0 ∧
            (m.cache.blocks j).tag = get_tag m.cache x)) := by
  obtain ⟨g1, g2, g3⟩ := access_geom m a wf wd
  unfold Resident
  rw [get_set_index_congr x g1 g2, get_tag_congr x g1 g2, access_valid m a wf wd j ha hg,
    access_tag m a wf wd j ha hg]
  have hin : inSet (cache_access m a wf wd).2.cache (get_set_index m.cache x) j
      ↔ inSet m.cache (get_set_index m.cache x) j := by
    unfold inSet; rw [g3]
  rw [hin]
  by_cases hj : j = (resolve m a).1
  · rw [if_pos hj]
    constructor
    · rintro ⟨h1, _, h3⟩; exact ⟨h1, Or.inl ⟨hj, h3⟩⟩
    · rintro ⟨h1, (⟨_, h3⟩ | ⟨h2, _⟩)⟩
      · exact ⟨h1, Or.inl hj, h3⟩
      · exact absurd hj h2
  · rw [if_neg hj]
    constructor
    · rintro ⟨h1, h2, h3⟩; exact ⟨h1, Or.inr ⟨hj, h2.resolve_left hj, h3⟩⟩
    · rintro ⟨h1, (⟨h2, _⟩ | ⟨_, h2, h3⟩)⟩
      · exact absurd h2 hj
      · exact ⟨h1, Or.inr h2, h3⟩

theorem same_block_eq (c : cacheStruct) (a x : Int) (ha : 0 ≤ a) (hx : 0 ≤ x) (hg : GeomOk c)
    (hs : get_set_index c x = get_set_index c a) (ht : get_tag c x = get_tag c a)
    (ho : get_block_offset c x = get_block_offset c a) : x = a := by
  have h1 := (addr_parts c a ha hg).1
  have h2 := (addr_parts c x hx hg).1
  rw [hs, ht, ho] at h2
  rw [← h1, ← h2]

/-- An address inside the range of block `(T, s)` has tag `T`, set `s` and
its distance to the base as offset. -/
theorem in_block_parts (c : cacheStruct) (x T s : Int) (hx : 0 ≤ x) (hg : GeomOk c)
    (hs : 0 ≤ s ∧ s < c.numSets)
    (h1 : (T * c.numSets + s) * c.blockSize ≤ x)
    (h2 : x < (T * c.numSets + s) * c.blockSize + c.blockSize) :
    get_tag c x = T ∧ get_set_index c x = s ∧
      get_block_offset c x = x - (T * c.numSets + s) * c.blockSize := by
  obtain ⟨p1, p2, p3⟩ := addr_parts c x hx hg
  have := block_addr_inj c.blockSize c.numSets (get_tag c x) T (get_set_index c x) s
    (get_block_offset c x) (x - (T * c.numSets + s) * c.blockSize) p2 hs p3
    ⟨by omega, by omega⟩ (by rw [p1]; ring)
  exact this

/-- The base address of the block of `x`, from its parts. -/
theorem base_of_addr (c : cacheStruct) (x : Int) (hx : 0 ≤ x) (hg : GeomOk c) :
    (get_tag c x * c.numSets + get_set_index c x) * c.blockSize
      = x - get_block_offset c x := by
  have := (addr_parts c x hx hg).1
  omega

/-- On a miss, the backing store keeps its word at every address whose block
is not held by the victim. -/
theorem miss_mem_other (m : Machine) (a wf wd y : Int) (ha : 0 ≤ a) (hy : 0 ≤ y)
    (hg : GeomOk m.cache) (hnot : ¬ Resident m.cache y (victim m a)) :
    (cache_access m a wf wd).2.state.mem y = m.state.mem y := by
  rw [access_mem m a wf wd y ha hg, if_neg]
  rintro ⟨_, ⟨hv, _⟩, h1, h2⟩
  unfold old_addr at h1 h2
  obtain ⟨q1, q2, _⟩ := in_block_parts m.cache y _ _ hy hg
    (get_set_index_range m.cache a ha hg.1 hg.2.1) h1 h2
  apply hnot
  refine ⟨?_, hv, q1.symm⟩
  rw [q2]
  exact victim_inSet m a ha hg

/-- On a miss, the backing store ends with the victim's word at every address
whose block the victim held. -/
theorem miss_mem_victim (m : Machine) (a wf wd y : Int) (ha : 0 ≤ a) (hy : 0 ≤ y)
    (hg : GeomOk m.cache) (hc : Coherent m) (hmiss : is_hit m a = false)
    (hr : Resident m.cache y (victim m a)) :
    (cache_access m a wf wd).2.state.mem y
      = (m.cache.blocks (victim m a)).data (get_block_offset m.cache y) := by
  obtain ⟨r1, r2, r3⟩ := hr
  have hs : get_set_index m.cache y = get_set_index m.cache a :=
    inSet_disjoint m.cache _ _ _ hg.2.2 r1 (victim_inSet m a ha hg)
  obtain ⟨p1, p2, p3⟩ := addr_parts m.cache y hy hg
  have hbase : old_addr m.cache (get_set_index m.cache a) (victim m a)
      = y - get_block_offset m.cache y := by
    unfold old_addr
    rw [r3, ← hs]
    exact base_of_addr m.cache y hy hg
  rw [access_mem m a wf wd y ha hg]
  by_cases hd : (m.cache.blocks (victim m a)).dirty ≠ 0
  · rw [if_pos ⟨hmiss, ⟨r2, hd⟩, by rw [hbase]; omega, by rw [hbase]; omega⟩, hbase]
    congr 1
    omega
  · rw [if_neg (fun h => hd h.2.1.2)]
    have := hc (get_set_index m.cache y) (victim m a) (get_block_offset m.cache y) p2.1 p2.2 r1 r2
      (by simpa using hd) p3.1 p3.2
    rw [this, r3, p1]

theorem offset_after (m : Machine) (a wf wd x : Int) :
    get_block_offset (cache_access m a wf wd).2.cache x = get_block_offset m.cache x :=
  get_block_offset_congr x (access_geom m a wf wd).1

/-- A hit changes the logical memory only at the address written. -/
theorem logical_step_hit (m : Machine) (a wf wd x : Int) (ha : 0 ≤ a) (hx : 0 ≤ x)
    (hg : GeomOk m.cache) (hn : NoDupTags m.cache) (hhit : is_hit m a = true) :
    logical (cache_access m a wf wd).2 x = if wf ≠ 0 ∧ x = a then wd else logical m x := by
  obtain ⟨hf1, hf2, hf3, _⟩ := resolve_hit_facts m a ha hg hhit
  have hn1 := access_NoDupTags m a wf wd ha hg hn
  have hst : (cache_access m a wf wd).2.state = m.state :=
    (access_hit m a wf wd ha hg hhit).2.2.2.2.2.1
  have hra : Resident m.cache a (resolve m a).1 := ⟨hf1, hf2, hf3⟩
  by_cases hres : ∃ j, Resident m.cache x j
  · obtain ⟨j, hj⟩ := hres
    rw [logical_of_resident m x j hn hj]
    by_cases ej : j = (resolve m a).1
    · subst ej
      have hs : get_set_index m.cache x = get_set_index m.cache a :=
        inSet_disjoint m.cache _ _ _ hg.2.2 hj.1 hf1
      have ht : get_tag m.cache x = get_tag m.cache a := by rw [← hj.2.2, hf3]
      rw [logical_of_resident _ x _ hn1
        ((resident_after m a wf wd x _ ha hg).mpr ⟨hj.1, Or.inl ⟨rfl, ht.symm⟩⟩),
        offset_after, access_data_hit m a wf wd _ ha hg hhit]
      apply if_congr _ rfl rfl
      constructor
      · rintro ⟨h1, h2⟩; exact ⟨h1, same_block_eq m.cache a x ha hx hg hs ht h2⟩
      · rintro ⟨h1, h2⟩; exact ⟨h1, by rw [h2]⟩
    · rw [logical_of_resident _ x j hn1
        ((resident_after m a wf wd x j ha hg).mpr ⟨hj.1, Or.inr ⟨ej, hj.2.1, hj.2.2⟩⟩),
        offset_after, access_data_other m a wf wd j ha hg ej, if_neg]
      rintro ⟨_, rfl⟩
      exact ej (hn _ _ _ hj.1 hf1 hj.2.1 hf2 (by rw [hj.2.2, hf3]))
  · have habs : ∀ j, ¬ Resident m.cache x j := fun j hj => hres ⟨j, hj⟩
    have habs' : ∀ j, ¬ Resident (cache_access m a wf wd).2.cache x j := by
      intro j hj
      rcases (resident_after m a wf wd x j ha hg).mp hj with ⟨h1, (⟨e, ht⟩ | ⟨_, hv, ht⟩)⟩
      · exact habs j ⟨h1, by rw [e]; exact hf2, by rw [e, hf3, ht]⟩
      · exact habs j ⟨h1, hv, ht⟩
    rw [logical_of_absent _ x habs', logical_of_absent m x habs, hst, if_neg]
    rintro ⟨_, rfl⟩
    exact habs _ hra

/-- A miss changes the logical memory only at the address written. -/
theorem logical_step_miss (m : Machine) (a wf wd x : Int) (ha : 0 ≤ a) (hx : 0 ≤ x)
    (hg : GeomOk m.cache) (hn : NoDupTags m.cache) (hc : Coherent m)
    (hmiss : is_hit m a = false) :
    logical (cache_access m a wf wd).2 x = if wf ≠ 0 ∧ x = a then wd else logical m x := by
  obtain ⟨hno, hres, _⟩ := resolve_miss_facts m a hmiss
  have hn1 := access_NoDupTags m a wf wd ha hg hn
  have hvin := victim_inSet m a ha hg
  have hnoa : ∀ j, ¬ Resident m.cache a j := fun j hj => hno j hj.1 hj.2.1 hj.2.2
  by_cases hsame : get_set_index m.cache x = get_set_index m.cache a ∧
      get_tag m.cache x = get_tag m.cache a
  · -- `x` lies in the block that is filled
    obtain ⟨hs, ht⟩ := hsame
    have habs : ∀ j, ¬ Resident m.cache x j := by
      intro j hj
      exact hnoa j ⟨hs ▸ hj.1, hj.2.1, by rw [hj.2.2, ht]⟩
    have hr' : Resident (cache_access m a wf wd).2.cache x (victim m a) :=
      (resident_after m a wf wd x _ ha hg).mpr
        ⟨by rw [hs]; exact hvin, Or.inl ⟨hres.symm, ht.symm⟩⟩
    obtain ⟨p1, _, p3⟩ := addr_parts m.cache x hx hg
    have hbase : base_addr m.cache a + get_block_offset m.cache x = x := by
      unfold base_addr
      rw [← old_addr_of_resolved m a _ ha hg rfl, ← hs, ← ht]
      exact p1
    rw [logical_of_resident _ x _ hn1 hr', offset_after, access_data_miss m a wf wd _ hg hmiss,
      logical_of_absent m x habs]
    by_cases hw : wf ≠ 0 ∧ x = a
    · rw [if_pos hw, if_pos ⟨hw.1, by rw [hw.2]⟩]
    · rw [if_neg hw, if_neg, if_pos p3, hbase]
      · exact miss_mem_other m a wf wd x ha hx hg (habs _)
      · rintro ⟨h1, h2⟩
        exact hw ⟨h1, same_block_eq m.cache a x ha hx hg hs ht h2⟩
  · -- `x` lies in another block
    have hxa : ¬ (wf ≠ 0 ∧ x = a) := by
      rintro ⟨_, rfl⟩
      exact hsame ⟨rfl, rfl⟩
    rw [if_neg hxa]
    have hleft : ∀ j, inSet m.cache (get_set_index m.cache x) j →
        ¬ (j = (resolve m a).1 ∧ get_tag m.cache a = get_tag m.cache x) := by
      rintro j hj ⟨e, ht⟩
      rw [e, hres] at hj
      exact hsame ⟨inSet_disjoint m.cache _ _ _ hg.2.2 hj hvin, ht.symm⟩
    by_cases hrx : ∃ j, Resident m.cache x j
    · obtain ⟨j, hj⟩ := hrx
      by_cases ej : j = victim m a
      · -- the victim held the block of `x`
        subst ej
        have habs' : ∀ j, ¬ Resident (cache_access m a wf wd).2.cache x j := by
          intro j hj'
          rcases (resident_after m a wf wd x j ha hg).mp hj' with ⟨h1, (hl | ⟨ne, hv, ht⟩)⟩
          · exact hleft j h1 hl
          · rw [hres] at ne
            exact ne (hn _ _ _ h1 hj.1 hv hj.2.1 (by rw [ht, hj.2.2]))
        rw [logical_of_absent _ x habs', logical_of_resident m x _ hn hj]
        exact miss_mem_victim m a wf wd x ha hx hg hc hmiss hj
      · rw [logical_of_resident _ x j hn1
          ((resident_after m a wf wd x j ha hg).mpr
            ⟨hj.1, Or.inr ⟨by rw [hres]; exact ej, hj.2.1, hj.2.2⟩⟩),
          offset_after, access_data_other m a wf wd j ha hg (by rw [hres]; exact ej),
          logical_of_resident m x j hn hj]
    · have habs : ∀ j, ¬ Resident m.cache x j := fun j hj => hrx ⟨j, hj⟩
      have habs' : ∀ j, ¬ Resident (cache_access m a wf wd).2.cache x j := by
        intro j hj'
        rcases (resident_after m a wf wd x j ha hg).mp hj' with ⟨h1, (hl | ⟨_, hv, ht⟩)⟩
        · exact hleft j h1 hl
        · exact habs j ⟨h1, hv, ht⟩
      rw [logical_of_absent _ x habs', logical_of_absent m x habs]
      exact miss_mem_other m a wf wd x ha hx hg (habs _)

/-- One call changes the logical memory only at the address written. -/
theorem logical_step (m : Machine) (a wf wd x : Int) (ha : 0 ≤ a) (hx : 0 ≤ x)
    (hg : GeomOk m.cache) (hn : NoDupTags m.cache) (hc : Coherent m) :
    logical (cache_access m a wf wd).2 x = if wf ≠ 0 ∧ x = a then wd else logical m x := by
  cases h : is_hit m a with
  | true => exact logical_step_hit m a wf wd x ha hx hg hn h
  | false => exact logical_step_miss m a wf wd x ha hx hg hn hc h

/-- One call keeps every valid clean block equal to the backing store. -/
theorem coherent_step (m : Machine) (a wf wd : Int) (ha : 0 ≤ a) (hg : GeomOk m.cache)
    (hn : NoDupTags m.cache) (hc : Coherent m) : Coherent (cache_access m a wf wd).2 := by
  obtain ⟨g1, g2, g3⟩ := access_geom m a wf wd
  intro s2 j i hs0 hs1 hin hv hd hi0 hi1
  rw [g2] at hs1 ⊢
  rw [g1] at hi1 ⊢
  have hin0 : inSet m.cache s2 j := by unfold inSet at hin ⊢; rw [g3] at hin; exact hin
  rw [access_valid m a wf wd j ha hg] at hv
  rw [access_dirty m a wf wd j ha hg] at hd
  rw [access_tag m a wf wd j ha hg]
  have hsa := get_set_index_range m.cache a ha hg.1 hg.2.1
  by_cases ej : j = (resolve m a).1
  · rw [if_pos ej] at hd ⊢
    by_cases hw : wf ≠ 0
    · rw [if_pos hw] at hd
      exact absurd hd (by decide)
    rw [if_neg hw] at hd
    have hs2 : s2 = get_set_index m.cache a :=
      inSet_disjoint m.cache _ _ _ hg.2.2 hin0 (ej ▸ resolved_inSet m a ha hg)
    cases hh : is_hit m a with
    | true =>
      obtain ⟨_, hf2, hf3, _⟩ := resolve_hit_facts m a ha hg hh
      rw [hh, if_pos rfl] at hd
      rw [ej, access_data_hit m a wf wd i ha hg hh, if_neg (fun h => hw h.1),
        (access_hit m a wf wd ha hg hh).2.2.2.2.2.1, ← hf3]
      rw [ej] at hd hin0
      exact hc s2 _ i hs0 hs1 hin0 hf2 hd hi0 hi1
    | false =>
      have hres := (resolve_miss_facts m a hh).2.1
      rw [ej, hres, access_data_miss m a wf wd i hg hh, if_neg (fun h => hw h.1),
        if_pos ⟨hi0, hi1⟩, hs2]
      unfold base_addr
      rw [old_addr_of_resolved m a _ ha hg rfl]
  · rw [if_neg ej] at hd ⊢
    have hv0 : (m.cache.blocks j).valid ≠ 0 := hv.resolve_left ej
    rw [access_data_other m a wf wd j ha hg ej, hc s2 j i hs0 hs1 hin0 hv0 hd hi0 hi1,
      access_mem m a wf wd _ ha hg, if_neg]
    rintro ⟨hmiss, ⟨vv, _⟩, h1, h2⟩
    unfold old_addr at h1 h2
    have hres := (resolve_miss_facts m a hmiss).2.1
    obtain ⟨q1, q2, _⟩ := block_addr_inj m.cache.blockSize m.cache.numSets
      (m.cache.blocks j).tag (m.cache.blocks (victim m a)).tag s2 (get_set_index m.cache a)
      i (((m.cache.blocks j).tag * m.cache.numSets + s2) * m.cache.blockSize + i
          - ((m.cache.blocks (victim m a)).tag * m.cache.numSets + get_set_index m.cache a)
            * m.cache.blockSize)
      ⟨hs0, hs1⟩ hsa ⟨hi0, hi1⟩ ⟨by omega, by omega⟩ (by ring)
    apply ej
    rw [hres]
    exact hn s2 j _ hin0 (q2 ▸ victim_inSet m a ha hg) hv0 vv q1

theorem reachable_coherent {m : Machine} (h : Reachable m) : Coherent m := by
  induction h with
  | init st bs ns bps ws c h =>
    obtain ⟨_, _, _, hz⟩ := cache_init_ok h
    intro s j i _ _ _ hv
    exact absurd (by show (c.blocks j).valid = 0; rw [hz]; rfl) hv
  | step m a wf wd hm ha ih =>
    obtain ⟨hg, hn, _, _⟩ := reachable_invariants hm
    exact coherent_step m a wf wd ha hg hn ih

theorem read_returns_logical (m : Machine) (hm : Reachable m) (a wd : Int) (ha : 0 ≤ a) :
    (cache_access m a 0 wd).1 = logical m a := by
  obtain ⟨hg, hn, _, _⟩ := reachable_invariants hm
  have hn1 := access_NoDupTags m a 0 wd ha hg hn
  have hr : Resident (cache_access m a 0 wd).2.cache a (resolve m a).1 :=
    (resident_after m a 0 wd a _ ha hg).mpr ⟨resolved_inSet m a ha hg, Or.inl ⟨rfl, rfl⟩⟩
  rw [access_read_val, ← offset_after m a 0 wd a, ← logical_of_resident _ a _ hn1 hr,
    logical_step m a 0 wd a ha ha hg hn (reachable_coherent hm), if_neg (fun h => h.1 rfl)]

theorem logical_start (st : stateType) (bs ns bps : Int) (ws : List initWarning)
    (c : cacheStruct) (hinit : cache_init cache_global bs ns bps = Except.ok (ws, c)) (x : Int) :
    logical (start st c) x = st.mem x := by
  obtain ⟨_, _, _, hz⟩ := cache_init_ok hinit
  apply logical_of_absent
  rintro j ⟨_, hv, _⟩
  exact hv (by show (c.blocks j).valid = 0; rw [hz]; rfl)

theorem logical_run (m : Machine) (hm : Reachable m) (accs : List Access)
    (hnn : ∀ y ∈ accs, 0 ≤ y.addr) (x : Int) (hx : 0 ≤ x) :
    logical (run m accs) x = (last_written x accs).getD (logical m x) := by
  induction accs generalizing m with
  | nil => rfl
  | cons y ys ih =>
    have hy := hnn y (List.mem_cons_self _ _)
    obtain ⟨hg, hn, _, _⟩ := reachable_invariants hm
    have hm1 := Reachable.step m y.addr y.write_flag y.write_data hm hy
    show logical (run (cache_access m y.addr y.write_flag y.write_data).2 ys) x = _
    rw [ih _ hm1 (fun z hz => hnn z (List.mem_cons_of_mem _ hz)),
      logical_step m _ _ _ x hy hx hg hn (reachable_coherent hm)]
    show _ = (match last_written x ys with
      | some v => some v
      | none => if y.write_flag ≠ 0 ∧ y.addr = x then some y.write_data else none).getD _
    cases last_written x ys with
    | some v => rfl
    | none =>
      by_cases hw : y.write_flag ≠ 0 ∧ x = y.addr
      · rw [if_pos hw, if_pos ⟨hw.1, hw.2.symm⟩]; rfl
      · rw [if_neg hw, if_neg (fun h => hw ⟨h.1, h.2.symm⟩)]

/-- C19. The cache is transparent.  In a state reached from `cache_init` by
calls with non-negative addresses, and for a non-negative address: a read
returns the word of the logical memory at the address and leaves the logical
memory as it was at every non-negative address; a write of `d` leaves `d` at
the address and every other non-negative address as it was; and the logical
memory holds at each address the value last written to it through the cache,
or the initial word of the backing store when nothing was written, so that a
read returns exactly that. -/
theorem cache_transparency (st : stateType) (bs ns bps : Int) (ws : List initWarning)
    (c : cacheStruct) (hinit : cache_init cache_global bs ns bps = Except.ok (ws, c))
    (accs : List Access) (hnn : ∀ y ∈ accs, 0 ≤ y.addr) (addr : Int) (ha : 0 ≤ addr) :
    (∀ wd : Int,
      (cache_access (run (start st c) accs) addr 0 wd).1 = logical (run (start st c) accs) addr ∧
      ∀ x : Int, 0 ≤ x →
        logical (cache_access (run (start st c) accs) addr 0 wd).2 x
          = logical (run (start st c) accs) x) ∧
    (∀ d : Int,
      logical (cache_access (run (start st c) accs) addr 1 d).2 addr = d ∧
      ∀ x : Int, 0 ≤ x → x ≠ addr →
        logical (cache_access (run (start st c) accs) addr 1 d).2 x
          = logical (run (start st c) accs) x) ∧
    (∀ wd : Int,
      logical (run (start st c) accs) addr = (last_written addr accs).getD (st.mem addr) ∧
      (cache_access (run (start st c) accs) addr 0 wd).1
        = (last_written addr accs).getD (st.mem addr)) := by
  have hm0 := Reachable.init st bs ns bps ws c hinit
  have hm := run_reachable hm0 accs hnn
  obtain ⟨hg, hn, _, _⟩ := reachable_invariants hm
  have hc := reachable_coherent hm
  have hlog : logical (run (start st c) accs) addr
      = (last_written addr accs).getD (st.mem addr) := by
    rw [logical_run _ hm0 accs hnn addr ha, logical_start st bs ns bps ws c hinit]
  refine ⟨?_, ?_, ?_⟩
  · intro wd
    refine ⟨read_returns_logical _ hm addr wd ha, ?_⟩
    intro x hx
    rw [logical_step _ addr 0 wd x ha hx hg hn hc, if_neg (fun h => h.1 rfl)]
  · intro d
    refine ⟨?_, ?_⟩
    · rw [logical_step _ addr 1 d addr ha ha hg hn hc, if_pos ⟨by decide, rfl⟩]
    · intro x hx hne
      rw [logical_step _ addr 1 d x ha hx hg hn hc, if_neg (fun h => hne h.2)]
  · intro wd
    exact ⟨hlog, by rw [read_returns_logical _ hm addr wd ha, hlog]⟩

theorem cache_transparency_witness :
    (cache_access (run (start example_store (init_result 2 1 2).2)
        [⟨0, 1, 7⟩, ⟨2, 0, 0⟩, ⟨4, 0, 0⟩]) 0 0 0).1
      = (last_written 0 [⟨0, 1, 7⟩, ⟨2, 0, 0⟩, ⟨4, 0, 0⟩]).getD (example_store.mem 0) :=
  ((cache_transparency example_store 2 1 2 (init_result 2 1 2).1 (init_result 2 1 2).2 rfl
    [⟨0, 1, 7⟩, ⟨2, 0, 0⟩, ⟨4, 0, 0⟩] (by decide) 0 (by decide)).2.2 0).2

/-! ## Victim selection -/

/-- The two ways in which lines 206-220 choose a block: the first way that is
not valid, or the block of `find_lru_block` when every way is valid. -/
theorem victim_cases (m : Machine) (a : Int) (ha : 0 ≤ a) (hg : GeomOk m.cache) :
    (∃ i : Nat, find_empty m.cache (get_set_index m.cache a * m.cache.blocksPerSet) = some i ∧
        victim m a = get_set_index m.cache a * m.cache.blocksPerSet + (i : Int)) ∨
      (find_empty m.cache (get_set_index m.cache a * m.cache.blocksPerSet) = none ∧
        victim m a = find_lru_block m.cache (get_set_index m.cache a)) := by
  cases h : find_empty m.cache (get_set_index m.cache a * m.cache.blocksPerSet) with
  | some i =>
    exact Or.inl ⟨i, rfl, choose_victim_empty h (set_start_nonneg m.cache a ha hg)⟩
  | none => exact Or.inr ⟨rfl, choose_victim_full h⟩

/-- C21. In a reachable state, a miss on a non-negative address uses the block
that lines 206-220 choose, a block of the set of the address.  If the set has
a way that is not valid, the block is not valid and no block of the set with a
lower index is invalid.  If every way of the set is valid, the block is the
one that `find_lru_block` returns: its `lruLabel` is the maximum of the set,
and no block of the set with a lower index has that label. -/
theorem victim_selection (m : Machine) (hm : Reachable m) (a : Int) (ha : 0 ≤ a)
    (hmiss : is_hit m a = false) :
    (resolve m a).1 = victim m a ∧
    inSet m.cache (get_set_index m.cache a) (victim m a) ∧
    ((∃ j, inSet m.cache (get_set_index m.cache a) j ∧ (m.cache.blocks j).valid = 0) →
      (m.cache.blocks (victim m a)).valid = 0 ∧
      ∀ j, inSet m.cache (get_set_index m.cache a) j → (m.cache.blocks j).valid = 0 →
        victim m a ≤ j) ∧
    ((∀ j, inSet m.cache (get_set_index m.cache a) j → (m.cache.blocks j).valid ≠ 0) →
      victim m a = find_lru_block m.cache (get_set_index m.cache a) ∧
      (∀ j, inSet m.cache (get_set_index m.cache a) j →
        (m.cache.blocks j).lruLabel ≤ (m.cache.blocks (victim m a)).lruLabel) ∧
      (∀ j, inSet m.cache (get_set_index m.cache a) j →
        (m.cache.blocks j).lruLabel = (m.cache.blocks (victim m a)).lruLabel →
        victim m a ≤ j)) := by
  have hg := (reachable_invariants hm).1
  refine ⟨(resolve_miss_facts m a hmiss).2.1, victim_inSet m a ha hg, ?_, ?_⟩
  · rintro ⟨j0, hj0, hv0⟩
    rcases victim_cases m a ha hg with ⟨i, hi, hv⟩ | ⟨hnone, _⟩
    · obtain ⟨_, e2, e3⟩ := find_empty_some hi
      rw [hv]
      refine ⟨e2, ?_⟩
      intro j hj hjv
      obtain ⟨w, _, rfl⟩ := (inSet_iff_way m.cache _ j).mp hj
      by_contra hlt
      have : w < i := by omega
      exact e3 w this hjv
    · obtain ⟨w, hw, rfl⟩ := (inSet_iff_way m.cache _ j0).mp hj0
      exact absurd hv0 (find_empty_none hnone w hw)
  · intro hall
    rcases victim_cases m a ha hg with ⟨i, hi, _⟩ | ⟨_, hv⟩
    · obtain ⟨e1, e2, _⟩ := find_empty_some hi
      exact absurd e2 (hall _ (inSet_way m.cache _ i e1))
    · obtain ⟨w, _, e2, _, e4, e5⟩ := find_lru_block_spec m.cache (get_set_index m.cache a) hg.2.2
      rw [hv, e2]
      refine ⟨rfl, ?_, ?_⟩
      · intro j hj
        obtain ⟨i, hi, rfl⟩ := (inSet_iff_way m.cache _ j).mp hj
        exact e4 i hi (Or.inr (hall _ hj))
      · intro j hj hl
        obtain ⟨i, hi, rfl⟩ := (inSet_iff_way m.cache _ j).mp hj
        by_contra hlt
        have hiw : i < w := by omega
        have := e5 i hiw (Or.inr (hall _ hj))
        omega

theorem victim_selection_witness :
    (resolve (run example_assoc [⟨0, 0, 0⟩, ⟨2, 0, 0⟩, ⟨0, 0, 0⟩]) 4).1 = 1 ∧
      victim (run example_assoc [⟨0, 0, 0⟩, ⟨2, 0, 0⟩, ⟨0, 0, 0⟩]) 4 = 1 ∧
      victim (run example_assoc [⟨0, 0, 0⟩]) 4 = 1 := by
  have h1 := victim_selection (run example_assoc [⟨0, 0, 0⟩, ⟨2, 0, 0⟩, ⟨0, 0, 0⟩])
    (run_reachable example_assoc_reachable _ (by decide)) 4 (by decide) (by decide)
  refine ⟨h1.1.trans (by decide), by decide, by decide⟩

/-! ## Labels rank the valid blocks of a set by last use -/

/-- The label of a valid block other than the resolved one, after a call. -/
theorem label_other (m : Machine) (a wf wd s j : Int) (ha : 0 ≤ a) (hg : GeomOk m.cache)
    (hj : j ≠ (resolve m a).1) (hin : inSet m.cache s j) (hv : (m.cache.blocks j).valid ≠ 0) :
    ((cache_access m a wf wd).2.cache.blocks j).lruLabel
      = (m.cache.blocks j).lruLabel + (if s = get_set_index m.cache a then 1 else 0) := by
  rw [access_label m a wf wd j ha hg, if_neg hj]
  by_cases hs : s = get_set_index m.cache a
  · rw [if_pos ⟨hs ▸ hin, hv⟩, if_pos hs]
  · rw [if_neg (fun h => hs (inSet_disjoint m.cache _ _ _ hg.2.2 hin h.1)), if_neg hs]
    ring

/-- One call keeps the ranking, with the resolved block as the latest use. -/
theorem access_Ranked (m : Machine) (a wf wd : Int) (ha : 0 ≤ a) (hg : GeomOk m.cache)
    (hl : LabelsNonneg m.cache) (k : Nat) (T : Int → Option Nat) (h : Ranked m.cache k T) :
    Ranked (cache_access m a wf wd).2.cache (k + 1)
      (fun j => if (resolve m a).1 = j then some k else T j) := by
  obtain ⟨h1, h2, h3⟩ := h
  obtain ⟨_, _, g3⟩ := access_geom m a wf wd
  have hin0 : ∀ s j, inSet (cache_access m a wf wd).2.cache s j → inSet m.cache s j := by
    intro s j hj
    unfold inSet at hj ⊢
    rw [g3] at hj
    exact hj
  have hfin := resolved_inSet m a ha hg
  have hf0 : ((cache_access m a wf wd).2.cache.blocks (resolve m a).1).lruLabel = 0 :=
    (access_blocks_self m a wf wd ha hg).2.2.1
  have hold : ∀ j, j ≠ (resolve m a).1 →
      ((cache_access m a wf wd).2.cache.blocks j).valid ≠ 0 → (m.cache.blocks j).valid ≠ 0 := by
    intro j hj hv
    rcases (access_valid m a wf wd j ha hg).mp hv with e | e
    · exact absurd e hj
    · exact e
  have htime : ∀ j t, (m.cache.blocks j).valid ≠ 0 → T j = some t → t < k := by
    intro j t hv ht
    obtain ⟨t', e1, e2⟩ := h1 j hv
    rw [e1] at ht
    cases ht
    exact e2
  refine ⟨?_, ?_, ?_⟩
  · intro j hv
    by_cases hj : (resolve m a).1 = j
    · exact ⟨k, if_pos hj, Nat.lt_succ_self k⟩
    · obtain ⟨t, e1, e2⟩ := h1 j (hold j (fun e => hj e.symm) hv)
      exact ⟨t, (if_neg hj).trans e1, Nat.lt_succ_of_lt e2⟩
  · intro s x y hx hy hvx hvy tx ty etx ety
    replace etx : (if (resolve m a).1 = x then some k else T x) = some tx := etx
    replace ety : (if (resolve m a).1 = y then some k else T y) = some ty := ety
    have hx0 := hin0 s x hx
    have hy0 := hin0 s y hy
    by_cases ex : (resolve m a).1 = x
    · by_cases ey : (resolve m a).1 = y
      · rw [if_pos ex] at etx
        rw [if_pos ey] at ety
        cases etx
        cases ety
        rw [← ex, ← ey]
        simp
      · rw [if_pos ex] at etx
        rw [if_neg ey] at ety
        cases etx
        have hvy0 := hold y (fun e => ey e.symm) hvy
        have hs : s = get_set_index m.cache a :=
          inSet_disjoint m.cache _ _ _ hg.2.2 hx0 (ex ▸ hfin)
        have ly := label_other m a wf wd s y ha hg (fun e => ey e.symm) hy0 hvy0
        rw [if_pos hs] at ly
        have := hl y
        have ht := htime y ty hvy0 ety
        rw [← ex, hf0, ly]
        constructor
        · exact fun _ => ht
        · intro _; omega
    · by_cases ey : (resolve m a).1 = y
      · rw [if_neg ex] at etx
        rw [if_pos ey] at ety
        cases ety
        have hvx0 := hold x (fun e => ex e.symm) hvx
        have lx := label_other m a wf wd s x ha hg (fun e => ex e.symm) hx0 hvx0
        have := hl x
        have ht := htime x tx hvx0 etx
        rw [← ey, hf0, lx]
        constructor
        · intro h; split_ifs at h <;> omega
        · intro h; omega
      · rw [if_neg ex] at etx
        rw [if_neg ey] at ety
        have hvx0 := hold x (fun e => ex e.symm) hvx
        have hvy0 := hold y (fun e => ey e.symm) hvy
        rw [label_other m a wf wd s x ha hg (fun e => ex e.symm) hx0 hvx0,
          label_other m a wf wd s y ha hg (fun e => ey e.symm) hy0 hvy0,
          ← h2 s x y hx0 hy0 hvx0 hvy0 tx ty etx ety]
        constructor <;> intro h <;> linarith
  · intro s x y hx hy hvx hvy hlab
    have hx0 := hin0 s x hx
    have hy0 := hin0 s y hy
    by_cases ex : (resolve m a).1 = x
    · by_cases ey : (resolve m a).1 = y
      · rw [← ex, ← ey]
      · exfalso
        have hvy0 := hold y (fun e => ey e.symm) hvy
        have hs : s = get_set_index m.cache a :=
          inSet_disjoint m.cache _ _ _ hg.2.2 hx0 (ex ▸ hfin)
        have ly := label_other m a wf wd s y ha hg (fun e => ey e.symm) hy0 hvy0
        rw [if_pos hs] at ly
        have := hl y
        rw [← ex, hf0, ly] at hlab
        omega
    · by_cases ey : (resolve m a).1 = y
      · exfalso
        have hvx0 := hold x (fun e => ex e.symm) hvx
        have hs : s = get_set_index m.cache a :=
          inSet_disjoint m.cache _ _ _ hg.2.2 hy0 (ey ▸ hfin)
        have lx := label_other m a wf wd s x ha hg (fun e => ex e.symm) hx0 hvx0
        rw [if_pos hs] at lx
        have := hl x
        rw [← ey, hf0, lx] at hlab
        omega
      · have hvx0 := hold x (fun e => ex e.symm) hvx
        have hvy0 := hold y (fun e => ey e.symm) hvy
        rw [label_other m a wf wd s x ha hg (fun e => ex e.symm) hx0 hvx0,
          label_other m a wf wd s y ha hg (fun e => ey e.symm) hy0 hvy0] at hlab
        exact h3 s x y hx0 hy0 hvx0 hvy0 (by linarith)

/-- A run keeps the ranking. -/
theorem run_Ranked (accs : List Access) (m : Machine) (hm : Reachable m)
    (hnn : ∀ x ∈ accs, 0 ≤ x.addr) (k : Nat) (T : Int → Option Nat)
    (h : Ranked m.cache k T) :
    Ranked (run m accs).cache (k + accs.length) (fun j => last_use j m accs k (T j)) := by
  induction accs generalizing m k T with
  | nil => exact h
  | cons x xs ih =>
    have hx := hnn x (List.mem_cons_self _ _)
    obtain ⟨hg, _, _, hl⟩ := reachable_invariants hm
    have hm1 := Reachable.step m x.addr x.write_flag x.write_data hm hx
    have hstep := access_Ranked m x.addr x.write_flag x.write_data hx hg hl k T h
    have := ih _ hm1 (fun y hy => hnn y (List.mem_cons_of_mem _ hy)) (k + 1) _ hstep
    have e : k + (x :: xs).length = k + 1 + xs.length := by
      simp only [List.length_cons]; omega
    rw [e]
    exact this

/-- The effect of `update_lru` on every block, for every cache. -/
theorem update_lru_effect (c : cacheStruct) (s w j : Int) :
    (update_lru c s w).blocks j
      = if j = w then { c.blocks w with lruLabel := 0 }
        else if inSet c s j ∧ (c.blocks j).valid ≠ 0 then
          { c.blocks j with lruLabel := (c.blocks j).lruLabel + 1 }
        else c.blocks j := by
  rw [update_lru_blocks]
  have hiff : (s * c.blocksPerSet ≤ j ∧ j < s * c.blocksPerSet + (c.blocksPerSet.toNat : Int))
      ↔ inSet c s j := by
    unfold inSet
    constructor <;> rintro ⟨h1, h2⟩ <;> exact ⟨h1, by omega⟩
  simp only [hiff]

/-- C22. After a successful `cache_init` and calls of `cache_access` with
non-negative addresses, two valid blocks of one set with the same `lruLabel`
are the same block; every valid block has been resolved to by some call, and
of two valid blocks `x` and `y` of one set, `x` has the smaller label exactly
when the last call that resolved to `x` came after the last call that
resolved to `y`.
And `update_lru(set, w)` sets the label of `w` to 0, adds 1 to the label of
every other valid block of the set and changes nothing else. -/
theorem labels_rank_by_last_use (st : stateType) (bs ns bps : Int) (ws : List initWarning)
    (c : cacheStruct) (hinit : cache_init cache_global bs ns bps = Except.ok (ws, c))
    (accs : List Access) (hnn : ∀ x ∈ accs, 0 ≤ x.addr) :
    (∀ s x y : Int, inSet (run (start st c) accs).cache s x →
      inSet (run (start st c) accs).cache s y →
      ((run (start st c) accs).cache.blocks x).valid ≠ 0 →
      ((run (start st c) accs).cache.blocks y).valid ≠ 0 →
      (((run (start st c) accs).cache.blocks x).lruLabel
          = ((run (start st c) accs).cache.blocks y).lruLabel → x = y) ∧
      ∃ tx ty : Nat, last_use x (start st c) accs 0 none = some tx ∧
        last_use y (start st c) accs 0 none = some ty ∧
        (((run (start st c) accs).cache.blocks x).lruLabel
            < ((run (start st c) accs).cache.blocks y).lruLabel ↔ ty < tx)) ∧
    (∀ (c0 : cacheStruct) (s w j : Int),
      (update_lru c0 s w).blocks j
        = if j = w then { c0.blocks w with lruLabel := 0 }
          else if inSet c0 s j ∧ (c0.blocks j).valid ≠ 0 then
            { c0.blocks j with lruLabel := (c0.blocks j).lruLabel + 1 }
          else c0.blocks j) := by
  refine ⟨?_, update_lru_effect⟩
  have hm := Reachable.init st bs ns bps ws c hinit
  obtain ⟨_, _, _, hz⟩ := cache_init_ok hinit
  have h0 : Ranked (start st c).cache 0 (fun _ => none) := by
    have hinv : ∀ j, ¬ ((start st c).cache.blocks j).valid ≠ 0 := by
      intro j
      show ¬ (c.blocks j).valid ≠ 0
      rw [hz]
      simp [block_zero]
    exact ⟨fun j hv => absurd hv (hinv j), fun s x y _ _ hv => absurd hv (hinv x),
      fun s x y _ _ hv => absurd hv (hinv x)⟩
  obtain ⟨r1, r2, r3⟩ := run_Ranked accs _ hm hnn 0 _ h0
  intro s x y hx hy hvx hvy
  obtain ⟨tx, etx, _⟩ := r1 x hvx
  obtain ⟨ty, ety, _⟩ := r1 y hvy
  exact ⟨r3 s x y hx hy hvx hvy, tx, ty, etx, ety, r2 s x y hx hy hvx hvy tx ty etx ety⟩

theorem labels_rank_by_last_use_witness :
    last_use 0 example_assoc [⟨0, 0, 0⟩, ⟨2, 0, 0⟩, ⟨0, 0, 0⟩] 0 none = some 2 ∧
      last_use 1 example_assoc [⟨0, 0, 0⟩, ⟨2, 0, 0⟩, ⟨0, 0, 0⟩] 0 none = some 1 ∧
      ((run example_assoc [⟨0, 0, 0⟩, ⟨2, 0, 0⟩, ⟨0, 0, 0⟩]).cache.blocks 0).lruLabel = 0 ∧
      ((run example_assoc [⟨0, 0, 0⟩, ⟨2, 0, 0⟩, ⟨0, 0, 0⟩]).cache.blocks 1).lruLabel = 1 ∧
      (((run (start example_store (init_result 2 1 2).2)
            [⟨0, 0, 0⟩, ⟨2, 0, 0⟩, ⟨0, 0, 0⟩]).cache.blocks 0).lruLabel
          = ((run (start example_store (init_result 2 1 2).2)
            [⟨0, 0, 0⟩, ⟨2, 0, 0⟩, ⟨0, 0, 0⟩]).cache.blocks 1).lruLabel → (0 : Int) = 1) :=
  ⟨by decide, by decide, by decide, by decide,
    ((labels_rank_by_last_use example_store 2 1 2 (init_result 2 1 2).1 (init_result 2 1 2).2 rfl
      [⟨0, 0, 0⟩, ⟨2, 0, 0⟩, ⟨0, 0, 0⟩] (by decide)).1 0 0 1 (by decide) (by decide)
      (by decide) (by decide)).1⟩

/-! ## The block that a miss fetches -/

/-- The base address of line 241, from the parts of the address. -/
theorem base_addr_parts (c : cacheStruct) (a : Int) (ha : 0 ≤ a) (hg : GeomOk c) :
    base_addr c a = (get_tag c a * c.numSets + get_set_index c a) * c.blockSize := by
  unfold base_addr
  have hb := get_block_offset_eq c a ha hg.1
  have h1 := base_of_addr c a ha hg
  rw [h1, hb]
  have : Int.tdiv a c.blockSize = a / c.blockSize :=
    Int.tdiv_eq_ediv ha (le_of_lt hg.1)
  rw [this]
  have := Int.emod_add_ediv a c.blockSize
  linarith [mul_comm c.blockSize (a / c.blockSize)]

/-- On a miss, a valid victim carries a tag other than the tag of the address. -/
theorem victim_tag_ne (m : Machine) (a : Int) (ha : 0 ≤ a) (hg : GeomOk m.cache)
    (hmiss : is_hit m a = false) (hv : (m.cache.blocks (victim m a)).valid ≠ 0) :
    (m.cache.blocks (victim m a)).tag ≠ get_tag m.cache a :=
  (resolve_miss_facts m a hmiss).1 _ (victim_inSet m a ha hg) hv

/-- Two blocks of one set with different tags lie a block apart or more. -/
theorem block_ranges_apart (bs ns t1 t2 s : Int) (hb : 0 < bs) (hn : 0 < ns) (ht : t1 ≠ t2) :
    (t1 * ns + s) * bs + bs ≤ (t2 * ns + s) * bs ∨ (t2 * ns + s) * bs + bs ≤ (t1 * ns + s) * bs := by
  rcases lt_or_gt_of_ne ht with h | h
  · left
    have h1 : t1 + 1 ≤ t2 := h
    have h2 : (t1 + 1) * ns ≤ t2 * ns := Int.mul_le_mul_of_nonneg_right h1 (le_of_lt hn)
    have h3 : t1 * ns + s + 1 ≤ t2 * ns + s := by nlinarith
    have h4 : (t1 * ns + s + 1) * bs ≤ (t2 * ns + s) * bs :=
      Int.mul_le_mul_of_nonneg_right h3 (le_of_lt hb)
    nlinarith
  · right
    have h1 : t2 + 1 ≤ t1 := h
    have h2 : (t2 + 1) * ns ≤ t1 * ns := Int.mul_le_mul_of_nonneg_right h1 (le_of_lt hn)
    have h3 : t2 * ns + s + 1 ≤ t1 * ns + s := by nlinarith
    have h4 : (t2 * ns + s + 1) * bs ≤ (t1 * ns + s) * bs :=
      Int.mul_le_mul_of_nonneg_right h3 (le_of_lt hb)
    nlinarith

/-- C24. In a reachable state, on a miss with a valid victim, the range of
`blockSize` words from `old_addr` (the victim) and the range of `blockSize`
words from `base_addr` (the fill) have no address in common: one range ends
before the other begins. -/
theorem evict_fill_disjoint (m : Machine) (hm : Reachable m) (a : Int) (ha : 0 ≤ a)
    (hmiss : is_hit m a = false) (hv : (m.cache.blocks (victim m a)).valid ≠ 0) :
    (old_addr m.cache (get_set_index m.cache a) (victim m a) + m.cache.blockSize
        ≤ base_addr m.cache a ∨
      base_addr m.cache a + m.cache.blockSize
        ≤ old_addr m.cache (get_set_index m.cache a) (victim m a)) ∧
    (∀ i k : Int, 0 ≤ i → i < m.cache.blockSize → 0 ≤ k → k < m.cache.blockSize →
      old_addr m.cache (get_set_index m.cache a) (victim m a) + i ≠ base_addr m.cache a + k) := by
  have hg := (reachable_invariants hm).1
  have hne := victim_tag_ne m a ha hg hmiss hv
  have hapart := block_ranges_apart m.cache.blockSize m.cache.numSets
    (m.cache.blocks (victim m a)).tag (get_tag m.cache a) (get_set_index m.cache a)
    hg.1 hg.2.1 hne
  have hbase := base_addr_parts m.cache a ha hg
  have hold : old_addr m.cache (get_set_index m.cache a) (victim m a)
      = ((m.cache.blocks (victim m a)).tag * m.cache.numSets + get_set_index m.cache a)
        * m.cache.blockSize := rfl
  rw [hbase, hold]
  refine ⟨hapart, ?_⟩
  intro i k hi0 hi1 hk0 hk1
  rcases hapart with h | h <;> omega

theorem evict_fill_disjoint_witness :
    old_addr (cache_access example_direct 0 1 7).2.cache 0 0 = 0 ∧
      base_addr (cache_access example_direct 0 1 7).2.cache 8 = 8 ∧
      (old_addr (cache_access example_direct 0 1 7).2.cache
            (get_set_index (cache_access example_direct 0 1 7).2.cache 8)
            (victim (cache_access example_direct 0 1 7).2 8)
          + (cache_access example_direct 0 1 7).2.cache.blockSize
          ≤ base_addr (cache_access example_direct 0 1 7).2.cache 8 ∨
        base_addr (cache_access example_direct 0 1 7).2.cache 8
          + (cache_access example_direct 0 1 7).2.cache.blockSize
          ≤ old_addr (cache_access example_direct 0 1 7).2.cache
            (get_set_index (cache_access example_direct 0 1 7).2.cache 8)
            (victim (cache_access example_direct 0 1 7).2 8)) :=
  ⟨by decide, by decide,
    (evict_fill_disjoint (cache_access example_direct 0 1 7).2
      (Reachable.step _ 0 1 7 example_direct_reachable (by decide)) 8 (by decide) (by decide)
      (by decide)).1⟩

/-- C23. In a reachable state, a read of a non-negative address that misses
leaves the resolved block valid, with the tag of the address and `dirty = 0`;
word `i` of the block, for `0 ≤ i < blockSize`, is the word of the backing
store at `base_addr + i`, after the call and before it alike, where
`base_addr = (addr / blockSize) * blockSize` is also
`(get_tag(addr) * numSets + get_set_index(addr)) * blockSize`; and the call
returns the word of the backing store at `addr`. -/
theorem miss_fill_read (m : Machine) (hm : Reachable m) (a wd : Int) (ha : 0 ≤ a)
    (hmiss : is_hit m a = false) :
    ((cache_access m a 0 wd).2.cache.blocks (resolve m a).1).valid ≠ 0 ∧
    ((cache_access m a 0 wd).2.cache.blocks (resolve m a).1).tag = get_tag m.cache a ∧
    ((cache_access m a 0 wd).2.cache.blocks (resolve m a).1).dirty = 0 ∧
    (∀ i : Int, 0 ≤ i → i < m.cache.blockSize →
      ((cache_access m a 0 wd).2.cache.blocks (resolve m a).1).data i
          = (cache_access m a 0 wd).2.state.mem (base_addr m.cache a + i) ∧
        (cache_access m a 0 wd).2.state.mem (base_addr m.cache a + i)
          = m.state.mem (base_addr m.cache a + i)) ∧
    (base_addr m.cache a = Int.tdiv a m.cache.blockSize * m.cache.blockSize ∧
      base_addr m.cache a
        = (get_tag m.cache a * m.cache.numSets + get_set_index m.cache a) * m.cache.blockSize) ∧
    (cache_access m a 0 wd).1 = (cache_access m a 0 wd).2.state.mem a ∧
    (cache_access m a 0 wd).1 = m.state.mem a := by
  have hg := (reachable_invariants hm).1
  obtain ⟨s1, s2, _, s4⟩ := access_blocks_self m a 0 wd ha hg
  have hres := (resolve_miss_facts m a hmiss).2.1
  have hbase := base_addr_parts m.cache a ha hg
  obtain ⟨p1, p2, p3⟩ := addr_parts m.cache a ha hg
  have hbase0 : 0 ≤ base_addr m.cache a :=
    mul_nonneg (Int.tdiv_nonneg ha (le_of_lt hg.1)) (le_of_lt hg.1)
  have hkeep : ∀ i : Int, 0 ≤ i → i < m.cache.blockSize →
      (cache_access m a 0 wd).2.state.mem (base_addr m.cache a + i)
        = m.state.mem (base_addr m.cache a + i) := by
    intro i hi0 hi1
    apply miss_mem_other m a 0 wd _ ha (by omega) hg
    rintro ⟨_, r2, r3⟩
    have hparts := in_block_parts m.cache (base_addr m.cache a + i) (get_tag m.cache a)
      (get_set_index m.cache a) (by omega) hg p2 (by rw [hbase]; omega) (by rw [hbase]; omega)
    rw [hparts.1] at r3
    exact victim_tag_ne m a ha hg hmiss r2 r3
  have hdata : ∀ i : Int, 0 ≤ i → i < m.cache.blockSize →
      ((cache_access m a 0 wd).2.cache.blocks (resolve m a).1).data i
        = (cache_access m a 0 wd).2.state.mem (base_addr m.cache a + i) := by
    intro i hi0 hi1
    rw [hres, access_data_miss m a 0 wd i hg hmiss, if_neg (fun h => h.1 rfl),
      if_pos ⟨hi0, hi1⟩]
  have hoff : base_addr m.cache a + get_block_offset m.cache a = a := by
    rw [hbase]; exact p1
  have hret : (cache_access m a 0 wd).1 = (cache_access m a 0 wd).2.state.mem a := by
    rw [access_read_val, hdata _ p3.1 p3.2, hoff]
  refine ⟨s1, s2, ?_, fun i hi0 hi1 => ⟨hdata i hi0 hi1, hkeep i hi0 hi1⟩, ⟨rfl, hbase⟩,
    hret, ?_⟩
  · rw [s4, if_neg (fun h => h rfl), hmiss]
    rfl
  · rw [hret]
    have := hkeep _ p3.1 p3.2
    rw [hoff] at this
    exact this

theorem miss_fill_read_witness :
    (cache_access example_direct 6 0 0).1 = 106 :=
  ((miss_fill_read example_direct example_direct_reachable 6 0 (by decide) (by decide)).2.2.2.2.2.2).trans
    (by decide)

/-! ## Valid ways come first -/

/-- Counting a predicate that holds exactly below `cnt`. -/
theorem count_below (p : Nat → Bool) (cnt n : Nat)
    (h : ∀ i : Nat, i < n → (p i = true ↔ i < cnt)) :
    (List.range n).countP p = min cnt n := by
  induction n with
  | zero => simp
  | succ n ih =>
    rw [List.range_succ, List.countP_append, ih (fun i hi => h i (by omega))]
    simp only [List.countP_cons, List.countP_nil, Nat.zero_add]
    by_cases hn : n < cnt
    · rw [if_pos ((h n (by omega)).mpr hn)]
      omega
    · have : ¬ (p n = true) := fun hp => hn ((h n (by omega)).mp hp)
      rw [if_neg this]
      omega

/-- A block that a call resolves and that was not valid is the first way of
its set that was not valid. -/
theorem resolved_invalid_first (m : Machine) (a : Int) (ha : 0 ≤ a) (hg : GeomOk m.cache)
    (hv : (m.cache.blocks (resolve m a).1).valid = 0) :
    ∃ i : Nat, i < m.cache.blocksPerSet.toNat ∧
      (resolve m a).1 = get_set_index m.cache a * m.cache.blocksPerSet + (i : Int) ∧
      (m.cache.blocks (get_set_index m.cache a * m.cache.blocksPerSet + (i : Int))).valid = 0 ∧
      ∀ j : Nat, j < i →
        (m.cache.blocks (get_set_index m.cache a * m.cache.blocksPerSet + (j : Int))).valid ≠ 0 := by
  cases hh : is_hit m a with
  | true => exact absurd hv (resolve_hit_facts m a ha hg hh).2.1
  | false =>
    have hres := (resolve_miss_facts m a hh).2.1
    rw [hres] at hv ⊢
    rcases victim_cases m a ha hg with ⟨i, hi, hvi⟩ | ⟨hnone, _⟩
    · obtain ⟨e1, e2, e3⟩ := find_empty_some hi
      exact ⟨i, e1, hvi, e2, e3⟩
    · obtain ⟨w, hw, e⟩ := (inSet_iff_way m.cache _ _).mp (victim_inSet m a ha hg)
      rw [e] at hv
      exact absurd hv (find_empty_none hnone w hw)

/-- One call keeps the valid ways of every set the first ways of the set. -/
theorem access_ValidFirst (m : Machine) (a wf wd : Int) (ha : 0 ≤ a) (hg : GeomOk m.cache)
    (hp : ValidFirst m.cache) : ValidFirst (cache_access m a wf wd).2.cache := by
  obtain ⟨_, _, g3⟩ := access_geom m a wf wd
  intro s
  rw [g3]
  obtain ⟨cnt, hc1, hc2⟩ := hp s
  by_cases hv : (m.cache.blocks (resolve m a).1).valid ≠ 0
  · refine ⟨cnt, hc1, fun i hi => ?_⟩
    rw [access_valid m a wf wd _ ha hg, ← hc2 i hi]
    constructor
    · rintro (h | h)
      · rw [h]; exact hv
      · exact h
    · exact fun h => Or.inr h
  · have hv0 : (m.cache.blocks (resolve m a).1).valid = 0 := not_not.mp hv
    obtain ⟨i0, hi0, hf, hinv, hbelow⟩ := resolved_invalid_first m a ha hg hv0
    by_cases hs : s = get_set_index m.cache a
    · subst hs
      have hcnt : cnt = i0 := by
        have h1 : ¬ i0 < cnt := fun h => ((hc2 i0 hi0).mpr h) hinv
        by_contra hne
        have h2 : cnt < i0 := by omega
        have := (hc2 cnt (by omega)).mp (hbelow cnt h2)
        omega
      refine ⟨i0 + 1, by omega, fun i hi => ?_⟩
      rw [access_valid m a wf wd _ ha hg, hc2 i hi, hf, hcnt]
      constructor
      · rintro (h | h) <;> omega
      · intro h
        by_cases e : i = i0
        · left; rw [e]
        · right; omega
    · refine ⟨cnt, hc1, fun i hi => ?_⟩
      rw [access_valid m a wf wd _ ha hg, ← hc2 i hi]
      constructor
      · rintro (h | h)
        · exfalso
          have h1 := inSet_way m.cache s i hi
          rw [h] at h1
          exact hs (inSet_disjoint m.cache _ _ _ hg.2.2 h1 (resolved_inSet m a ha hg))
        · exact h
      · exact fun h => Or.inr h

/-- In every reachable state the valid ways of every set come first. -/
theorem reachable_ValidFirst {m : Machine} (h : Reachable m) : ValidFirst m.cache := by
  induction h with
  | init st bs ns bps ws c hinit =>
    obtain ⟨_, _, _, hz⟩ := cache_init_ok hinit
    intro s
    refine ⟨0, Nat.zero_le _, fun i _ => ?_⟩
    show ((c.blocks _).valid ≠ 0 ↔ i < 0)
    rw [hz]
    simp [block_zero]
  | step m a wf wd hm ha ih =>
    exact access_ValidFirst m a wf wd ha (reachable_invariants hm).1 ih

/-- C25. In a reachable state, way `i` of a set is valid exactly when `i` is
below the number of valid ways of the set, so the valid ways are the first
ways of the set; and a call of `cache_access` with a non-negative address leaves every
valid block valid, so that the number of valid ways of a set does not go
down. -/
theorem valid_ways_contiguous (m : Machine) (hm : Reachable m) :
    (∀ (s : Int) (i : Nat), i < m.cache.blocksPerSet.toNat →
      ((m.cache.blocks (s * m.cache.blocksPerSet + (i : Int))).valid ≠ 0
        ↔ i < valid_count m.cache s)) ∧
    (∀ a wf wd : Int, 0 ≤ a →
      (∀ j : Int, (m.cache.blocks j).valid ≠ 0 →
        ((cache_access m a wf wd).2.cache.blocks j).valid ≠ 0) ∧
      (∀ s : Int, valid_count m.cache s ≤ valid_count (cache_access m a wf wd).2.cache s)) := by
  have hg := (reachable_invariants hm).1
  refine ⟨?_, ?_⟩
  · intro s i hi
    obtain ⟨cnt, hc1, hc2⟩ := reachable_ValidFirst hm s
    have : valid_count m.cache s = cnt := by
      unfold valid_count
      rw [count_below _ cnt _ (fun k hk => by
        rw [decide_eq_true_eq]; exact hc2 k hk)]
      omega
    rw [this]
    exact hc2 i hi
  · intro a wf wd ha
    have hkeep : ∀ j : Int, (m.cache.blocks j).valid ≠ 0 →
        ((cache_access m a wf wd).2.cache.blocks j).valid ≠ 0 :=
      fun j hj => (access_valid m a wf wd j ha hg).mpr (Or.inr hj)
    refine ⟨hkeep, fun s => ?_⟩
    unfold valid_count
    rw [(access_geom m a wf wd).2.2]
    apply List.countP_mono_left
    intro i _ hi
    rw [decide_eq_true_eq] at hi ⊢
    exact hkeep _ hi

theorem valid_ways_contiguous_witness :
    valid_count (cache_access example_assoc 0 0 0).2.cache 0 = 1 ∧
      valid_count (cache_access example_assoc 0 0 0).2.cache 0
        ≤ valid_count (cache_access (cache_access example_assoc 0 0 0).2 2 0 0).2.cache 0 :=
  ⟨by decide,
    ((valid_ways_contiguous (cache_access example_assoc 0 0 0).2
      (Reachable.step _ 0 0 0 example_assoc_reachable (by decide))).2 2 0 0 (by decide)).2 0⟩

/-! ## What a call leaves alone -/

/-- A hit keeps the valid flag of every block. -/
theorem hit_valid_eq (m : Machine) (a wf wd j : Int) (ha : 0 ≤ a) (hg : GeomOk m.cache)
    (h : is_hit m a = true) :
    ((cache_access m a wf wd).2.cache.blocks j).valid = (m.cache.blocks j).valid := by
  by_cases hj : j = (resolve m a).1
  · rw [access_blocks, if_pos hj, (resolve_hit_facts m a ha hg h).2.2.2, ← hj]
    split_ifs <;> rfl
  · rw [access_blocks_other m a wf wd j ha hg hj]
    split_ifs <;> rfl

/-- C26. In a reachable state a call of `cache_access` with a non-negative
address keeps `blockSize`, `numSets` and `blocksPerSet`, and keeps every block
that does not belong to the set of the address, in all its fields; a hit keeps
the valid flag and the tag of every block. -/
theorem access_frame (m : Machine) (hm : Reachable m) (a wf wd : Int) (ha : 0 ≤ a) :
    ((cache_access m a wf wd).2.cache.blockSize = m.cache.blockSize ∧
      (cache_access m a wf wd).2.cache.numSets = m.cache.numSets ∧
      (cache_access m a wf wd).2.cache.blocksPerSet = m.cache.blocksPerSet) ∧
    (∀ j : Int, ¬ inSet m.cache (get_set_index m.cache a) j →
      (cache_access m a wf wd).2.cache.blocks j = m.cache.blocks j) ∧
    (is_hit m a = true → ∀ j : Int,
      ((cache_access m a wf wd).2.cache.blocks j).valid = (m.cache.blocks j).valid ∧
      ((cache_access m a wf wd).2.cache.blocks j).tag = (m.cache.blocks j).tag) := by
  have hg := (reachable_invariants hm).1
  refine ⟨access_geom m a wf wd, ?_, ?_⟩
  · intro j hj
    have hne : j ≠ (resolve m a).1 := by
      intro e
      exact hj (e ▸ resolved_inSet m a ha hg)
    rw [access_blocks_other m a wf wd j ha hg hne, if_neg (fun h => hj h.1)]
  · intro hhit j
    refine ⟨hit_valid_eq m a wf wd j ha hg hhit, ?_⟩
    rw [access_tag m a wf wd j ha hg]
    by_cases hj : j = (resolve m a).1
    · rw [if_pos hj, hj, (resolve_hit_facts m a ha hg hhit).2.2.1]
    · rw [if_neg hj]

theorem access_frame_witness :
    (cache_access (cache_access example_direct 0 1 7).2 4 0 0).2.cache.blocks 0
      = (cache_access example_direct 0 1 7).2.cache.blocks 0 :=
  (access_frame (cache_access example_direct 0 1 7).2
    (Reachable.step _ 0 1 7 example_direct_reachable (by decide)) 4 0 0 (by decide)).2.1 0
    (by decide)

/-! ## Dirty blocks and write-backs against writes -/

/-- The loop of `printStats` counts: its result is the start value plus the
number of indices that pass the test. -/
theorem count_loop (p : Nat → Prop) [DecidablePred p] (l : List Nat) (init : Int) :
    l.foldl (fun (acc : Int) (i : Nat) => if p i then acc + 1 else acc) init
      = init + ((l.countP (fun i => decide (p i)) : Nat) : Int) := by
  induction l generalizing init with
  | nil => simp
  | cons x xs ih =>
    rw [List.foldl_cons, ih, List.countP_cons]
    by_cases hx : p x
    · simp only [if_pos hx, decide_eq_true_eq]
      push_cast
      ring
    · simp only [if_neg hx, decide_eq_true_eq]
      push_cast
      ring

/-- The counter of `printStats` is the number of valid dirty blocks among the
indices of its loop. -/
theorem dirtyBlocks_eq (c : cacheStruct) :
    dirtyBlocks c
      = (dirty_among c ((List.range (wrap32 (c.numSets * c.blocksPerSet)).toNat).map
          (fun (i : Nat) => (i : Int))) : Nat) := by
  unfold dirtyBlocks dirty_among
  rw [count_loop (fun (i : Nat) => (c.blocks (i : Int)).valid ≠ 0 ∧ (c.blocks (i : Int)).dirty ≠ 0),
    List.countP_map, zero_add]
  rfl

/-- Splitting the count at a member of a list without repetition. -/
theorem dirty_among_erase (c : cacheStruct) (L : List Int) (f : Int) (hf : f ∈ L) :
    dirty_among c L
      = dirty_among c (L.erase f)
        + (if (c.blocks f).valid ≠ 0 ∧ (c.blocks f).dirty ≠ 0 then 1 else 0) := by
  unfold dirty_among
  rw [List.Perm.countP_eq _ (List.perm_cons_erase hf), List.countP_cons]
  simp only [decide_eq_true_eq]

/-- Blocks other than the resolved one keep being, or not being, valid and
dirty. -/
theorem dirty_among_congr (m : Machine) (a wf wd : Int) (ha : 0 ≤ a) (hg : GeomOk m.cache)
    (L : List Int) (hL : ∀ j ∈ L, j ≠ (resolve m a).1) :
    dirty_among (cache_access m a wf wd).2.cache L = dirty_among m.cache L := by
  unfold dirty_among
  apply List.countP_congr
  intro j hj
  rw [decide_eq_true_eq, decide_eq_true_eq, access_valid m a wf wd j ha hg,
    access_dirty m a wf wd j ha hg, if_neg (hL j hj)]
  constructor
  · rintro ⟨h1 | h1, h2⟩
    · exact absurd h1 (hL j hj)
    · exact ⟨h1, h2⟩
  · exact fun h => ⟨Or.inr h.1, h.2⟩

/-- What one call does to the write-back counter and to the resolved block
together. -/
theorem access_dirty_self (m : Machine) (a wf wd : Int) (ha : 0 ≤ a) (hg : GeomOk m.cache) :
    (cache_access m a wf wd).2.cache.writebacks
        + (if ((cache_access m a wf wd).2.cache.blocks (resolve m a).1).valid ≠ 0 ∧
              ((cache_access m a wf wd).2.cache.blocks (resolve m a).1).dirty ≠ 0
            then 1 else 0 : Int)
      ≤ m.cache.writebacks
        + (if (m.cache.blocks (resolve m a).1).valid ≠ 0 ∧
              (m.cache.blocks (resolve m a).1).dirty ≠ 0 then 1 else 0 : Int)
        + (if wf ≠ 0 then 1 else 0 : Int) := by
  obtain ⟨s1, _, _, s4⟩ := access_blocks_self m a wf wd ha hg
  rw [access_writebacks m a wf wd ha hg, s4]
  cases hh : is_hit m a with
  | true =>
    have hv := (resolve_hit_facts m a ha hg hh).2.1
    by_cases hw : wf ≠ 0
    · simp only [if_pos hw]
      split_ifs <;> simp_all
    · simp only [if_neg hw]
      split_ifs <;> simp_all
  | false =>
    rw [(resolve_miss_facts m a hh).2.1]
    by_cases hw : wf ≠ 0
    · simp only [if_pos hw]
      split_ifs <;> simp_all
    · simp only [if_neg hw]
      split_ifs <;> simp_all

/-- One call: the write-back counter plus the valid dirty blocks of any list
of distinct indices grows by at most one, and only when the call writes. -/
theorem access_dirty_budget (m : Machine) (a wf wd : Int) (ha : 0 ≤ a) (hg : GeomOk m.cache)
    (W : Int)
    (h : ∀ L : List Int, L.Nodup → m.cache.writebacks + (dirty_among m.cache L : Int) ≤ W) :
    ∀ L : List Int, L.Nodup →
      (cache_access m a wf wd).2.cache.writebacks
          + (dirty_among (cache_access m a wf wd).2.cache L : Int)
        ≤ W + (if wf ≠ 0 then 1 else 0 : Int) := by
  have key : ∀ L : List Int, L.Nodup → (resolve m a).1 ∈ L →
      (cache_access m a wf wd).2.cache.writebacks
          + (dirty_among (cache_access m a wf wd).2.cache L : Int)
        ≤ W + (if wf ≠ 0 then 1 else 0 : Int) := by
    intro L hL hf
    have h1 := dirty_among_erase (cache_access m a wf wd).2.cache L _ hf
    have h2 := dirty_among_erase m.cache L _ hf
    have h3 := dirty_among_congr m a wf wd ha hg (L.erase (resolve m a).1)
      (fun j hj => ((List.Nodup.mem_erase_iff hL).mp hj).1)
    have h4 := access_dirty_self m a wf wd ha hg
    have h5 := h L hL
    rw [h1, h3]
    rw [h2] at h5
    push_cast at h5 ⊢
    linarith
  intro L hL
  by_cases hf : (resolve m a).1 ∈ L
  · exact key L hL hf
  · have h1 := key ((resolve m a).1 :: L) (List.nodup_cons.mpr ⟨hf, hL⟩)
      (List.mem_cons_self _ _)
    have h2 : dirty_among (cache_access m a wf wd).2.cache L
        ≤ dirty_among (cache_access m a wf wd).2.cache ((resolve m a).1 :: L) := by
      unfold dirty_among
      rw [List.countP_cons]
      omega
    have h3 : (dirty_among (cache_access m a wf wd).2.cache L : Int)
        ≤ (dirty_among (cache_access m a wf wd).2.cache ((resolve m a).1 :: L) : Int) := by
      exact_mod_cast h2
    linarith

/-- A run: the budget grows by the number of calls that write. -/
theorem run_dirty_budget (accs : List Access) (m : Machine) (hm : Reachable m)
    (hnn : ∀ x ∈ accs, 0 ≤ x.addr) (W : Int)
    (h : ∀ L : List Int, L.Nodup → m.cache.writebacks + (dirty_among m.cache L : Int) ≤ W) :
    ∀ L : List Int, L.Nodup →
      (run m accs).cache.writebacks + (dirty_among (run m accs).cache L : Int)
        ≤ W + (write_calls accs : Int) := by
  induction accs generalizing m W with
  | nil =>
    intro L hL
    simpa [run, write_calls] using h L hL
  | cons x xs ih =>
    have hx := hnn x (List.mem_cons_self _ _)
    have hm1 := Reachable.step m x.addr x.write_flag x.write_data hm hx
    have hstep := access_dirty_budget m x.addr x.write_flag x.write_data hx
      (reachable_invariants hm).1 W h
    have := ih _ hm1 (fun y hy => hnn y (List.mem_cons_of_mem _ hy)) _ hstep
    intro L hL
    have h1 := this L hL
    have h2 : (write_calls (x :: xs) : Int)
        = (if x.write_flag ≠ 0 then 1 else 0 : Int) + (write_calls xs : Int) := by
      unfold write_calls
      rw [List.countP_cons]
      simp only [decide_eq_true_eq]
      split_ifs <;> push_cast <;> ring
    show (run (cache_access m x.addr x.write_flag x.write_data).2 xs).cache.writebacks
      + (dirty_among (run (cache_access m x.addr x.write_flag x.write_data).2 xs).cache L : Int)
      ≤ _
    rw [h2]
    linarith

/-- A run: write-backs grow by no more than misses do. -/
theorem run_writebacks_le (accs : List Access) (m : Machine) (hm : Reachable m)
    (hnn : ∀ x ∈ accs, 0 ≤ x.addr) :
    (run m accs).cache.writebacks - m.cache.writebacks
      ≤ (run m accs).cache.misses - m.cache.misses := by
  induction accs generalizing m with
  | nil => simp [run]
  | cons x xs ih =>
    have hx := hnn x (List.mem_cons_self _ _)
    have hg := (reachable_invariants hm).1
    have hm1 := Reachable.step m x.addr x.write_flag x.write_data hm hx
    have h1 := ih _ hm1 (fun y hy => hnn y (List.mem_cons_of_mem _ hy))
    have h2 : (cache_access m x.addr x.write_flag x.write_data).2.cache.writebacks
          - m.cache.writebacks
        ≤ (cache_access m x.addr x.write_flag x.write_data).2.cache.misses - m.cache.misses := by
      cases hh : is_hit m x.addr with
      | true =>
        obtain ⟨_, e2, e3, _⟩ := access_hit m x.addr x.write_flag x.write_data hx hg hh
        rw [e2, e3]
        omega
      | false =>
        obtain ⟨_, e2, e3, _⟩ := access_miss m x.addr x.write_flag x.write_data hh
        rw [e2, e3]
        split_ifs <;> omega
    show (run (cache_access m x.addr x.write_flag x.write_data).2 xs).cache.writebacks
        - m.cache.writebacks
      ≤ (run (cache_access m x.addr x.write_flag x.write_data).2 xs).cache.misses
        - m.cache.misses
    linarith

/-- C27. After a successful `cache_init` and calls of `cache_access` with
non-negative addresses, `writebacks` plus the number of dirty blocks that
`printStats` reports is at most the number of calls with `write_flag != 0`,
and `writebacks` is at most `misses`. -/
theorem writebacks_bounded_by_writes (st : stateType) (bs ns bps : Int)
    (ws : List initWarning) (c : cacheStruct)
    (hinit : cache_init cache_global bs ns bps = Except.ok (ws, c))
    (accs : List Access) (hnn : ∀ x ∈ accs, 0 ≤ x.addr) :
    (run (start st c) accs).cache.writebacks + dirtyBlocks (run (start st c) accs).cache
        ≤ (write_calls accs : Int) ∧
      (run (start st c) accs).cache.writebacks ≤ (run (start st c) accs).cache.misses := by
  have hm := Reachable.init st bs ns bps ws c hinit
  obtain ⟨_, _, ⟨_, h2, h3⟩, hz⟩ := cache_init_ok hinit
  refine ⟨?_, ?_⟩
  · have h0 : ∀ L : List Int, L.Nodup →
        (start st c).cache.writebacks + (dirty_among (start st c).cache L : Int) ≤ 0 := by
      intro L _
      have : dirty_among (start st c).cache L = 0 := by
        unfold dirty_among
        rw [List.countP_eq_zero]
        intro j _
        show ¬ (decide ((c.blocks j).valid ≠ 0 ∧ (c.blocks j).dirty ≠ 0) = true)
        rw [hz]
        simp [block_zero]
      rw [this]
      show c.writebacks + ((0 : Nat) : Int) ≤ 0
      rw [h3]
      simp
    have := run_dirty_budget accs _ hm hnn 0 h0 _
      (List.Nodup.map (fun (x y : Nat) (h : (x : Int) = (y : Int)) => Int.ofNat.inj h)
        (List.nodup_range (wrap32 ((run (start st c) accs).cache.numSets
          * (run (start st c) accs).cache.blocksPerSet)).toNat))
    rw [dirtyBlocks_eq]
    linarith
  · have := run_writebacks_le accs _ hm hnn
    have e1 : (start st c).cache.writebacks = 0 := h3
    have e2 : (start st c).cache.misses = 0 := h2
    rw [e1, e2] at this
    linarith

theorem writebacks_bounded_by_writes_witness :
    (run example_direct [⟨0, 1, 7⟩, ⟨8, 1, 9⟩, ⟨4, 0, 0⟩]).cache.writebacks = 1 ∧
      dirtyBlocks (run example_direct [⟨0, 1, 7⟩, ⟨8, 1, 9⟩, ⟨4, 0, 0⟩]).cache = 1 ∧
      write_calls [⟨0, 1, 7⟩, ⟨8, 1, 9⟩, ⟨4, 0, 0⟩] = 2 ∧
      (run (start example_store (init_result 4 2 1).2)
            [⟨0, 1, 7⟩, ⟨8, 1, 9⟩, ⟨4, 0, 0⟩]).cache.writebacks
          + dirtyBlocks (run (start example_store (init_result 4 2 1).2)
            [⟨0, 1, 7⟩, ⟨8, 1, 9⟩, ⟨4, 0, 0⟩]).cache
        ≤ (write_calls [⟨0, 1, 7⟩, ⟨8, 1, 9⟩, ⟨4, 0, 0⟩] : Int) :=
  ⟨by decide, by decide, by decide,
    (writebacks_bounded_by_writes example_store 4 2 1 (init_result 4 2 1).1 (init_result 4 2 1).2
      rfl [⟨0, 1, 7⟩, ⟨8, 1, 9⟩, ⟨4, 0, 0⟩] (by decide)).1⟩

/-! ## The assembler's words and the simulator's field extractors -/

/-- Four bit fields that do not overlap: their bitwise or is their sum. -/
theorem nat_fields (o a b x : Nat) (ha : a < 8) (hb : b < 8) (hx : x < 65536) :
    o <<< 22 ||| a <<< 19 ||| b <<< 16 ||| x = o * 4194304 + a * 524288 + b * 65536 + x := by
  rw [Nat.lor_assoc, Nat.lor_assoc, Nat.shiftLeft_eq, Nat.shiftLeft_eq, Nat.shiftLeft_eq]
  have e1 : b * 2 ^ 16 ||| x = 2 ^ 16 * b + x := by
    rw [Nat.mul_comm]
    exact (Nat.mul_add_lt_is_or (by omega) b).symm
  have e2 : a * 2 ^ 19 ||| (2 ^ 16 * b + x) = 2 ^ 19 * a + (2 ^ 16 * b + x) := by
    rw [Nat.mul_comm]
    exact (Nat.mul_add_lt_is_or (by omega) a).symm
  have e3 : o * 2 ^ 22 ||| (2 ^ 19 * a + (2 ^ 16 * b + x))
      = 2 ^ 22 * o + (2 ^ 19 * a + (2 ^ 16 * b + x)) := by
    rw [Nat.mul_comm]
    exact (Nat.mul_add_lt_is_or (by omega) o).symm
  rw [e1, e2, e3]
  omega

/-- The low three bits of a shifted word. -/
theorem nat_field_at (w k : Nat) : w >>> k &&& 7 = w / 2 ^ k % 8 := by
  rw [Nat.shiftRight_eq_div_pow]
  exact Nat.and_pow_two_sub_one_eq_mod _ 3

/-- Bit 15 of a 16-bit number is set exactly from 32768 on. -/
theorem nat_sign_bit (n : Nat) (hn : n < 65536) : n &&& 32768 = if 32768 ≤ n then 32768 else 0 := by
  have h := Nat.and_two_pow n 15
  have e : (2 : Nat) ^ 15 = 32768 := by norm_num
  rw [e] at h
  rw [h, Nat.testBit_to_div_mod, e]
  by_cases h1 : 32768 ≤ n
  · have : n / 32768 % 2 = 1 := by omega
    simp [this, h1]
  · have : ¬ (n / 32768 % 2 = 1) := by omega
    simp [this, h1]

/-- The low 16 bits of the two's-complement pattern of a negative number. -/
theorem nat_ldiff_low (n : Nat) (h : n < 65536) : Nat.ldiff 65535 n = 65535 - n := by
  apply Nat.eq_of_testBit_eq
  intro i
  rw [Nat.testBit_ldiff]
  have h1 := @Nat.testBit_two_pow_sub_succ n 16 h i
  have e : 2 ^ 16 - (n + 1) = 65535 - n := by omega
  rw [e] at h1
  rw [h1]
  have h2 : Nat.testBit 65535 i = decide (i < 16) := by
    have := @Nat.testBit_two_pow_sub_one 16 i
    simpa using this
  rw [h2]

/-- The expression `offset & 0xFFFF` on an offset of 16 bits. -/
theorem land_offset (offset : Int) (h1 : -32768 ≤ offset) (h2 : offset ≤ 32767) :
    ∃ x : Nat, Int.land offset 65535 = (x : Int) ∧ x < 65536 ∧
      (x : Int) = if 0 ≤ offset then offset else offset + 65536 := by
  cases offset with
  | ofNat n =>
    refine ⟨n &&& 65535, rfl, ?_, ?_⟩
    · have := Nat.and_pow_two_sub_one_eq_mod n 16
      have e : (2 : Nat) ^ 16 - 1 = 65535 := by norm_num
      rw [e] at this
      rw [this]
      omega
    · have := Nat.and_pow_two_sub_one_eq_mod n 16
      have e : (2 : Nat) ^ 16 - 1 = 65535 := by norm_num
      rw [e] at this
      rw [this]
      have hn : n ≤ 32767 := by
        have : ((n : Nat) : Int) ≤ 32767 := h2
        omega
      have : 0 ≤ Int.ofNat n := Int.ofNat_nonneg n
      rw [if_pos this]
      show ((n % 2 ^ 16 : Nat) : Int) = (n : Int)
      omega
  | negSucc n =>
    have hn : n < 32768 := by
      have : -32768 ≤ -((n : Int) + 1) := by rw [← Int.negSucc_eq]; exact h1
      omega
    refine ⟨Nat.ldiff 65535 n, rfl, ?_, ?_⟩
    · rw [nat_ldiff_low n (by omega)]; omega
    · rw [nat_ldiff_low n (by omega)]
      have : ¬ (0 ≤ Int.negSucc n) := by
        rw [Int.negSucc_eq]; omega
      rw [if_neg this, Int.negSucc_eq]
      omega

/-- The function `convertNum` on a 16-bit pattern. -/
theorem convertNum_nat (x : Nat) (hx : x < 65536) :
    convertNum (x : Int) = if 32768 ≤ x then (x : Int) - 65536 else (x : Int) := by
  unfold convertNum
  have e : Int.land (x : Int) 32768 = ((x &&& 32768 : Nat) : Int) := rfl
  rw [e, nat_sign_bit x hx]
  by_cases h : 32768 ≤ x
  · rw [if_pos h, if_pos h, if_pos (by decide)]
  · rw [if_neg h, if_neg h, if_neg (by decide)]
    omega

/-- The three high fields of a word whose low 16 bits are `x`. -/
theorem fields_of_word (o a b x : Nat) (ho : o < 8) (ha : a < 8) (hb : b < 8) (hx : x < 65536) :
    getOpcode ((o * 4194304 + a * 524288 + b * 65536 + x : Nat) : Int) = (o : Int) ∧
      getRegA ((o * 4194304 + a * 524288 + b * 65536 + x : Nat) : Int) = (a : Int) ∧
      getRegB ((o * 4194304 + a * 524288 + b * 65536 + x : Nat) : Int) = (b : Int) ∧
      Int.land ((o * 4194304 + a * 524288 + b * 65536 + x : Nat) : Int) 65535 = (x : Int) ∧
      getDestReg ((o * 4194304 + a * 524288 + b * 65536 + x : Nat) : Int) = ((x % 8 : Nat) : Int) := by
  refine ⟨?_, ?_, ?_, ?_, ?_⟩
  · show (((o * 4194304 + a * 524288 + b * 65536 + x) >>> 22 &&& 7 : Nat) : Int) = _
    rw [nat_field_at]
    norm_num
    omega
  · show (((o * 4194304 + a * 524288 + b * 65536 + x) >>> 19 &&& 7 : Nat) : Int) = _
    rw [nat_field_at]
    norm_num
    omega
  · show (((o * 4194304 + a * 524288 + b * 65536 + x) >>> 16 &&& 7 : Nat) : Int) = _
    rw [nat_field_at]
    norm_num
    omega
  · show (((o * 4194304 + a * 524288 + b * 65536 + x) &&& 65535 : Nat) : Int) = _
    have := Nat.and_pow_two_sub_one_eq_mod (o * 4194304 + a * 524288 + b * 65536 + x) 16
    have e : (2 : Nat) ^ 16 - 1 = 65535 := by norm_num
    rw [e] at this
    rw [this]
    norm_num
    omega
  · show (((o * 4194304 + a * 524288 + b * 65536 + x) &&& 7 : Nat) : Int) = _
    have := Nat.and_pow_two_sub_one_eq_mod (o * 4194304 + a * 524288 + b * 65536 + x) 3
    have e : (2 : Nat) ^ 3 - 1 = 7 := by norm_num
    rw [e] at this
    rw [this]
    norm_num
    omega

/-- The three shifted fields and a low field of natural numbers, as one
natural number. -/
theorem word_of_nat (o a b x : Nat) (ha : a < 8) (hb : b < 8) (hx : x < 65536) :
    Int.lor (Int.lor (Int.lor ((o : Int) <<< (22 : Int)) ((a : Int) <<< (19 : Int)))
        ((b : Int) <<< (16 : Int))) (x : Int)
      = ((o * 4194304 + a * 524288 + b * 65536 + x : Nat) : Int) := by
  have e22 : ((o : Int) <<< (22 : Int)) = ((o <<< 22 : Nat) : Int) := Int.shiftLeft_coe_nat o 22
  have e19 : ((a : Int) <<< (19 : Int)) = ((a <<< 19 : Nat) : Int) := Int.shiftLeft_coe_nat a 19
  have e16 : ((b : Int) <<< (16 : Int)) = ((b <<< 16 : Nat) : Int) := Int.shiftLeft_coe_nat b 16
  rw [e22, e19, e16, ← nat_fields o a b x ha hb hx]
  rfl

/-- C28. The field extractors of the simulator undo the encoding of the
assembler: for an opcode number and two registers in `0 .. 7` and an offset in
`-32768 .. 32767`, the word built for `lw`, `sw` and `beq` gives back the
opcode, both registers and the offset; and with a destination register in
`0 .. 7`, the word built for `add` and `nor` gives back the destination
register, and the opcode and both registers too. -/
theorem assembler_fields_roundtrip (op a b : Int) (hop : 0 ≤ op ∧ op ≤ 7)
    (ha : 0 ≤ a ∧ a ≤ 7) (hb : 0 ≤ b ∧ b ≤ 7) :
    (∀ offset : Int, -32768 ≤ offset → offset ≤ 32767 →
      getOpcode (machineCode_offset op a b offset) = op ∧
      getRegA (machineCode_offset op a b offset) = a ∧
      getRegB (machineCode_offset op a b offset) = b ∧
      getOffset (machineCode_offset op a b offset) = offset) ∧
    (∀ d : Int, 0 ≤ d → d ≤ 7 →
      getDestReg (machineCode_reg op a b d) = d ∧
      getOpcode (machineCode_reg op a b d) = op ∧
      getRegA (machineCode_reg op a b d) = a ∧
      getRegB (machineCode_reg op a b d) = b) := by
  obtain ⟨o, rfl⟩ := Int.eq_ofNat_of_zero_le hop.1
  obtain ⟨a, rfl⟩ := Int.eq_ofNat_of_zero_le ha.1
  obtain ⟨b, rfl⟩ := Int.eq_ofNat_of_zero_le hb.1
  have ho8 : o < 8 := by omega
  have ha8 : a < 8 := by omega
  have hb8 : b < 8 := by omega
  refine ⟨?_, ?_⟩
  · intro offset h1 h2
    obtain ⟨x, e, hx, hval⟩ := land_offset offset h1 h2
    unfold machineCode_offset
    rw [e, word_of_nat o a b x ha8 hb8 hx]
    obtain ⟨f1, f2, f3, f4, _⟩ := fields_of_word o a b x ho8 ha8 hb8 hx
    refine ⟨f1, f2, f3, ?_⟩
    unfold getOffset
    rw [f4, convertNum_nat x hx]
    split_ifs at hval ⊢ <;> omega
  · intro d hd1 hd2
    obtain ⟨x, rfl⟩ := Int.eq_ofNat_of_zero_le hd1
    have hx : x < 65536 := by omega
    unfold machineCode_reg
    rw [word_of_nat o a b x ha8 hb8 hx]
    obtain ⟨f1, f2, f3, _, f5⟩ := fields_of_word o a b x ho8 ha8 hb8 hx
    refine ⟨?_, f1, f2, f3⟩
    rw [f5]
    omega

theorem assembler_fields_roundtrip_witness :
    getOpcode (machineCode_offset 2 0 1 (-1)) = 2 ∧
      getRegA (machineCode_offset 2 0 1 (-1)) = 0 ∧
      getRegB (machineCode_offset 2 0 1 (-1)) = 1 ∧
      getOffset (machineCode_offset 2 0 1 (-1)) = -1 ∧
      getDestReg (machineCode_reg 1 2 3 4) = 4 :=
  ⟨((assembler_fields_roundtrip 2 0 1 (by decide) (by decide) (by decide)).1 (-1)
      (by decide) (by decide)).1,
    ((assembler_fields_roundtrip 2 0 1 (by decide) (by decide) (by decide)).1 (-1)
      (by decide) (by decide)).2.1,
    ((assembler_fields_roundtrip 2 0 1 (by decide) (by decide) (by decide)).1 (-1)
      (by decide) (by decide)).2.2.1,
    ((assembler_fields_roundtrip 2 0 1 (by decide) (by decide) (by decide)).1 (-1)
      (by decide) (by decide)).2.2.2,
    ((assembler_fields_roundtrip 1 2 3 (by decide) (by decide) (by decide)).2 4
      (by decide) (by decide)).1⟩

/-! ## The reset of `cache_init` (lines 120-136) -/

/-- The loop of lines 129-135, run for `k` rounds on any cache: the blocks
`0 .. k-1` lose `valid`, `dirty`, `lruLabel` and `tag`, and nothing else
changes. -/
theorem init_loop_any (k : Nat) (c : cacheStruct) :
    (List.range k).foldl
        (fun (c : cacheStruct) (i : Nat) =>
          c.setBlock (i : Int)
            { c.blocks (i : Int) with valid := 0, dirty := 0, lruLabel := 0, tag := 0 })
        c
      = { c with blocks := fun j =>
            if 0 ≤ j ∧ j < (k : Int) then
              { c.blocks j with valid := 0, dirty := 0, lruLabel := 0, tag := 0 }
            else c.blocks j } := by
  induction k with
  | zero =>
    apply cacheStruct_ext <;> try rfl
    intro j
    show c.blocks j = if 0 ≤ j ∧ j < ((0 : Nat) : Int) then _ else c.blocks j
    rw [if_neg (by omega)]
  | succ k ih =>
    rw [List.range_succ, List.foldl_append, ih]
    apply cacheStruct_ext <;> try rfl
    intro j
    simp only [List.foldl_cons, List.foldl_nil, setBlock_blocks]
    by_cases hj : j = (k : Int)
    · subst hj
      rw [if_pos rfl, if_neg (by omega), if_pos (by omega)]
    · rw [if_neg hj]
      by_cases hlt : 0 ≤ j ∧ j < (k : Int)
      · rw [if_pos hlt, if_pos (by omega)]
      · rw [if_neg hlt, if_neg (by omega)]

/-- What a successful `cache_init` leaves, whatever the global held before:
the arguments passed the three checks, and the new value is the old one with
the arguments as geometry, zero counters and the blocks of the loop reset. -/
theorem cache_init_any {cache0 : cacheStruct} {bs ns bps : Int} {ws : List initWarning}
    {c : cacheStruct} (h : cache_init cache0 bs ns bps = Except.ok (ws, c)) :
    (0 < bs ∧ 0 < ns ∧ 0 < bps ∧ wrap32 (bps * ns) ≤ MAX_CACHE_SIZE ∧ bs ≤ MAX_BLOCK_SIZE) ∧
      c = { blocks := fun j =>
              if 0 ≤ j ∧ j < ((wrap32 (ns * bps)).toNat : Int) then
                { cache0.blocks j with valid := 0, dirty := 0, lruLabel := 0, tag := 0 }
              else cache0.blocks j,
            blockSize := bs, numSets := ns, blocksPerSet := bps,
            hits := 0, misses := 0, writebacks := 0 } := by
  unfold cache_init at h
  by_cases h1 : bs ≤ 0 ∨ ns ≤ 0 ∨ bps ≤ 0
  · rw [if_pos h1] at h; cases h
  rw [if_neg h1] at h
  by_cases h2 : wrap32 (bps * ns) > MAX_CACHE_SIZE
  · rw [if_pos h2] at h; cases h
  rw [if_neg h2] at h
  by_cases h3 : bs > MAX_BLOCK_SIZE
  · rw [if_pos h3] at h; cases h
  rw [if_neg h3] at h
  simp only [Except.ok.injEq, Prod.mk.injEq] at h
  obtain ⟨_, hc⟩ := h
  subst hc
  refine ⟨⟨by omega, by omega, by omega, by omega, by omega⟩, ?_⟩
  rw [init_loop_any]

/-- The first call after `cache_init`, when every block of the set of the
address is invalid: a miss that prints the fill and the processor line. -/
theorem first_access_of_empty_set (m : Machine) (a wf wd : Int) (hp : m.printed = [])
    (hh : m.cache.hits = 0) (hm : m.cache.misses = 0)
    (hset : ∀ j, inSet m.cache (get_set_index m.cache a) j → (m.cache.blocks j).valid = 0)
    (hv : (m.cache.blocks (victim m a)).valid = 0) :
    is_hit m a = false ∧
      (cache_access m a wf wd).2.cache.misses = 1 ∧
      (cache_access m a wf wd).2.cache.hits = 0 ∧
      (cache_access m a wf wd).2.printed
        = [{ address := Int.tdiv a m.cache.blockSize * m.cache.blockSize,
             size := m.cache.blockSize, type := actionType.memoryToCache },
           { address := a, size := 1,
             type := if wf ≠ 0 then actionType.processorToCache
                     else actionType.cacheToProcessor }] := by
  have hmiss : is_hit m a = false := by
    unfold is_hit
    rw [lookup_none_of (fun w hw h => h.1 (hset _ (inSet_way m.cache _ w hw)))]
    rfl
  obtain ⟨h1, h2, _, hpr, _⟩ := access_miss m a wf wd hmiss
  refine ⟨hmiss, ?_, ?_, ?_⟩
  · rw [h2, hm]; rfl
  · rw [h1]; exact hh
  · rw [hpr, if_neg (fun h => h.1 hv), if_neg (fun h => h hv), hp]
    simp only [base_addr, proc_action, List.append_nil, List.nil_append]
    split_ifs <;> rfl

/-- C15. A successful `cache_init(blockSize, numSets, blocksPerSet)`, run on
any previous value of the global `cache`, stores the arguments as geometry,
sets `hits`, `misses` and `writebacks` to 0 and sets `valid`, `dirty`,
`lruLabel` and `tag` to 0 in every block with index from 0 up to the `int`
value of `numSets * blocksPerSet`, leaving every other block and all data
words as they were.  When the product `numSets * blocksPerSet` is in the range
of `int`, these are all the blocks with index below `numSets * blocksPerSet`,
and the first `cache_access` to a non-negative address is a miss that prints
no eviction line: only the fill and the processor line.  When the previous
value is the zero-initialised global, as at the one call in `main`, every
block is invalid and clean and the same holds for the first `cache_access` to
any address. -/
theorem init_state (cache0 : cacheStruct) (bs ns bps : Int) (ws : List initWarning)
    (c : cacheStruct) (hinit : cache_init cache0 bs ns bps = Except.ok (ws, c)) :
    (c.blockSize = bs ∧ c.numSets = ns ∧ c.blocksPerSet = bps) ∧
    (c.hits = 0 ∧ c.misses = 0 ∧ c.writebacks = 0) ∧
    (∀ j : Int, 0 ≤ j → j < wrap32 (ns * bps) →
      (c.blocks j).valid = 0 ∧ (c.blocks j).dirty = 0 ∧ (c.blocks j).lruLabel = 0 ∧
        (c.blocks j).tag = 0) ∧
    (∀ j : Int, ¬ (0 ≤ j ∧ j < wrap32 (ns * bps)) → c.blocks j = cache0.blocks j) ∧
    (∀ j : Int, (c.blocks j).data = (cache0.blocks j).data) ∧
    (ns * bps ≤ 2147483647 →
      (∀ j : Int, 0 ≤ j → j < ns * bps → (c.blocks j).valid = 0 ∧ (c.blocks j).dirty = 0) ∧
      ∀ (st : stateType) (a wf wd : Int), 0 ≤ a →
        is_hit (start st c) a = false ∧
        (cache_access (start st c) a wf wd).2.cache.misses = 1 ∧
        (cache_access (start st c) a wf wd).2.cache.hits = 0 ∧
        (cache_access (start st c) a wf wd).2.printed
          = [{ address := Int.tdiv a bs * bs, size := bs, type := actionType.memoryToCache },
             { address := a, size := 1,
               type := if wf ≠ 0 then actionType.processorToCache
                       else actionType.cacheToProcessor }]) ∧
    (cache0 = cache_global →
      (∀ j : Int, 0 ≤ j → j < ns * bps → (c.blocks j).valid = 0 ∧ (c.blocks j).dirty = 0) ∧
      ∀ (st : stateType) (a wf wd : Int),
        is_hit (start st c) a = false ∧
        (cache_access (start st c) a wf wd).2.cache.misses = 1 ∧
        (cache_access (start st c) a wf wd).2.cache.hits = 0 ∧
        (cache_access (start st c) a wf wd).2.printed
          = [{ address := Int.tdiv a bs * bs, size := bs, type := actionType.memoryToCache },
             { address := a, size := 1,
               type := if wf ≠ 0 then actionType.processorToCache
                       else actionType.cacheToProcessor }]) := by
  obtain ⟨⟨p1, p2, p3, _, _⟩, hc⟩ := cache_init_any hinit
  have hblocks : ∀ j, c.blocks j
      = if 0 ≤ j ∧ j < ((wrap32 (ns * bps)).toNat : Int) then
          { cache0.blocks j with valid := 0, dirty := 0, lruLabel := 0, tag := 0 }
        else cache0.blocks j := by
    intro j; rw [hc]
  have hbs : c.blockSize = bs := by rw [hc]
  have hns : c.numSets = ns := by rw [hc]
  have hbps : c.blocksPerSet = bps := by rw [hc]
  have hhits : c.hits = 0 := by rw [hc]
  have hmisses : c.misses = 0 := by rw [hc]
  have hwb : c.writebacks = 0 := by rw [hc]
  have hreset : ∀ j : Int, 0 ≤ j → j < wrap32 (ns * bps) →
      (c.blocks j).valid = 0 ∧ (c.blocks j).dirty = 0 ∧ (c.blocks j).lruLabel = 0 ∧
        (c.blocks j).tag = 0 := by
    intro j hj0 hj1
    rw [hblocks, if_pos ⟨hj0, by omega⟩]
    exact ⟨rfl, rfl, rfl, rfl⟩
  refine ⟨⟨hbs, hns, hbps⟩, ⟨hhits, hmisses, hwb⟩, hreset, ?_, ?_, ?_, ?_⟩
  · intro j hj
    rw [hblocks, if_neg (by omega)]
  · intro j
    rw [hblocks]
    split_ifs <;> rfl
  · intro hfit
    have hpos : 0 < ns * bps := Int.mul_pos p2 p3
    have hw : wrap32 (ns * bps) = ns * bps := wrap32_of_range _ (by omega) hfit
    rw [hw] at hreset
    refine ⟨fun j h0 h1 => ⟨(hreset j h0 h1).1, (hreset j h0 h1).2.1⟩, ?_⟩
    intro st a wf wd ha
    have hgeom : GeomOk (start st c).cache := by
      show 0 < c.blockSize ∧ 0 < c.numSets ∧ 0 < c.blocksPerSet
      rw [hbs, hns, hbps]; exact ⟨p1, p2, p3⟩
    have hrange := get_set_index_range c a ha hgeom.1 hgeom.2.1
    have hset : ∀ j, inSet (start st c).cache (get_set_index (start st c).cache a) j →
        ((start st c).cache.blocks j).valid = 0 := by
      intro j hj
      obtain ⟨t1, t2⟩ := inSet_in_table c _ j hgeom hrange.1 hrange.2 hj
      rw [hns, hbps] at t2
      exact (hreset j t1 t2).1
    have := first_access_of_empty_set (start st c) a wf wd rfl hhits hmisses hset
      (hset _ (victim_inSet (start st c) a ha hgeom))
    have e : (start st c).cache.blockSize = bs := hbs
    rw [e] at this
    exact this
  · intro h0
    have hz : ∀ j, (c.blocks j).valid = 0 ∧ (c.blocks j).dirty = 0 := by
      intro j
      rw [hblocks, h0]
      split_ifs <;> exact ⟨rfl, rfl⟩
    refine ⟨fun j _ _ => hz j, ?_⟩
    intro st a wf wd
    have := first_access_of_empty_set (start st c) a wf wd rfl hhits hmisses
      (fun j _ => (hz j).1) (hz _).1
    have e : (start st c).cache.blockSize = bs := hbs
    rw [e] at this
    exact this

theorem init_state_witness :
    (example_used.blocks 0).valid = 1 ∧ (example_used.blocks 0).dirty = 1 ∧
      example_used.misses = 1 ∧
      ((init_result_on example_used 2 1 2).2.blocks 0).valid = 0 ∧
      ((init_result_on example_used 2 1 2).2.blocks 0).dirty = 0 ∧
      (init_result_on example_used 2 1 2).2.misses = 0 ∧
      is_hit (start example_store (init_result_on example_used 2 1 2).2) 0 = false :=
  have h := init_state example_used 2 1 2 (init_result_on example_used 2 1 2).1
    (init_result_on example_used 2 1 2).2 rfl
  ⟨by decide, by decide, by decide, (h.2.2.1 0 (by decide) (by decide)).1,
    (h.2.2.1 0 (by decide) (by decide)).2.1, h.2.1.2.1,
    ((h.2.2.2.2.2.1 (by decide)).2 example_store 0 0 0 (by decide)).1⟩

end CacheSim
